import Mathlib

namespace Standoff

/-- Whitespace characters: the ASCII characters matched by Python's `\s` and
`str.isspace` that this model covers. -/
def isWS (c : Char) : Bool :=
  c = ' ' || c = '\t' || c = '\n' || c = '\r' || c = '\x0b' || c = '\x0c'

/-- Python `word.isspace()`: nonempty and all whitespace. -/
def isspace (w : List Char) : Bool := !w.isEmpty && w.all isWS

/-- Maximal runs of characters grouped by whitespace class; models the effect of
Python's `re.split` with a captured whitespace group (empty tokens dropped). -/
def tokenize : List Char → List (List Char)
  | [] => []
  | c :: cs =>
    match tokenize cs with
    | [] => [[c]]
    | [] :: ts => [c] :: ts
    | (d :: t) :: ts =>
      if isWS c = isWS d then (c :: d :: t) :: ts
      else [c] :: (d :: t) :: ts

/-- Decimal digit character. -/
def digitChar (d : Nat) : Char := Char.ofNat (48 + d)

/-- Decimal representation, fuel-based so that it reduces definitionally. -/
def natCharsAux : Nat → Nat → List Char
  | 0, _ => []
  | fuel + 1, n => if n < 10 then [digitChar n] else natCharsAux fuel (n / 10) ++ [digitChar (n % 10)]

/-- Decimal representation of a natural number, as Python's `str`. -/
def natChars (n : Nat) : List Char := natCharsAux (n + 1) n

/-- A node of the parsed tree: lxml element or other node kind (comment,
processing instruction), with tag, leading text, children and tail text. -/
inductive Node where
  | node (isElem : Bool) (tag : List Char) (text : Option (List Char))
      (children : List Node) (tail : Option (List Char))

def Node.isElem : Node → Bool | .node b _ _ _ _ => b

def Node.tag : Node → List Char | .node _ g _ _ _ => g

def Node.text : Node → Option (List Char) | .node _ _ t _ _ => t

def Node.children : Node → List Node | .node _ _ _ c _ => c

def Node.tail : Node → Option (List Char) | .node _ _ _ _ t => t

def textD (n : Node) : List Char := n.text.getD []

def tailD (n : Node) : List Char := n.tail.getD []

/-- The fixed inline-tag set from the source (line 51). -/
def inline_tags : List (List Char) :=
  ["a".toList, "abbr".toList, "acronym".toList, "b".toList, "bdo".toList, "big".toList,
   "br".toList, "button".toList, "cite".toList, "code".toList, "dfn".toList, "em".toList,
   "i".toList, "img".toList, "input".toList, "kbd".toList, "label".toList, "map".toList,
   "object".toList, "q".toList, "samp".toList, "script".toList, "select".toList,
   "small".toList, "span".toList, "strong".toList, "sub".toList, "sup".toList,
   "textarea".toList, "time".toList, "tt".toList, "var".toList]

/-- A child skipped by the traversal (lines 93 and 140): not an element,
or a `script`/`style` element. -/
def skipped (n : Node) : Bool :=
  !n.isElem || n.tag == "script".toList || n.tag == "style".toList

/-- Number of element children with the given tag (lxml's sibling-disambiguation count). -/
def sameTagCount (cs : List Node) (g : List Char) : Nat :=
  (cs.filter (fun d => d.isElem && d.tag == g)).length

/-- The path step lxml's `getelementpath` produces for child `j` of a node with
children `cs`: the tag alone when unique among element siblings, else `tag[k]`
with the 1-based index among same-tag element siblings. -/
def childStep (cs : List Node) (j : Nat) (g : List Char) : List Char :=
  if sameTagCount cs g ≤ 1 then g
  else g ++ '[' :: (natChars (sameTagCount (cs.take j) g + 1) ++ [']'])

/-- The module-level `spaceEndPreviousTag` global: `none` while the global name
is still unassigned (NameError when read), `some b` once assigned. -/
abbrev Flag := Option Bool

/-- A raw word standoff annotation, structured: glue marker, element path,
start and end offsets. Serialized by `serializeAnn` exactly as the source
builds the string at lines 85 and 123. -/
structure RawAnn where
  glue : Bool
  path : List Char
  start : Nat
  stop : Nat
deriving DecidableEq, Repr

/-- `path + ":" + str(start) + "-" + str(stop)`, with `+` prefix when glued. -/
def serializeAnn (an : RawAnn) : List Char :=
  (if an.glue then ['+'] else []) ++ an.path ++ ':' :: (natChars an.start ++ '-' :: natChars an.stop)

/-- The token loop of lines 73-88 (and identically 111-126): walks the split
tokens of one text, threading the position cursor, the whitespace flag and the
first-word trigger; returns `none` when the unassigned global is read. -/
def textLoop (path : List Char) (toks : List (List Char)) (pos : Nat) (f : Flag)
    (firstw : Bool) : Option (List RawAnn × Nat × Flag) :=
  match toks with
  | [] => some ([], pos, f)
  | w :: rest =>
    if isspace w then
      textLoop path rest (pos + w.length) (some true) false
    else if w.isEmpty then
      textLoop path rest pos f firstw
    else
      (if firstw then f.map (fun b => !b) else some false).bind (fun g =>
        (textLoop path rest (pos + w.length) (some false) false).map
          (fun r => (⟨g, path, pos, pos + w.length - 1⟩ :: r.1, r.2)))

/-- The per-element processing after the children: the trailing synthetic space
for block tags and `br` (lines 98-104) and the tail-text loop charging the
parent's cursor (lines 107-127). -/
def tailStep (isInl : Bool) (tag pp : List Char) (pCur : Nat)
    (own : List RawAnn × List Char × Nat × Flag)
    (kids : List RawAnn × List Char × Flag × Nat)
    (tail : Option (List Char)) : Option (List RawAnn × List Char × Flag × Nat) :=
  let t3 : List Char := if !isInl then [' '] else if tag = "br".toList then [' '] else []
  let f3 : Flag := if !isInl then some true
    else if tag = "br".toList then some true else kids.2.2.1
  match tail with
  | none => some (own.1 ++ kids.1, own.2.1 ++ (kids.2.1 ++ t3), f3, pCur)
  | some ts =>
    (textLoop pp (tokenize ts) pCur f3 true).map
      (fun tl => (own.1 ++ (kids.1 ++ tl.1), own.2.1 ++ (kids.2.1 ++ (t3 ++ ts)),
        tl.2.2, tl.2.1))

/-- The own-text processing of lines 66-89: the leading synthetic space for
block tags, the bulk text append, and the token loop from cursor 0. Returns
(standoff, text, wordposition, flag). -/
def ownTextStep (isInl : Bool) (op : List Char) (text : Option (List Char)) (f : Flag) :
    Option (List RawAnn × List Char × Nat × Flag) :=
  match text with
  | none => some ([], [], 0, f)
  | some s =>
    (textLoop op (tokenize s) 0 (if isInl then f else some true) true).map
      (fun r => (r.1, (if isInl then [] else [' ']) ++ s, r.2.1, r.2.2))

mutual

/-- `getWordStandoff` (lines 53-129). `op` is `document.getelementpath(element)`,
`pp` the parent's path, `pCur` the parent's entry in `positionsdict`, `f` the
global whitespace flag. Returns the standoff list, the plain text, the updated
flag and the updated parent cursor. -/
def getWordStandoff (element : Node) (op pp : List Char) (pCur : Nat) (f : Flag) :
    Option (List RawAnn × List Char × Flag × Nat) :=
  match element with
  | .node _ tag text cs tail =>
    (ownTextStep (inline_tags.contains tag) op text f).bind (fun own =>
      (childrenLoop cs cs 0 op own.2.2.1 own.2.2.2).bind (fun kids =>
        tailStep (inline_tags.contains tag) tag pp pCur own kids tail))

/-- The child iteration of lines 92-96: skipped children are ignored entirely;
processed children thread the element's cursor (their parent cursor) and flag. -/
def childrenLoop (all rest : List Node) (j : Nat) (op : List Char) (eCur : Nat) (f : Flag) :
    Option (List RawAnn × List Char × Flag × Nat) :=
  match rest with
  | [] => some ([], [], f, eCur)
  | c :: cs =>
    if skipped c then childrenLoop all cs (j + 1) op eCur f
    else
      (getWordStandoff c (op ++ '/' :: childStep all j c.tag) op eCur f).bind (fun ca =>
        (childrenLoop all cs (j + 1) op ca.2.2.2 ca.2.2.1).map (fun ra =>
          (ca.1 ++ ra.1, ca.2.1 ++ ra.2.1, ra.2.2.1, ra.2.2.2)))

end

/-- The glue pass of lines 146-158, operating on serialized annotation strings
with a buffered entry. -/
def gluePassGo : List (List Char) → Option (List Char) → List (List Char)
  | [], none => []
  | [], some b => [b]
  | a :: rest, none => gluePassGo rest (some a)
  | a :: rest, some b =>
    if a.head? = some '+' then gluePassGo rest (some (b ++ a))
    else b :: gluePassGo rest (some a)

def gluePass (l : List (List Char)) : List (List Char) := gluePassGo l none

/-- The top-level loop of lines 139-144: root children, skipped filter, and the
`if wordstandoff:` filter that drops both the standoff and the text of a child
whose subtree produced no annotations (state still threads through). -/
def docLoop (all rest : List Node) (j : Nat) (rCur : Nat) (f : Flag) :
    Option (List RawAnn × List Char × Flag × Nat) :=
  match rest with
  | [] => some ([], [], f, rCur)
  | c :: cs =>
    if skipped c then docLoop all cs (j + 1) rCur f
    else
      (getWordStandoff c (childStep all j c.tag) ['.'] rCur f).bind (fun ca =>
        (docLoop all cs (j + 1) ca.2.2.2 ca.2.2.1).map (fun ra =>
          if ca.1.isEmpty then (ra.1, ra.2.1, ra.2.2.1, ra.2.2.2)
          else (ca.1 ++ ra.1, ca.2.1 ++ ra.2.1, ra.2.2.1, ra.2.2.2)))

/-- `getDocumentStandoff` up to the glue pass: raw annotation list and plain text. -/
def getDocumentRaw (document : Node) (f : Flag) : Option (List RawAnn × List Char × Flag) :=
  match document with
  | .node _ _ _ cs _ => (docLoop cs cs 0 0 f).map (fun r => (r.1, r.2.1, r.2.2.1))

/-- `getDocumentStandoff` (lines 131-160): raw pass then glue pass. -/
def getDocumentStandoff (document : Node) (f : Flag) :
    Option (List (List Char) × List Char × Flag) :=
  (getDocumentRaw document f).map (fun r => (gluePass (r.1.map serializeAnn), r.2.1, r.2.2))

/-! ### Specification-side machinery: addresses, paths, charged text, resolution -/

/-- Node lookup along an address (list of child indices). -/
def nodeAt : Node → List Nat → Option Node
  | n, [] => some n
  | n, j :: rest =>
    match n.children.get? j with
    | none => none
    | some c => nodeAt c rest

/-- An address whose every step lands on an element node. -/
def elemAddr : Node → List Nat → Bool
  | _, [] => true
  | n, j :: rest =>
    match n.children.get? j with
    | none => false
    | some c => c.isElem && elemAddr c rest

/-- The list of path steps (as produced by `childStep`) along an address. -/
def pathSteps : Node → List Nat → Option (List (List Char))
  | _, [] => some []
  | n, j :: rest =>
    match n.children.get? j with
    | none => none
    | some c => (pathSteps c rest).map (fun l => childStep n.children j c.tag :: l)

/-- Join path steps with `/` separators. -/
def joinSteps : List (List Char) → List Char
  | [] => []
  | [s] => s
  | s :: r :: rest => s ++ '/' :: joinSteps (r :: rest)

/-- The `getelementpath` string of the node at an address: `.` for the root
itself, else the slash-joined steps. -/
def pathOf (r : Node) (ad : List Nat) : Option (List Char) :=
  match ad with
  | [] => some ['.']
  | j :: rest => (pathSteps r (j :: rest)).map joinSteps

mutual

/-- All addresses of nodes in a tree. -/
def allAddrs : Node → List (List Nat)
  | .node _ _ _ cs _ => [] :: allAddrsGo cs 0

def allAddrsGo : List Node → Nat → List (List Nat)
  | [], _ => []
  | c :: cs, j => (allAddrs c).map (fun a => j :: a) ++ allAddrsGo cs (j + 1)

end

/-- Well-formedness of one tag for path reasoning: nonempty, free of the
path metacharacters `/` and `[`, not the root path `.`, and not starting with
the glue marker `+`. Real HTML tag names satisfy all of these. -/
def tagOk (g : List Char) : Bool :=
  !g.isEmpty && decide ('/' ∉ g) && decide ('[' ∉ g) && decide (g ≠ ['.']) &&
    decide (g.head? ≠ some '+')

mutual

/-- Every element tag in the tree is well-formed in the sense of `tagOk`. -/
def tagsOk : Node → Bool
  | .node ie g _ cs _ => (!ie || tagOk g) && tagsOkList cs

def tagsOkList : List Node → Bool
  | [] => true
  | c :: cs => tagsOk c && tagsOkList cs

end

/-- The text charged to a non-root node's cursor: its own leading text followed
by the tail texts of its processed (non-skipped) children, in order. -/
def chargedOf (n : Node) : List Char :=
  textD n ++ ((n.children.filter (fun c => !skipped c)).map tailD).flatten

/-- The text charged to the root's cursor: only the tails of its processed
children (the root's own text is ignored by the traversal). -/
def chargedRoot (r : Node) : List Char :=
  ((r.children.filter (fun c => !skipped c)).map tailD).flatten

/-- Resolve a path string against the tree: the charged text of the unique
element node whose `getelementpath` equals the path. -/
def resolveCharged (r : Node) (p : List Char) : Option (List Char) :=
  if p = ['.'] then some (chargedRoot r)
  else
    match (allAddrs r).find? (fun a => !a.isEmpty && elemAddr r a && (pathOf r a == some p)) with
    | none => none
    | some a => (nodeAt r a).map chargedOf

/-- The characters of `s` from offset `a` to offset `b`, inclusive. -/
def extract (s : List Char) (a b : Nat) : List Char := (s.drop a).take (b + 1 - a)

/-- The maximal whitespace-delimited non-whitespace runs of a text, in order. -/
def wordsAux : List Char → List Char → List (List Char)
  | [], acc => if acc.isEmpty then [] else [acc.reverse]
  | c :: cs, acc =>
    if isWS c then (if acc.isEmpty then wordsAux cs [] else acc.reverse :: wordsAux cs [])
    else wordsAux cs (c :: acc)

/-- The list of maximal non-whitespace runs of a text. -/
def wordsOf (s : List Char) : List (List Char) := wordsAux s []

/-- Group a raw annotation list into glue groups: an annotation with the glue
flag joins the group of its predecessor, one without starts a new group. -/
def glueRuns : List RawAnn → List (List RawAnn)
  | [] => []
  | a :: rest =>
    match glueRuns rest with
    | [] => [[a]]
    | [] :: gs => [a] :: gs
    | (b :: g) :: gs => if b.glue then (a :: b :: g) :: gs else [a] :: (b :: g) :: gs

/-- The same grouping on serialized strings, keyed on the `+` prefix. -/
def glueRunsStr : List (List Char) → List (List (List Char))
  | [] => []
  | a :: rest =>
    match glueRunsStr rest with
    | [] => [[a]]
    | [] :: gs => [a] :: gs
    | (b :: g) :: gs => if b.head? = some '+' then (a :: b :: g) :: gs else [a] :: (b :: g) :: gs

/-! ### Token algebra -/

/-- All characters of `w` have whitespace class `b`. -/
def sameClass (b : Bool) (w : List Char) : Prop := ∀ c ∈ w, isWS c = b

/-- Nonempty tokens strictly alternating in class, starting with class `!b`. -/
def AltFrom : Bool → List (List Char) → Prop
  | _, [] => True
  | b, w :: rest => w ≠ [] ∧ sameClass (!b) w ∧ AltFrom (!b) rest

/-- A token list whose tokens are nonempty, homogeneous, and alternate in class. -/
def AltToks : List (List Char) → Prop
  | [] => True
  | w :: rest => w ≠ [] ∧ ∃ b, sameClass b w ∧ AltFrom b rest

/-- Decimal parse, inverse of `natChars`. -/
def digitsVal (l : List Char) : Nat := l.foldl (fun a c => a * 10 + (c.toNat - 48)) 0

/-! ### Stream decompositions: emitted text as leading whitespace plus
annotated words each followed by whitespace, with the glue/flag discipline -/

/-- One annotated word together with the whitespace emitted directly after it. -/
structure Piece where
  pw : List Char
  an : RawAnn
  trail : List Char
deriving DecidableEq

/-- A decomposition of an emitted text stream. -/
structure Decomp where
  lead : List Char
  items : List Piece
deriving DecidableEq

def renderItems : List Piece → List Char
  | [] => []
  | p :: rest => p.pw ++ (p.trail ++ renderItems rest)

def Decomp.render (d : Decomp) : List Char := d.lead ++ renderItems d.items

def Decomp.anns (d : Decomp) : List RawAnn := d.items.map (fun p => p.an)

/-- Whitespace-only string (possibly empty). -/
def wsStr (s : List Char) : Prop := ∀ c ∈ s, isWS c = true

/-- The glue and whitespace-flag discipline along the pieces: the effective flag
before each word decides its glue mark, a word sets the flag to `some false`,
trailing whitespace sets it to `some true`; the flag is never read unassigned. -/
def itemsOK : Flag → List Piece → Flag → Prop
  | f, [], fOut => fOut = f
  | f, p :: rest, fOut =>
    p.pw ≠ [] ∧ sameClass false p.pw ∧ wsStr p.trail ∧ f ≠ none ∧
      (p.an.glue = true ↔ f = some false) ∧
      itemsOK (if p.trail = [] then some false else some true) rest fOut

/-- Discipline for a whole decomposition given the incoming flag. -/
def ChunksOK (f : Flag) (d : Decomp) (fOut : Flag) : Prop :=
  wsStr d.lead ∧ itemsOK (if d.lead = [] then f else some true) d.items fOut

/-- Append whitespace onto the trail of the last piece. -/
def addTrail : List Piece → List Char → List Piece
  | [], _ => []
  | [p], s => [⟨p.pw, p.an, p.trail ++ s⟩]
  | p :: q :: rest, s => p :: addTrail (q :: rest) s

def dAppend (d1 d2 : Decomp) : Decomp :=
  if d1.items.isEmpty then ⟨d1.lead ++ d2.lead, d2.items⟩
  else ⟨d1.lead, addTrail d1.items d2.lead ++ d2.items⟩

/-! ### Span chains and word spans -/

/-- The pieces whose annotation charges path `q`. -/
def annsFor (q : List Char) (l : List Piece) : List Piece :=
  l.filter (fun it => it.an.path == q)

/-- Ordered, disjoint spans inside the window `[lo, hi]`. -/
def spansChain : Nat → List Piece → Nat → Prop
  | lo, [], hi => lo ≤ hi
  | lo, it :: rest, hi =>
    lo ≤ it.an.start ∧ it.an.stop + 1 = it.an.start + it.pw.length ∧ it.pw ≠ [] ∧
      spansChain (it.an.stop + 1) rest hi

/-- `[a, b]` is the span of a maximal non-whitespace run of `s`. -/
def IsWordSpan (s : List Char) (a b : Nat) : Prop :=
  ∃ σ w τ, s = σ ++ (w ++ τ) ∧ w ≠ [] ∧ sameClass false w ∧ a = σ.length ∧
    b + 1 = a + w.length ∧
    (σ = [] ∨ ∃ cσ, σ.getLast? = some cσ ∧ isWS cσ = true) ∧
    (τ = [] ∨ ∃ cτ, τ.head? = some cτ ∧ isWS cτ = true)

/-- The piece's word occupies its annotated span, at offset `base` plus the
prefix length, inside segment text `s`, as a maximal non-whitespace run. -/
def annAt (base : Nat) (s : List Char) (it : Piece) : Prop :=
  it.pw ≠ [] ∧ sameClass false it.pw ∧
  ∃ σ τ, s = σ ++ (it.pw ++ τ) ∧ it.an.start = base + σ.length ∧
    it.an.stop + 1 = it.an.start + it.pw.length ∧
    (σ = [] ∨ ∃ cσ, σ.getLast? = some cσ ∧ isWS cσ = true) ∧
    (τ = [] ∨ ∃ cτ, τ.head? = some cτ ∧ isWS cτ = true)

/-- Resolving the piece's annotation path yields a charged text in which
the annotated span holds exactly the piece's word. -/
def ResolvesW (r : Node) (it : Piece) : Prop :=
  ∃ ct σ τ, resolveCharged r it.an.path = some ct ∧ ct = σ ++ (it.pw ++ τ) ∧
    it.an.start = σ.length ∧ it.an.stop + 1 = it.an.start + it.pw.length

/-! ### Concrete documents used by the claim theorems -/

/-- Example A of the spec: `<p>Hello<b>world</b></p>` under a root. -/
def exampleA : Node :=
  .node true "html".toList none
    [.node true "p".toList (some "Hello".toList)
      [.node true "b".toList (some "world".toList) [] none] none] none

/-- Root children `b(" A")`, `div` (block, empty), `b("B")`: the empty div
produces no annotations, so its synthetic spaces are discarded while the
whitespace flag it set survives. -/
def c1tree : Node :=
  .node true "html".toList none
    [.node true "b".toList (some " A".toList) [] none,
     .node true "div".toList none [] none,
     .node true "b".toList (some "B".toList) [] none] none

/-- A block `div` with no leading text whose only child is `<b>x</b>`. -/
def c2div : Node :=
  .node true "div".toList none
    [.node true "b".toList (some "x".toList) [] none] none

/-- `<p><div>a</div>x<b>y</b></p>`: `b` immediately follows the block sibling
`div`, whose tail text `x` ends in a non-whitespace character. -/
def c3tree : Node :=
  .node true "html".toList none
    [.node true "p".toList none
      [.node true "div".toList (some "a".toList) [] (some "x".toList),
       .node true "b".toList (some "y".toList) [] none] none] none

/-- A record whose processing ends with the whitespace flag `false`. -/
def c5docA : Node :=
  .node true "html".toList none
    [.node true "p".toList (some "a".toList) [] none,
     .node true "b".toList (some "x".toList) [] none] none

/-- A record whose processing ends with the whitespace flag `true`. -/
def c5docB : Node :=
  .node true "html".toList none
    [.node true "p".toList (some "a".toList) [] none] none

/-- The probe record: a single inline `<b>y</b>`. -/
def c5docD : Node :=
  .node true "html".toList none
    [.node true "b".toList (some "y".toList) [] none] none

/-- A document whose first word sits in an inline element with no preceding
whitespace or block step. -/
def c10tree : Node :=
  .node true "html".toList none
    [.node true "b".toList (some "x".toList) [] none] none

/-! ### Glue-pass structure -/

/-- The glue test used by the pass: the serialized annotation starts with `+`. -/
def plusHead (s : List Char) : Bool := decide (s.head? = some '+')

/-! ### Tree size measure -/

mutual

def Node.size : Node → Nat
  | .node _ _ _ cs _ => 1 + Node.sizeList cs

def Node.sizeList : List Node → Nat
  | [] => 0
  | c :: cs => Node.size c + Node.sizeList cs

end

/-! ### Claim C8: tails of skipped nodes are invisible -/

mutual

/-- Erase the tail text of every skipped child (non-element node, or
`script`/`style` element) throughout the tree. -/
def scrubSkippedTails : Node → Node
  | .node ie g tx cs tl => .node ie g tx (scrubSkippedTailsList cs) tl

def scrubSkippedTailsList : List Node → List Node
  | [] => []
  | c :: cs =>
    (match c with
     | .node ie g tx ccs tl =>
       if skipped (Node.node ie g tx ccs tl) then Node.node ie g tx ccs none
       else scrubSkippedTails (Node.node ie g tx ccs tl)) :: scrubSkippedTailsList cs

end

/-- The per-child action of `scrubSkippedTailsList`. -/
def scrubOne (c : Node) : Node :=
  match c with
  | .node ie g tx ccs tl =>
    if skipped (Node.node ie g tx ccs tl) then Node.node ie g tx ccs none
    else scrubSkippedTails (Node.node ie g tx ccs tl)

/-- Erase skipped-node tails at the top level and recursively. -/
def scrubDoc (d : Node) : Node := scrubSkippedTails d

/-! ### Claim C9: children with empty standoff contribute no text -/

/-- The per-child raw results of the top-level loop, with no filtering:
one (standoff, text) pair per processed top-level child. -/
def docRecords (all rest : List Node) (j : Nat) (rCur : Nat) (f : Flag) :
    Option (List (List RawAnn × List Char)) :=
  match rest with
  | [] => some []
  | c :: cs =>
    if skipped c then docRecords all cs (j + 1) rCur f
    else
      (getWordStandoff c (childStep all j c.tag) ['.'] rCur f).bind (fun ca =>
        (docRecords all cs (j + 1) ca.2.2.2 ca.2.2.1).map (fun rs => (ca.1, ca.2.1) :: rs))

/-! ### Claim C5: what the inherited whitespace flag can and cannot change -/

/-- An annotation with its glue mark erased. -/
def deglue (an : RawAnn) : RawAnn := ⟨false, an.path, an.start, an.stop⟩

/-- Relation between the outgoing flags of two runs that started from
possibly different incoming flags. -/
def FlagSync (f1 f2 g1 g2 : Flag) : Prop := g1 = g2 ∨ (g1 = f1 ∧ g2 = f2)

/-! ### Word-annotation projections: reasoning that ignores trailing whitespace -/

/-- A piece's word and annotation, forgetting the trailing whitespace. -/
def projWA (it : Piece) : List Char × RawAnn := (it.pw, it.an)

/-- The word-annotation pairs of a decomposition. -/
def Decomp.was (d : Decomp) : List (List Char × RawAnn) := d.items.map projWA

/-- The word-annotation pairs charging path `q`. -/
def wannsFor (q : List Char) (l : List (List Char × RawAnn)) : List (List Char × RawAnn) :=
  l.filter (fun wa => wa.2.path == q)

/-- Ordered, disjoint word spans inside the window `[lo, hi]`. -/
def wChain : Nat → List (List Char × RawAnn) → Nat → Prop
  | lo, [], hi => lo ≤ hi
  | lo, wa :: rest, hi =>
    lo ≤ wa.2.start ∧ wa.2.stop + 1 = wa.2.start + wa.1.length ∧ wa.1 ≠ [] ∧
      wChain (wa.2.stop + 1) rest hi

/-- Resolving the annotation's path yields a charged text holding exactly the
annotated word at the annotated span. -/
def ResolvesWA (r : Node) (wa : List Char × RawAnn) : Prop :=
  ∃ ct σ τ, resolveCharged r wa.2.path = some ct ∧ ct = σ ++ (wa.1 ++ τ) ∧
    wa.2.start = σ.length ∧ wa.2.stop + 1 = wa.2.start + wa.1.length

/-- The annotation charges a node at or below `base`, and if its span starts
inside that node's own leading text then it is a maximal word span of it. -/
def SubtreeAnn (r : Node) (base : List Nat) (wa : List Char × RawAnn) : Prop :=
  ∃ da, base <+: da ∧ da ≠ [] ∧ elemAddr r da = true ∧ pathOf r da = some wa.2.path ∧
    ∀ nd, nodeAt r da = some nd → wa.2.start < (textD nd).length →
      IsWordSpan (textD nd) wa.2.start wa.2.stop

/-- A possibly empty list of word annotations all charging one node at or below
`base`, chained disjointly inside that node's charged text. -/
def PathChain (r : Node) (base : List Nat) (q : List Char)
    (l : List (List Char × RawAnn)) : Prop :=
  l = [] ∨ ∃ da, base <+: da ∧ da ≠ [] ∧ elemAddr r da = true ∧ pathOf r da = some q ∧
    ∃ nd, nodeAt r da = some nd ∧ wChain 0 l (chargedOf nd).length

/-- The concatenated tail texts of the processed (non-skipped) nodes of a list. -/
def tailsOf (rest : List Node) : List Char :=
  ((rest.filter (fun c => !skipped c)).map tailD).flatten

/-- Context for a visit of the node at address `ad`: a well-tagged tree, an
element address resolving to the node, the path strings of the node and of its
parent, and a parent cursor aligned with the node's tail text inside the
parent's charged text. -/
def VisitHyps (r : Node) (ad : List Nat) (e : Node) (op pp : List Char) (pCur : Nat) : Prop :=
  tagsOk r = true ∧ elemAddr r ad = true ∧ ad ≠ [] ∧ nodeAt r ad = some e ∧
    pathOf r ad = some op ∧ pathOf r ad.dropLast = some pp ∧
    ∃ CP RST, resolveCharged r pp = some (CP ++ (tailD e ++ RST)) ∧ pCur = CP.length

/-- Path conclusions of a visit: every annotation resolves, charges either the
parent or the visited subtree, the parent-charged ones chain inside the node's
tail window, and for any other path the annotations chain inside one node. -/
def VisitPathConcl (r : Node) (ad : List Nat) (e : Node) (pp : List Char) (pCur : Nat)
    (d : Decomp) : Prop :=
  (∀ wa ∈ d.was, ResolvesWA r wa) ∧
  (∀ wa ∈ d.was, wa.2.path = pp ∨ SubtreeAnn r ad wa) ∧
  wChain pCur (wannsFor pp d.was) (pCur + (tailD e).length) ∧
  (∀ q, q ≠ pp → PathChain r ad q (wannsFor q d.was))

/-- Context for the child loop of the element at `ad`: the loop runs over the
drop-`j` suffix of its children, with the element's cursor past its own text
and before the tails of the remaining children in its charged text. -/
def LoopHyps (r : Node) (ad : List Nat) (e0 : Node) (all rest : List Node) (j : Nat)
    (op : List Char) (eCur : Nat) : Prop :=
  tagsOk r = true ∧ elemAddr r ad = true ∧ ad ≠ [] ∧ nodeAt r ad = some e0 ∧
    pathOf r ad = some op ∧ all = e0.children ∧ rest = all.drop j ∧
    ∃ CP, chargedOf e0 = CP ++ tailsOf rest ∧ eCur = CP.length ∧
      (textD e0).length ≤ eCur

/-- Path conclusions of the child loop. -/
def LoopPathConcl (r : Node) (ad : List Nat) (rest : List Node) (j : Nat)
    (op : List Char) (eCur : Nat) (d : Decomp) : Prop :=
  (∀ wa ∈ d.was, ResolvesWA r wa) ∧
  (∀ wa ∈ d.was, SubtreeAnn r ad wa) ∧
  wChain eCur (wannsFor op d.was) (eCur + (tailsOf rest).length) ∧
  (∀ q, q ≠ op → wannsFor q d.was = [] ∨
    ∃ k, j ≤ k ∧ PathChain r (ad ++ [k]) q (wannsFor q d.was))

/-- Context for the top-level loop: the loop runs over the drop-`j` suffix of the
root's children with the root cursor aligned inside the root's charged text. -/
def DocHyps (r : Node) (all rest : List Node) (j : Nat) (rCur : Nat) : Prop :=
  tagsOk r = true ∧ all = r.children ∧ rest = all.drop j ∧
    ∃ CP, chargedRoot r = CP ++ tailsOf rest ∧ rCur = CP.length

/-- Path conclusions of the top-level loop. -/
def DocPathConcl (r : Node) (rest : List Node) (j : Nat) (rCur : Nat) (d : Decomp) : Prop :=
  (∀ wa ∈ d.was, ResolvesWA r wa) ∧
  (∀ wa ∈ d.was, wa.2.path = ['.'] ∨ SubtreeAnn r [] wa) ∧
  wChain rCur (wannsFor ['.'] d.was) (rCur + (tailsOf rest).length) ∧
  (∀ q, q ≠ ['.'] → wannsFor q d.was = [] ∨
    ∃ k, j ≤ k ∧ PathChain r [k] q (wannsFor q d.was))

/-- Block sibling with no tail, followed by an inline sibling: the C3 witness pair. -/
def c3divA : Node := .node true "div".toList (some "a".toList) [] none

/-- The inline follower in the C3 witness pair. -/
def c3bY : Node := .node true "b".toList (some "y".toList) [] none

/-! ### Glue groups of a decomposition: words versus annotation runs -/

/-- Prepend a piece onto the first group (or start one). -/
def itemGroupsCons (p : Piece) (gs : List (List Piece)) : List (List Piece) :=
  match gs with
  | [] => [[p]]
  | g :: gs2 => (p :: g) :: gs2

/-- Group consecutive pieces: a piece with empty trail is joined to the pieces
after it (no whitespace separates their words), one with a nonempty trail ends
its group. -/
def itemGroups : List Piece → List (List Piece)
  | [] => []
  | p :: rest =>
    if p.trail = [] then itemGroupsCons p (itemGroups rest)
    else [p] :: itemGroups rest

/-- The maximal-word list contributed by groups, with a pending word prefix. -/
def groupWords (u : List Char) (gs : List (List Piece)) : List (List Char) :=
  match gs with
  | [] => if u = [] then [] else [u]
  | g :: gs2 => (u ++ (g.map (fun p => p.pw)).flatten) ::
      gs2.map (fun g2 => (g2.map (fun p => p.pw)).flatten)

/-! ### Theorems -/

theorem tokenize_cons_nil (c : Char) (cs : List Char) (h : tokenize cs = []) :
    tokenize (c :: cs) = [[c]] := by
  rw [tokenize, h]

theorem tokenize_cons_cons (c : Char) (cs : List Char) (d : Char) (t : List Char)
    (ts : List (List Char)) (h : tokenize cs = (d :: t) :: ts) :
    tokenize (c :: cs) =
      if isWS c = isWS d then (c :: d :: t) :: ts else [c] :: (d :: t) :: ts := by
  rw [tokenize, h]

theorem tokenize_ok : ∀ s : List Char, (tokenize s).flatten = s ∧ AltToks (tokenize s) := by
  intro s
  induction s with
  | nil => exact ⟨rfl, trivial⟩
  | cons c cs ih =>
    obtain ⟨ihf, iha⟩ := ih
    cases h : tokenize cs with
    | nil =>
      rw [h] at ihf
      simp only [List.flatten_nil] at ihf
      subst ihf
      rw [tokenize_cons_nil c [] h]
      refine ⟨by simp, by simp, isWS c, ?_, trivial⟩
      intro d hd
      rw [List.mem_singleton] at hd
      subst hd; rfl
    | cons w ts =>
      cases w with
      | nil =>
        rw [h] at iha
        exact absurd rfl iha.1
      | cons d t =>
        rw [h] at ihf iha
        rw [tokenize_cons_cons c cs d t ts h]
        obtain ⟨-, b, hsc, haf⟩ := iha
        have hdb : isWS d = b := hsc d (by simp)
        by_cases hcd : isWS c = isWS d
        · rw [if_pos hcd]
          refine ⟨by simpa using ihf, by simp, b, ?_, haf⟩
          intro x hx
          rcases List.mem_cons.mp hx with h1 | h2
          · subst h1; rw [hcd, hdb]
          · exact hsc x h2
        · rw [if_neg hcd]
          have hcb : isWS c = !b := by
            rw [hdb] at hcd
            cases hb : isWS c <;> cases b <;> simp_all
          refine ⟨by simpa using ihf, by simp, isWS c, ?_, by simp, ?_, ?_⟩
          · intro x hx
            rw [List.mem_singleton] at hx
            subst hx; rfl
          · intro x hx
            rw [hcb, Bool.not_not, ← hdb]
            exact (hsc x hx).trans hdb.symm
          · rw [hcb, Bool.not_not]
            exact haf

theorem tokenize_flatten (s : List Char) : (tokenize s).flatten = s := (tokenize_ok s).1

theorem tokenize_alt (s : List Char) : AltToks (tokenize s) := (tokenize_ok s).2

theorem isspace_of_ws (w : List Char) (hne : w ≠ []) (h : sameClass true w) :
    isspace w = true := by
  cases w with
  | nil => exact absurd rfl hne
  | cons c cs =>
    simp only [isspace, List.isEmpty_cons, Bool.not_false, Bool.true_and, List.all_eq_true]
    exact fun x hx => h x hx

theorem isspace_of_word (w : List Char) (h : sameClass false w) (hne : w ≠ []) :
    isspace w = false := by
  cases w with
  | nil => exact absurd rfl hne
  | cons c cs =>
    have hc : isWS c = false := h c (by simp)
    simp [isspace, List.all_cons, hc]

theorem isEmpty_false_of_ne (w : List Char) (hne : w ≠ []) : w.isEmpty = false := by
  cases w with
  | nil => exact absurd rfl hne
  | cons c cs => rfl

/-! ### Maximal-run extraction: `wordsAux` lemmas -/

theorem wordsAux_ws_append (s : List Char) (hs : sameClass true s) :
    ∀ r : List Char, wordsAux (s ++ r) [] = wordsAux r [] := by
  induction s with
  | nil => intro r; rfl
  | cons c cs ih =>
    intro r
    have hc : isWS c = true := hs c (by simp)
    rw [List.cons_append, wordsAux]
    simp only [hc, if_true, List.isEmpty_nil, if_pos rfl]
    exact ih (fun x hx => hs x (by simp [hx])) r

theorem wordsAux_word_append (w : List Char) (hw : sameClass false w) :
    ∀ (r acc : List Char), wordsAux (w ++ r) acc = wordsAux r (w.reverse ++ acc) := by
  induction w with
  | nil => intro r acc; simp
  | cons c cs ih =>
    intro r acc
    have hc : isWS c = false := hw c (by simp)
    rw [List.cons_append, wordsAux]
    simp only [hc, if_false]
    rw [ih (fun x hx => hw x (by simp [hx])) r (c :: acc)]
    simp

theorem wordsAux_flush (r acc : List Char) (hacc : acc ≠ [])
    (hr : r = [] ∨ ∃ c r2, r = c :: r2 ∧ isWS c = true) :
    wordsAux r acc = acc.reverse :: wordsAux r [] := by
  rcases hr with h | ⟨c, r2, h, hc⟩
  · subst h
    rw [wordsAux, wordsAux]
    rw [isEmpty_false_of_ne acc hacc]
    simp
  · subst h
    rw [wordsAux, wordsAux]
    rw [isEmpty_false_of_ne acc hacc]
    simp [hc]

/-! ### Decimal printer facts -/

theorem natCharsAux_irrel : ∀ (n f1 f2 : Nat), n < f1 → n < f2 →
    natCharsAux f1 n = natCharsAux f2 n := by
  intro n
  induction n using Nat.strong_induction_on with
  | _ n ih =>
    intro f1 f2 h1 h2
    match f1, f2 with
    | g1 + 1, g2 + 1 =>
      rw [natCharsAux, natCharsAux]
      by_cases hn : n < 10
      · rw [if_pos hn, if_pos hn]
      · rw [if_neg hn, if_neg hn]
        have hlt : n / 10 < n := Nat.div_lt_self (by omega) (by omega)
        rw [ih (n / 10) hlt g1 g2 (by omega) (by omega)]

theorem natChars_lt10 (n : Nat) (h : n < 10) : natChars n = [digitChar n] := by
  rw [natChars, natCharsAux, if_pos h]

theorem natChars_ge10 (n : Nat) (h : 10 ≤ n) :
    natChars n = natChars (n / 10) ++ [digitChar (n % 10)] := by
  rw [natChars, natCharsAux, if_neg (by omega)]
  have hlt : n / 10 < n := Nat.div_lt_self (by omega) (by omega)
  rw [natCharsAux_irrel (n / 10) n (n / 10 + 1) hlt (by omega)]
  rfl

theorem digitsVal_append_one (l : List Char) (c : Char) :
    digitsVal (l ++ [c]) = digitsVal l * 10 + (c.toNat - 48) := by
  rw [digitsVal, digitsVal, List.foldl_append]
  rfl

theorem digitChar_toNat (d : Nat) (h : d < 10) : (digitChar d).toNat = 48 + d := by
  interval_cases d <;> rfl

theorem digitsVal_natChars : ∀ n : Nat, digitsVal (natChars n) = n := by
  intro n
  induction n using Nat.strong_induction_on with
  | _ n ih =>
    by_cases hn : n < 10
    · rw [natChars_lt10 n hn]
      have : digitsVal [digitChar n] = 0 * 10 + ((digitChar n).toNat - 48) := rfl
      rw [this, digitChar_toNat n hn]
      omega
    · rw [natChars_ge10 n (by omega), digitsVal_append_one]
      have hlt : n / 10 < n := Nat.div_lt_self (by omega) (by omega)
      rw [ih (n / 10) hlt, digitChar_toNat (n % 10) (Nat.mod_lt n (by omega))]
      omega

theorem natChars_inj (m n : Nat) (h : natChars m = natChars n) : m = n := by
  have := digitsVal_natChars m
  rw [h, digitsVal_natChars n] at this
  exact this.symm

theorem natChars_digits : ∀ (n : Nat) (c : Char), c ∈ natChars n →
    48 ≤ c.toNat ∧ c.toNat ≤ 57 := by
  intro n
  induction n using Nat.strong_induction_on with
  | _ n ih =>
    intro c hc
    by_cases hn : n < 10
    · rw [natChars_lt10 n hn, List.mem_singleton] at hc
      subst hc
      rw [digitChar_toNat n hn]
      omega
    · rw [natChars_ge10 n (by omega), List.mem_append] at hc
      rcases hc with h1 | h2
      · exact ih (n / 10) (Nat.div_lt_self (by omega) (by omega)) c h1
      · rw [List.mem_singleton] at h2
        subst h2
        rw [digitChar_toNat (n % 10) (Nat.mod_lt n (by omega))]
        omega

theorem natChars_ne_bracket (n : Nat) (c : Char) (hc : c ∈ natChars n) :
    c ≠ '[' ∧ c ≠ ']' ∧ c ≠ '/' ∧ c ≠ '+' ∧ c ≠ '.' ∧ c ≠ ':' := by
  obtain ⟨h1, h2⟩ := natChars_digits n c hc
  refine ⟨?_, ?_, ?_, ?_, ?_, ?_⟩ <;> (intro h; subst h; revert h1 h2; decide)

/-! ### Path-step and path-string injectivity -/

theorem tagOk_spec (g : List Char) (h : tagOk g = true) :
    g ≠ [] ∧ '/' ∉ g ∧ '[' ∉ g ∧ g ≠ ['.'] ∧ g.head? ≠ some '+' := by
  simp only [tagOk, Bool.and_eq_true, Bool.not_eq_true', decide_eq_true_eq] at h
  exact ⟨fun he => by subst he; simp at h, h.1.1.1.2, h.1.1.2, h.1.2, h.2⟩

theorem nosep_append_inj (sep : Char) :
    ∀ (s1 s2 t1 t2 : List Char), sep ∉ s1 → sep ∉ s2 →
      s1 ++ sep :: t1 = s2 ++ sep :: t2 → s1 = s2 ∧ t1 = t2 := by
  intro s1
  induction s1 with
  | nil =>
    intro s2 t1 t2 h1 h2 heq
    cases s2 with
    | nil =>
      simp only [List.nil_append, List.cons.injEq] at heq
      exact ⟨rfl, heq.2⟩
    | cons a s2tl =>
      simp only [List.nil_append, List.cons_append, List.cons.injEq] at heq
      exact absurd (heq.1 ▸ List.mem_cons_self a s2tl) h2
  | cons a s1tl ih =>
    intro s2 t1 t2 h1 h2 heq
    cases s2 with
    | nil =>
      simp only [List.cons_append, List.nil_append, List.cons.injEq] at heq
      exact absurd (heq.1.symm ▸ List.mem_cons_self a s1tl) h1
    | cons b s2tl =>
      simp only [List.cons_append, List.cons.injEq] at heq
      obtain ⟨hab, htl⟩ := heq
      obtain ⟨hs, ht⟩ := ih s2tl t1 t2 (fun hm => h1 (List.mem_cons_of_mem a hm))
        (fun hm => h2 (List.mem_cons_of_mem b hm)) htl
      exact ⟨by rw [hab, hs], ht⟩

theorem joinSteps_inj : ∀ (l1 l2 : List (List Char)),
    (∀ s ∈ l1, s ≠ [] ∧ '/' ∉ s) → (∀ s ∈ l2, s ≠ [] ∧ '/' ∉ s) →
    joinSteps l1 = joinSteps l2 → l1 = l2 := by
  intro l1
  induction l1 with
  | nil =>
    intro l2 h1 h2 heq
    cases l2 with
    | nil => rfl
    | cons s l2tl =>
      cases l2tl with
      | nil =>
        rw [joinSteps, joinSteps] at heq
        exact absurd heq.symm (h2 s (by simp)).1
      | cons r rest =>
        rw [joinSteps, joinSteps] at heq
        exact absurd heq.symm (by simp)
  | cons s l1tl ih =>
    intro l2 h1 h2 heq
    cases l2 with
    | nil =>
      cases l1tl with
      | nil =>
        rw [joinSteps, joinSteps] at heq
        exact absurd heq (h1 s (by simp)).1
      | cons r rest =>
        rw [joinSteps, joinSteps] at heq
        exact absurd heq (by simp)
    | cons u l2tl =>
      cases l1tl with
      | nil =>
        cases l2tl with
        | nil =>
          rw [joinSteps, joinSteps] at heq
          rw [heq]
        | cons v l2r =>
          rw [joinSteps, joinSteps] at heq
          have : '/' ∈ s := heq ▸ List.mem_append_right u (by simp)
          exact absurd this (h1 s (by simp)).2
      | cons r l1r =>
        cases l2tl with
        | nil =>
          rw [joinSteps, joinSteps] at heq
          have : '/' ∈ u := heq ▸ List.mem_append_right s (by simp)
          exact absurd this (h2 u (by simp)).2
        | cons v l2r =>
          rw [joinSteps, joinSteps] at heq
          obtain ⟨hs, ht⟩ := nosep_append_inj '/' s u (joinSteps (r :: l1r)) (joinSteps (v :: l2r))
            (h1 s (by simp)).2 (h2 u (by simp)).2 heq
          have := ih (v :: l2r) (fun x hx => h1 x (List.mem_cons_of_mem s hx))
            (fun x hx => h2 x (List.mem_cons_of_mem u hx)) ht
          rw [hs, this]

/-! ### Sibling-count lemmas for `childStep` injectivity -/

theorem sameTagCount_take_succ (cs : List Node) (g : List Char) (j : Nat) :
    sameTagCount (cs.take (j + 1)) g =
      sameTagCount (cs.take j) g +
        (match cs.get? j with
         | some c => if c.isElem && c.tag == g then 1 else 0
         | none => 0) := by
  cases h : cs.get? j with
  | none =>
    have h2 : cs[j]? = none := by rw [← List.get?_eq_getElem?]; exact h
    rw [sameTagCount, sameTagCount, List.take_succ, h2]
    simp
  | some c =>
    have h2 : cs[j]? = some c := by rw [← List.get?_eq_getElem?]; exact h
    rw [sameTagCount, sameTagCount, List.take_succ, h2]
    by_cases hc : (c.isElem && c.tag == g) = true
    · simp [List.filter_append, List.filter, hc]
    · simp only [Bool.not_eq_true] at hc
      simp [List.filter_append, List.filter, hc]

theorem sameTagCount_take_mono (cs : List Node) (g : List Char) :
    ∀ (k j : Nat), j ≤ k → sameTagCount (cs.take j) g ≤ sameTagCount (cs.take k) g := by
  intro k
  induction k with
  | zero =>
    intro j hj
    have hj0 : j = 0 := by omega
    subst hj0
    exact le_refl _
  | succ k ihk =>
    intro j hj
    rcases Nat.lt_or_ge j (k + 1) with h | h
    · refine le_trans (ihk j (by omega)) ?_
      rw [sameTagCount_take_succ]
      exact Nat.le_add_right _ _
    · have hje : j = k + 1 := by omega
      subst hje
      exact le_refl _

theorem sameTagCount_take_lt (cs : List Node) (g : List Char) (j k : Nat) (c : Node)
    (hjk : j < k) (hj : cs.get? j = some c) (he : c.isElem = true) (hg : c.tag = g) :
    sameTagCount (cs.take j) g < sameTagCount (cs.take k) g := by
  have h1 : sameTagCount (cs.take (j + 1)) g = sameTagCount (cs.take j) g + 1 := by
    rw [sameTagCount_take_succ, hj]
    simp [he, hg]
  have h2 := sameTagCount_take_mono cs g k (j + 1) hjk
  omega

theorem sameTagCount_full (cs : List Node) (g : List Char) (j : Nat) (c : Node)
    (hj : cs.get? j = some c) (he : c.isElem = true) (hg : c.tag = g) :
    sameTagCount (cs.take j) g < sameTagCount cs g := by
  have hlen : j < cs.length := by
    by_contra hle
    rw [List.get?_eq_none.mpr (by omega)] at hj
    exact Option.noConfusion hj
  have h1 : sameTagCount (cs.take (j + 1)) g = sameTagCount (cs.take j) g + 1 := by
    rw [sameTagCount_take_succ, hj]
    simp [he, hg]
  have h2 := sameTagCount_take_mono cs g cs.length (j + 1) (by omega)
  rw [List.take_length] at h2
  omega

theorem sameTagCount_ge2 (cs : List Node) (g : List Char) (j1 j2 : Nat) (c1 c2 : Node)
    (hne : j1 ≠ j2) (h1 : cs.get? j1 = some c1) (h2 : cs.get? j2 = some c2)
    (he1 : c1.isElem = true) (he2 : c2.isElem = true) (hg1 : c1.tag = g) (hg2 : c2.tag = g) :
    2 ≤ sameTagCount cs g := by
  rcases Nat.lt_or_ge j1 j2 with h | h
  · have ha := sameTagCount_take_lt cs g j1 j2 c1 h h1 he1 hg1
    have hb := sameTagCount_full cs g j2 c2 h2 he2 hg2
    omega
  · have hlt : j2 < j1 := by omega
    have ha := sameTagCount_take_lt cs g j2 j1 c2 hlt h2 he2 hg2
    have hb := sameTagCount_full cs g j1 c1 h1 he1 hg1
    omega

theorem childStep_ok (cs : List Node) (j : Nat) (g : List Char) (hg : tagOk g = true) :
    childStep cs j g ≠ [] ∧ '/' ∉ childStep cs j g ∧ childStep cs j g ≠ ['.'] ∧
      (childStep cs j g).head? ≠ some '+' := by
  obtain ⟨hne, hsl, hbr, hdot, hplus⟩ := tagOk_spec g hg
  rw [childStep]
  by_cases h : sameTagCount cs g ≤ 1
  · rw [if_pos h]
    exact ⟨hne, hsl, hdot, hplus⟩
  · rw [if_neg h]
    refine ⟨?_, ?_, ?_, ?_⟩
    · intro hx
      exact hne (List.append_eq_nil.mp hx).1
    · intro hx
      rcases List.mem_append.mp hx with hx1 | hx2
      · exact hsl hx1
      · rcases List.mem_cons.mp hx2 with hx3 | hx4
        · exact absurd hx3.symm (by decide)
        · rcases List.mem_append.mp hx4 with hx5 | hx6
          · exact (natChars_ne_bracket _ _ hx5).2.2.1 rfl
          · rw [List.mem_singleton] at hx6
            exact absurd hx6.symm (by decide)
    · intro hx
      have hlen := congrArg List.length hx
      cases g with
      | nil => exact hne rfl
      | cons a gtl => simp [List.length_append] at hlen
    · cases g with
      | nil => exact absurd rfl hne
      | cons a gtl =>
        simp only [List.cons_append, List.head?_cons]
        simpa using hplus

theorem childStep_inj (cs : List Node) (j1 j2 : Nat) (c1 c2 : Node)
    (h1 : cs.get? j1 = some c1) (h2 : cs.get? j2 = some c2)
    (he1 : c1.isElem = true) (he2 : c2.isElem = true)
    (hg1 : tagOk c1.tag = true) (hg2 : tagOk c2.tag = true)
    (heq : childStep cs j1 c1.tag = childStep cs j2 c2.tag) : j1 = j2 := by
  by_contra hne
  obtain ⟨-, -, hbr1, -, -⟩ := tagOk_spec c1.tag hg1
  obtain ⟨-, -, hbr2, -, -⟩ := tagOk_spec c2.tag hg2
  rw [childStep, childStep] at heq
  by_cases ha : sameTagCount cs c1.tag ≤ 1 <;> by_cases hb : sameTagCount cs c2.tag ≤ 1
  · rw [if_pos ha, if_pos hb] at heq
    have hcount := sameTagCount_ge2 cs c1.tag j1 j2 c1 c2 hne h1 h2 he1 he2 rfl heq.symm
    omega
  · rw [if_pos ha, if_neg hb] at heq
    have : '[' ∈ c1.tag := by
      rw [heq]
      exact List.mem_append_right _ (List.mem_cons_self _ _)
    exact hbr1 this
  · rw [if_neg ha, if_pos hb] at heq
    have : '[' ∈ c2.tag := by
      rw [← heq]
      exact List.mem_append_right _ (List.mem_cons_self _ _)
    exact hbr2 this
  · rw [if_neg ha, if_neg hb] at heq
    obtain ⟨hgeq, hrest⟩ := nosep_append_inj '[' c1.tag c2.tag _ _ hbr1 hbr2 heq
    have hnats : natChars (sameTagCount (cs.take j1) c1.tag + 1) =
        natChars (sameTagCount (cs.take j2) c2.tag + 1) := by
      have hnb1 : ']' ∉ natChars (sameTagCount (cs.take j1) c1.tag + 1) :=
        fun hm => (natChars_ne_bracket _ _ hm).2.1 rfl
      have hnb2 : ']' ∉ natChars (sameTagCount (cs.take j2) c2.tag + 1) :=
        fun hm => (natChars_ne_bracket _ _ hm).2.1 rfl
      exact (nosep_append_inj ']' _ _ [] [] hnb1 hnb2 hrest).1
    have hkeq := natChars_inj _ _ hnats
    have hceq : sameTagCount (cs.take j1) c1.tag = sameTagCount (cs.take j2) c2.tag := by
      omega
    rcases Nat.lt_or_ge j1 j2 with hlt | hge
    · have hmono := sameTagCount_take_lt cs c1.tag j1 j2 c1 hlt h1 he1 rfl
      rw [hgeq] at hmono hceq
      omega
    · have hlt2 : j2 < j1 := by omega
      have hmono := sameTagCount_take_lt cs c2.tag j2 j1 c2 hlt2 h2 he2 rfl
      rw [hgeq] at hceq
      omega

/-! ### Tree well-formedness helpers -/

theorem tagsOkList_mem : ∀ (cs : List Node), tagsOkList cs = true →
    ∀ c ∈ cs, tagsOk c = true := by
  intro cs
  induction cs with
  | nil => intro _ c hc; exact absurd hc (List.not_mem_nil c)
  | cons a tl ih =>
    intro h c hc
    rw [tagsOkList, Bool.and_eq_true] at h
    rcases List.mem_cons.mp hc with h1 | h2
    · subst h1; exact h.1
    · exact ih h.2 c h2

theorem tagsOk_destruct (n : Node) (h : tagsOk n = true) :
    (n.isElem = true → tagOk n.tag = true) ∧ tagsOkList n.children = true := by
  cases n with
  | node ie g tx cs tl =>
    rw [tagsOk, Bool.and_eq_true] at h
    refine ⟨fun he => ?_, h.2⟩
    have := h.1
    rw [Node.isElem] at he
    subst he
    simpa using this

theorem tagsOk_child (n : Node) (h : tagsOk n = true) (c : Node) (hc : c ∈ n.children) :
    tagsOk c = true :=
  tagsOkList_mem n.children (tagsOk_destruct n h).2 c hc

theorem elemAddr_cons (n : Node) (j : Nat) (rest : List Nat)
    (h : elemAddr n (j :: rest) = true) :
    ∃ c, n.children.get? j = some c ∧ c.isElem = true ∧ elemAddr c rest = true := by
  rw [elemAddr] at h
  cases hc : n.children.get? j with
  | none => rw [hc] at h; exact absurd h (by simp)
  | some c =>
    rw [hc, Bool.and_eq_true] at h
    exact ⟨c, rfl, h.1, h.2⟩

theorem pathSteps_cons (n : Node) (j : Nat) (rest : List Nat) (c : Node)
    (hc : n.children.get? j = some c) :
    pathSteps n (j :: rest) =
      (pathSteps c rest).map (fun l => childStep n.children j c.tag :: l) := by
  rw [pathSteps, hc]

theorem nodeAt_cons (n : Node) (j : Nat) (rest : List Nat) (c : Node)
    (hc : n.children.get? j = some c) :
    nodeAt n (j :: rest) = nodeAt c rest := by
  rw [nodeAt, hc]

theorem pathSteps_ok : ∀ (ad : List Nat) (r : Node), tagsOk r = true → elemAddr r ad = true →
    ∃ steps, pathSteps r ad = some steps ∧ steps.length = ad.length ∧
      ∀ s ∈ steps, s ≠ [] ∧ '/' ∉ s ∧ s ≠ ['.'] ∧ s.head? ≠ some '+' := by
  intro ad
  induction ad with
  | nil =>
    intro r _ _
    exact ⟨[], rfl, rfl, fun s hs => absurd hs (List.not_mem_nil s)⟩
  | cons j rest ih =>
    intro r hr hadr
    obtain ⟨c, hc, hce, hca⟩ := elemAddr_cons r j rest hadr
    have hcmem : c ∈ r.children := List.get?_mem hc
    have hcok : tagsOk c = true := tagsOk_child r hr c hcmem
    have hgok : tagOk c.tag = true := (tagsOk_destruct c hcok).1 hce
    obtain ⟨steps, hsteps, hlen, hprops⟩ := ih c hcok hca
    refine ⟨childStep r.children j c.tag :: steps, ?_, by simp [hlen], ?_⟩
    · rw [pathSteps_cons r j rest c hc, hsteps]
      rfl
    · intro s hs
      rcases List.mem_cons.mp hs with h1 | h2
      · subst h1
        obtain ⟨a, b, cc, d⟩ := childStep_ok r.children j c.tag hgok
        exact ⟨a, b, cc, d⟩
      · exact hprops s h2

theorem pathSteps_inj : ∀ (a1 : List Nat) (r : Node) (a2 : List Nat)
    (steps : List (List Char)), tagsOk r = true → elemAddr r a1 = true →
    elemAddr r a2 = true → pathSteps r a1 = some steps → pathSteps r a2 = some steps →
    a1 = a2 := by
  intro a1
  induction a1 with
  | nil =>
    intro r a2 steps _ _ h2 hp1 hp2
    rw [pathSteps] at hp1
    cases a2 with
    | nil => rfl
    | cons j2 r2 =>
      obtain ⟨c2, hc2, -, -⟩ := elemAddr_cons r j2 r2 h2
      rw [pathSteps_cons r j2 r2 c2 hc2] at hp2
      cases hps : pathSteps c2 r2 with
      | none => rw [hps] at hp2; exact absurd hp2 (by simp)
      | some l =>
        rw [hps] at hp2
        simp only [Option.map_some', Option.some.injEq] at hp2
        rw [← hp2] at hp1
        simp at hp1
  | cons j1 r1 ih =>
    intro r a2 steps hr h1 h2 hp1 hp2
    obtain ⟨c1, hc1, hce1, hca1⟩ := elemAddr_cons r j1 r1 h1
    rw [pathSteps_cons r j1 r1 c1 hc1] at hp1
    cases hps1 : pathSteps c1 r1 with
    | none => rw [hps1] at hp1; exact absurd hp1 (by simp)
    | some l1 =>
      rw [hps1] at hp1
      simp only [Option.map_some', Option.some.injEq] at hp1
      cases a2 with
      | nil =>
        rw [pathSteps] at hp2
        simp only [Option.some.injEq] at hp2
        rw [← hp2] at hp1
        exact absurd hp1 (by simp)
      | cons j2 r2 =>
        obtain ⟨c2, hc2, hce2, hca2⟩ := elemAddr_cons r j2 r2 h2
        rw [pathSteps_cons r j2 r2 c2 hc2] at hp2
        cases hps2 : pathSteps c2 r2 with
        | none => rw [hps2] at hp2; exact absurd hp2 (by simp)
        | some l2 =>
          rw [hps2] at hp2
          simp only [Option.map_some', Option.some.injEq] at hp1 hp2
          rw [← hp2] at hp1
          simp only [List.cons.injEq] at hp1
          obtain ⟨hstep, hrest⟩ := hp1
          have hg1 : tagOk c1.tag = true :=
            (tagsOk_destruct c1 (tagsOk_child r hr c1 (List.get?_mem hc1))).1 hce1
          have hg2 : tagOk c2.tag = true :=
            (tagsOk_destruct c2 (tagsOk_child r hr c2 (List.get?_mem hc2))).1 hce2
          have hj : j1 = j2 :=
            childStep_inj r.children j1 j2 c1 c2 hc1 hc2 hce1 hce2 hg1 hg2 hstep
          subst hj
          rw [hc1] at hc2
          injection hc2 with hcc
          subst hcc
          have hreq : r1 = r2 := by
            refine ih c1 r2 l2 (tagsOk_child r hr c1 (List.get?_mem hc1)) hca1 hca2 ?_ hps2
            rw [hps1, hrest]
          rw [hreq]

theorem pathOf_inj (r : Node) (a1 a2 : List Nat) (p : List Char)
    (hr : tagsOk r = true) (h1 : elemAddr r a1 = true) (h2 : elemAddr r a2 = true)
    (hp1 : pathOf r a1 = some p) (hp2 : pathOf r a2 = some p) : a1 = a2 := by
  have dotcase : ∀ (a : List Nat) (j : Nat) (rest : List Nat), a = j :: rest →
      elemAddr r a = true → pathOf r a = some p → p ≠ ['.'] := by
    intro a j rest ha hel hpa
    subst ha
    obtain ⟨steps, hsteps, hlen, hprops⟩ := pathSteps_ok (j :: rest) r hr hel
    rw [pathOf] at hpa
    rw [hsteps] at hpa
    simp only [Option.map_some', Option.some.injEq] at hpa
    cases steps with
    | nil => simp at hlen
    | cons s stl =>
      cases stl with
      | nil =>
        rw [joinSteps] at hpa
        rw [← hpa]
        exact (hprops s (by simp)).2.2.1
      | cons s2 stl2 =>
        rw [joinSteps] at hpa
        intro hdot
        rw [hdot] at hpa
        have hlen2 := congrArg List.length hpa
        have hs1 : s ≠ [] := (hprops s (by simp)).1
        cases s with
        | nil => exact hs1 rfl
        | cons a atl => simp at hlen2
  cases ha1 : a1 with
  | nil =>
    cases ha2 : a2 with
    | nil => rfl
    | cons j2 r2 =>
      rw [ha1] at hp1
      rw [pathOf] at hp1
      simp only [Option.some.injEq] at hp1
      rw [ha2] at h2 hp2
      exact absurd hp1.symm (dotcase (j2 :: r2) j2 r2 rfl h2 hp2)
  | cons j1 r1 =>
    cases ha2 : a2 with
    | nil =>
      rw [ha2] at hp2
      rw [pathOf] at hp2
      simp only [Option.some.injEq] at hp2
      rw [ha1] at h1 hp1
      exact absurd hp2.symm (dotcase (j1 :: r1) j1 r1 rfl h1 hp1)
    | cons j2 r2 =>
      rw [ha1] at h1 hp1
      rw [ha2] at h2 hp2
      obtain ⟨st1, hst1, hlen1, hpr1⟩ := pathSteps_ok (j1 :: r1) r hr h1
      obtain ⟨st2, hst2, hlen2, hpr2⟩ := pathSteps_ok (j2 :: r2) r hr h2
      rw [pathOf, hst1] at hp1
      rw [pathOf, hst2] at hp2
      simp only [Option.map_some', Option.some.injEq] at hp1 hp2
      have hsteq : st1 = st2 := by
        refine joinSteps_inj st1 st2 (fun s hs => ⟨(hpr1 s hs).1, (hpr1 s hs).2.1⟩)
          (fun s hs => ⟨(hpr2 s hs).1, (hpr2 s hs).2.1⟩) ?_
        rw [hp1, hp2]
      exact pathSteps_inj (j1 :: r1) r (j2 :: r2) st1 hr h1 h2 hst1 (hsteq ▸ hst2)

/-! ### Resolution of a path string to its unique node -/

theorem allAddrsGo_mem : ∀ (cs : List Node) (base j : Nat) (c : Node) (rest : List Nat),
    cs.get? j = some c → rest ∈ allAddrs c → (base + j) :: rest ∈ allAddrsGo cs base := by
  intro cs
  induction cs with
  | nil =>
    intro base j c rest h _
    simp [List.get?] at h
  | cons a tl ih =>
    intro base j c rest h hm
    cases j with
    | zero =>
      rw [List.get?] at h
      injection h with hac
      subst hac
      rw [allAddrsGo]
      apply List.mem_append_left
      simpa using List.mem_map_of_mem (fun x => base :: x) hm
    | succ j2 =>
      rw [List.get?] at h
      rw [allAddrsGo]
      apply List.mem_append_right
      have hrec := ih (base + 1) j2 c rest h hm
      have harith : base + (j2 + 1) = base + 1 + j2 := by omega
      rw [harith]
      exact hrec

theorem addr_mem_allAddrs : ∀ (ad : List Nat) (r : Node) (n : Node),
    nodeAt r ad = some n → ad ∈ allAddrs r := by
  intro ad
  induction ad with
  | nil =>
    intro r n _
    cases r with
    | node ie g tx cs tl =>
      rw [allAddrs]
      exact List.mem_cons_self _ _
  | cons j rest ih =>
    intro r n h
    rw [nodeAt] at h
    cases hc : r.children.get? j with
    | none => rw [hc] at h; exact absurd h (by simp)
    | some c =>
      rw [hc] at h
      have hrest := ih c n h
      cases r with
      | node ie g tx cs tl =>
        rw [allAddrs]
        apply List.mem_cons_of_mem
        have : cs.get? j = some c := hc
        have hmem := allAddrsGo_mem cs 0 j c rest this hrest
        simpa using hmem

theorem find?_unique {α : Type} (l : List α) (pred : α → Bool) (a : α)
    (ha : a ∈ l) (hpa : pred a = true) (huniq : ∀ x ∈ l, pred x = true → x = a) :
    l.find? pred = some a := by
  induction l with
  | nil => exact absurd ha (List.not_mem_nil a)
  | cons x tl ih =>
    by_cases hx : pred x = true
    · rw [List.find?_cons_of_pos tl hx]
      rw [huniq x (List.mem_cons_self x tl) hx]
    · rw [Bool.not_eq_true] at hx
      rw [List.find?_cons_of_neg tl (by simp [hx])]
      have hatl : a ∈ tl := by
        rcases List.mem_cons.mp ha with h | h
        · subst h
          rw [hpa] at hx
          exact absurd hx (by simp)
        · exact h
      exact ih hatl (fun y hy hpy => huniq y (List.mem_cons_of_mem x hy) hpy)

theorem pathOf_ne_dot (r : Node) (j : Nat) (rest : List Nat) (p : List Char)
    (hr : tagsOk r = true) (hel : elemAddr r (j :: rest) = true)
    (hp : pathOf r (j :: rest) = some p) : p ≠ ['.'] := by
  obtain ⟨steps, hsteps, hlen, hprops⟩ := pathSteps_ok (j :: rest) r hr hel
  rw [pathOf, hsteps] at hp
  simp only [Option.map_some', Option.some.injEq] at hp
  cases steps with
  | nil => simp at hlen
  | cons s stl =>
    cases stl with
    | nil =>
      rw [joinSteps] at hp
      rw [← hp]
      exact (hprops s (by simp)).2.2.1
    | cons s2 stl2 =>
      rw [joinSteps] at hp
      intro hdot
      rw [hdot] at hp
      have hlen2 := congrArg List.length hp
      have hs1 : s ≠ [] := (hprops s (by simp)).1
      cases s with
      | nil => exact hs1 rfl
      | cons a atl => simp at hlen2

theorem pathOf_ok (r : Node) (ad : List Nat) (p : List Char)
    (hr : tagsOk r = true) (hel : elemAddr r ad = true)
    (hp : pathOf r ad = some p) : p ≠ [] ∧ p.head? ≠ some '+' := by
  cases ad with
  | nil =>
    rw [pathOf] at hp
    injection hp with hp
    rw [← hp]
    exact ⟨by simp, by simp⟩
  | cons j rest =>
    obtain ⟨steps, hsteps, hlen, hprops⟩ := pathSteps_ok (j :: rest) r hr hel
    rw [pathOf, hsteps] at hp
    simp only [Option.map_some', Option.some.injEq] at hp
    cases steps with
    | nil => simp at hlen
    | cons s stl =>
      obtain ⟨hsne, -, -, hshd⟩ := hprops s (by simp)
      cases stl with
      | nil =>
        rw [joinSteps] at hp
        rw [← hp]
        exact ⟨hsne, hshd⟩
      | cons s2 stl2 =>
        rw [joinSteps] at hp
        rw [← hp]
        cases s with
        | nil => exact absurd rfl hsne
        | cons a atl =>
          refine ⟨by simp, ?_⟩
          simp only [List.cons_append, List.head?_cons]
          simpa using hshd

theorem resolveCharged_pathOf (r : Node) (ad : List Nat) (n : Node) (p : List Char)
    (hr : tagsOk r = true) (hel : elemAddr r ad = true) (hne : ad ≠ [])
    (hn : nodeAt r ad = some n) (hp : pathOf r ad = some p) :
    resolveCharged r p = some (chargedOf n) := by
  rw [resolveCharged]
  obtain ⟨j, rest, had⟩ : ∃ j rest, ad = j :: rest := by
    cases ad with
    | nil => exact absurd rfl hne
    | cons j rest => exact ⟨j, rest, rfl⟩
  have hdot : p ≠ ['.'] := by
    subst had
    exact pathOf_ne_dot r j rest p hr hel hp
  rw [if_neg hdot]
  have hfind : (allAddrs r).find?
      (fun a => !a.isEmpty && elemAddr r a && (pathOf r a == some p)) = some ad := by
    apply find?_unique
    · exact addr_mem_allAddrs ad r n hn
    · have h1 : ad.isEmpty = false := by subst had; rfl
      rw [h1, hel]
      simp [hp]
    · intro x hx hpx
      simp only [Bool.and_eq_true, Bool.not_eq_true', beq_iff_eq] at hpx
      obtain ⟨⟨hxne, hxel⟩, hxp⟩ := hpx
      exact pathOf_inj r x ad p hr hxel hel hxp hp
  rw [hfind]
  show Option.map chargedOf (nodeAt r ad) = some (chargedOf n)
  rw [hn]
  rfl

theorem renderItems_append (l1 l2 : List Piece) :
    renderItems (l1 ++ l2) = renderItems l1 ++ renderItems l2 := by
  induction l1 with
  | nil => simp [renderItems]
  | cons p rest ih =>
    rw [List.cons_append, renderItems, renderItems, ih]
    simp

theorem addTrail_render : ∀ (l : List Piece) (s : List Char), l ≠ [] →
    renderItems (addTrail l s) = renderItems l ++ s := by
  intro l
  induction l with
  | nil => intro s h; exact absurd rfl h
  | cons p rest ih =>
    intro s _
    cases rest with
    | nil =>
      rw [addTrail, renderItems, renderItems, renderItems]
      simp [renderItems]
    | cons q rest2 =>
      rw [addTrail, renderItems, renderItems, ih s (by simp)]
      simp

theorem addTrail_anns : ∀ (l : List Piece) (s : List Char),
    (addTrail l s).map (fun p => p.an) = l.map (fun p => p.an) := by
  intro l
  induction l with
  | nil => intro s; rfl
  | cons p rest ih =>
    intro s
    cases rest with
    | nil => rfl
    | cons q rest2 =>
      rw [addTrail, List.map_cons, List.map_cons, ih s]

theorem dAppend_render (d1 d2 : Decomp) :
    (dAppend d1 d2).render = d1.render ++ d2.render := by
  rw [dAppend]
  by_cases h : d1.items.isEmpty = true
  · rw [if_pos h]
    have : d1.items = [] := by
      cases hi : d1.items with
      | nil => rfl
      | cons a b => rw [hi] at h; exact absurd h (by simp)
    rw [Decomp.render, Decomp.render, Decomp.render, this]
    simp [renderItems]
  · rw [if_neg h]
    have hne : d1.items ≠ [] := by
      intro hx
      rw [hx] at h
      exact h rfl
    rw [Decomp.render, Decomp.render, Decomp.render]
    simp only
    rw [renderItems_append, addTrail_render d1.items d2.lead hne]
    simp

theorem dAppend_anns (d1 d2 : Decomp) :
    (dAppend d1 d2).anns = d1.anns ++ d2.anns := by
  rw [dAppend]
  by_cases h : d1.items.isEmpty = true
  · rw [if_pos h]
    have : d1.items = [] := by
      cases hi : d1.items with
      | nil => rfl
      | cons a b => rw [hi] at h; exact absurd h (by simp)
    rw [Decomp.anns, Decomp.anns, Decomp.anns, this]
    simp
  · rw [if_neg h]
    rw [Decomp.anns, Decomp.anns, Decomp.anns]
    simp only [List.map_append, addTrail_anns]

theorem dAppend_items (d1 d2 : Decomp) :
    (dAppend d1 d2).items = addTrail d1.items d2.lead ++ d2.items ∨
      (d1.items = [] ∧ (dAppend d1 d2).items = d2.items) := by
  rw [dAppend]
  by_cases h : d1.items.isEmpty = true
  · right
    have : d1.items = [] := by
      cases hi : d1.items with
      | nil => rfl
      | cons a b => rw [hi] at h; exact absurd h (by simp)
    rw [if_pos h]
    exact ⟨this, rfl⟩
  · left
    rw [if_neg h]

theorem itemsOK_glue_append : ∀ (l1 : List Piece) (f f1 f2 : Flag) (lead2 : List Char)
    (l2 : List Piece), itemsOK f l1 f1 → wsStr lead2 →
    itemsOK (if lead2 = [] then f1 else some true) l2 f2 → l1 ≠ [] →
    itemsOK f (addTrail l1 lead2 ++ l2) f2 := by
  intro l1
  induction l1 with
  | nil => intro _ _ _ _ _ _ _ _ h; exact absurd rfl h
  | cons p rest ih =>
    intro f f1 f2 lead2 l2 h1 hws h2 _
    cases rest with
    | nil =>
      rw [itemsOK] at h1
      obtain ⟨hpw, hcls, htr, hfn, hglue, hfin⟩ := h1
      rw [itemsOK] at hfin
      rw [addTrail, List.cons_append, itemsOK]
      refine ⟨hpw, hcls, ?_, hfn, hglue, ?_⟩
      · intro c hc
        rcases List.mem_append.mp hc with h | h
        · exact htr c h
        · exact hws c h
      · have hflag : (if p.trail ++ lead2 = [] then (some false : Flag) else some true) =
            (if lead2 = [] then f1 else some true) := by
          by_cases hl : lead2 = []
          · subst hl
            rw [if_pos rfl, List.append_nil, ← hfin]
          · rw [if_neg hl, if_neg (by simp [hl])]
        rw [hflag]
        exact h2
    | cons q rest2 =>
      rw [itemsOK] at h1
      obtain ⟨hpw, hcls, htr, hfn, hglue, hrest⟩ := h1
      rw [addTrail, List.cons_append, itemsOK]
      exact ⟨hpw, hcls, htr, hfn, hglue,
        ih _ f1 f2 lead2 l2 hrest hws h2 (by simp)⟩

theorem ChunksOK_append (f f1 f2 : Flag) (d1 d2 : Decomp)
    (h1 : ChunksOK f d1 f1) (h2 : ChunksOK f1 d2 f2) :
    ChunksOK f (dAppend d1 d2) f2 := by
  obtain ⟨hws1, hit1⟩ := h1
  obtain ⟨hws2, hit2⟩ := h2
  rw [dAppend]
  by_cases h : d1.items.isEmpty = true
  · have hnil : d1.items = [] := by
      cases hi : d1.items with
      | nil => rfl
      | cons a b => rw [hi] at h; exact absurd h (by simp)
    rw [if_pos h, ChunksOK]
    simp only
    rw [hnil, itemsOK] at hit1
    constructor
    · intro c hc
      rcases List.mem_append.mp hc with hm | hm
      · exact hws1 c hm
      · exact hws2 c hm
    · have hflag : (if d1.lead ++ d2.lead = [] then f else (some true : Flag)) =
          (if d2.lead = [] then f1 else some true) := by
        by_cases hl2 : d2.lead = []
        · rw [hl2, List.append_nil, if_pos rfl, hit1]
        · rw [if_neg hl2, if_neg (by simp [hl2])]
      rw [hflag]
      exact hit2
  · have hne : d1.items ≠ [] := by
      intro hx
      rw [hx] at h
      exact h rfl
    rw [if_neg h, ChunksOK]
    simp only
    exact ⟨hws1, itemsOK_glue_append d1.items _ f1 f2 d2.lead d2.items hit1 hws2 hit2 hne⟩

theorem chunks_empty (f : Flag) : ChunksOK f ⟨[], []⟩ f := by
  refine ⟨fun c hc => absurd hc (List.not_mem_nil c), ?_⟩
  rw [if_pos rfl, itemsOK]

theorem chunks_ws (f : Flag) (s : List Char) (hne : s ≠ []) (hws : wsStr s) :
    ChunksOK f ⟨s, []⟩ (some true) := by
  refine ⟨hws, ?_⟩
  rw [if_neg hne, itemsOK]

theorem chunks_word (f : Flag) (b : Bool) (hf : f = some b) (w : List Char) (an : RawAnn)
    (hw : w ≠ []) (hc : sameClass false w) (hg : an.glue = !b) :
    ChunksOK f ⟨[], [⟨w, an, []⟩]⟩ (some false) := by
  refine ⟨fun c hc => absurd hc (List.not_mem_nil c), ?_⟩
  rw [if_pos rfl, itemsOK]
  refine ⟨hw, hc, fun c hc => absurd hc (List.not_mem_nil c), by rw [hf]; simp, ?_, ?_⟩
  · subst hf
    rw [hg]
    cases b <;> simp
  · rw [if_pos rfl, itemsOK]

theorem spansChain_le : ∀ (l : List Piece) (lo hi : Nat), spansChain lo l hi → lo ≤ hi := by
  intro l
  induction l with
  | nil => intro lo hi h; exact h
  | cons it rest ih =>
    intro lo hi h
    rw [spansChain] at h
    have := ih (it.an.stop + 1) hi h.2.2.2
    omega

theorem spansChain_append : ∀ (l1 : List Piece) (lo mid hi : Nat) (l2 : List Piece),
    spansChain lo l1 mid → spansChain mid l2 hi → spansChain lo (l1 ++ l2) hi := by
  intro l1
  induction l1 with
  | nil =>
    intro lo mid hi l2 h1 h2
    rw [spansChain] at h1
    cases l2 with
    | nil =>
      show spansChain lo [] hi
      rw [spansChain] at h2 ⊢
      omega
    | cons it rest =>
      show spansChain lo (it :: rest) hi
      rw [spansChain] at h2 ⊢
      exact ⟨by omega, h2.2.1, h2.2.2.1, h2.2.2.2⟩
  | cons it rest ih =>
    intro lo mid hi l2 h1 h2
    rw [spansChain] at h1
    rw [List.cons_append, spansChain]
    exact ⟨h1.1, h1.2.1, h1.2.2.1, ih _ mid hi l2 h1.2.2.2 h2⟩

theorem spansChain_mono : ∀ (l : List Piece) (lo lo2 hi hi2 : Nat),
    spansChain lo l hi → lo2 ≤ lo → hi ≤ hi2 → spansChain lo2 l hi2 := by
  intro l
  induction l with
  | nil =>
    intro lo lo2 hi hi2 h hl hh
    rw [spansChain] at h ⊢
    omega
  | cons it rest ih =>
    intro lo lo2 hi hi2 h hl hh
    rw [spansChain] at h ⊢
    exact ⟨by omega, h.2.1, h.2.2.1, ih _ _ hi hi2 h.2.2.2 (le_refl _) hh⟩

theorem spansChain_start_ge : ∀ (l : List Piece) (lo hi : Nat), spansChain lo l hi →
    ∀ it ∈ l, lo ≤ it.an.start ∧ it.an.stop < hi := by
  intro l
  induction l with
  | nil => intro lo hi _ it hit; exact absurd hit (List.not_mem_nil it)
  | cons p rest ih =>
    intro lo hi h it hit
    rw [spansChain] at h
    obtain ⟨hlo, hstop, hpw, hrest⟩ := h
    rcases List.mem_cons.mp hit with h1 | h2
    · subst h1
      have hhi := spansChain_le rest _ _ hrest
      have hl : 1 ≤ it.pw.length := by
        cases hw : it.pw with
        | nil => exact absurd hw hpw
        | cons a b => simp
      refine ⟨hlo, by omega⟩
    · have := ih _ _ hrest it h2
      have hl : 1 ≤ p.pw.length := by
        cases hw : p.pw with
        | nil => exact absurd hw hpw
        | cons a b => simp
      exact ⟨by omega, this.2⟩

theorem spansChain_pairwise : ∀ (l : List Piece) (lo hi : Nat), spansChain lo l hi →
    l.Pairwise (fun x y => x.an.stop < y.an.start) := by
  intro l
  induction l with
  | nil => intro _ _ _; exact List.Pairwise.nil
  | cons p rest ih =>
    intro lo hi h
    rw [spansChain] at h
    refine List.Pairwise.cons ?_ (ih _ _ h.2.2.2)
    intro y hy
    have := spansChain_start_ge rest _ _ h.2.2.2 y hy
    omega

theorem annsFor_append (q : List Char) (l1 l2 : List Piece) :
    annsFor q (l1 ++ l2) = annsFor q l1 ++ annsFor q l2 := by
  rw [annsFor, annsFor, annsFor, List.filter_append]

theorem annsFor_nil_of (q : List Char) (l : List Piece)
    (h : ∀ it ∈ l, it.an.path ≠ q) : annsFor q l = [] := by
  rw [annsFor, List.filter_eq_nil_iff]
  intro it hit
  simp [h it hit]

theorem annsFor_all (q : List Char) (l : List Piece)
    (h : ∀ it ∈ l, it.an.path = q) : annsFor q l = l := by
  rw [annsFor, List.filter_eq_self]
  intro it hit
  simp [h it hit]

theorem getLast_ws (w : List Char) (hne : w ≠ []) (hws : sameClass true w) :
    ∃ c, w.getLast? = some c ∧ isWS c = true := by
  refine ⟨w.getLast hne, List.getLast?_eq_getLast w hne, ?_⟩
  exact hws _ (List.getLast_mem hne)

theorem head_ws (w : List Char) (hne : w ≠ []) (hws : sameClass true w) :
    ∃ c, w.head? = some c ∧ isWS c = true := by
  cases w with
  | nil => exact absurd rfl hne
  | cons a b => exact ⟨a, rfl, hws a (by simp)⟩

theorem AltFrom_toAltToks : ∀ (l : List (List Char)) (b : Bool), AltFrom b l → AltToks l := by
  intro l b h
  cases l with
  | nil => trivial
  | cons w rest =>
    rw [AltFrom] at h
    exact ⟨h.1, !b, h.2.1, h.2.2⟩

/-! ### Specification of the token loop -/

theorem textLoop_nil (p : List Char) (pos : Nat) (f : Flag) (firstw : Bool) :
    textLoop p [] pos f firstw = some ([], pos, f) := rfl

theorem textLoop_cons (p w : List Char) (rest : List (List Char)) (pos : Nat) (f : Flag)
    (firstw : Bool) :
    textLoop p (w :: rest) pos f firstw =
      if isspace w then textLoop p rest (pos + w.length) (some true) false
      else if w.isEmpty then textLoop p rest pos f firstw
      else
        (if firstw then f.map (fun b => !b) else some false).bind (fun g =>
          (textLoop p rest (pos + w.length) (some false) false).map
            (fun r => (⟨g, p, pos, pos + w.length - 1⟩ :: r.1, r.2))) := rfl

theorem textLoop_spec : ∀ (toks : List (List Char)) (p : List Char) (pos : Nat) (f : Flag)
    (firstw : Bool) (anns : List RawAnn) (pos2 : Nat) (f2 : Flag),
    AltToks toks →
    (firstw = false → f = some true ∨ toks = [] ∨
      (∃ w rest, toks = w :: rest ∧ sameClass true w)) →
    textLoop p toks pos f firstw = some (anns, pos2, f2) →
    ∃ d : Decomp,
      d.render = toks.flatten ∧
      anns = d.anns ∧
      ChunksOK f d f2 ∧
      pos2 = pos + toks.flatten.length ∧
      (∀ it ∈ d.items, it.an.path = p) ∧
      spansChain pos d.items pos2 ∧
      (∀ it ∈ d.items, annAt pos toks.flatten it) := by
  intro toks
  induction toks with
  | nil =>
    intro p pos f firstw anns pos2 f2 _ _ hrun
    rw [textLoop_nil] at hrun
    injection hrun with hrun
    obtain ⟨h1, h2, h3⟩ : anns = [] ∧ pos2 = pos ∧ f2 = f := by
      refine ⟨congrArg Prod.fst hrun.symm, ?_, ?_⟩
      · exact (congrArg (fun x => x.2.1) hrun).symm
      · exact (congrArg (fun x => x.2.2) hrun).symm
    subst h1
    refine ⟨⟨[], []⟩, rfl, rfl, by rw [h3]; exact chunks_empty f, by rw [h2]; simp, ?_, ?_, ?_⟩
    · intro it hit; exact absurd hit (List.not_mem_nil it)
    · show spansChain pos [] pos2
      rw [spansChain, h2]
    · intro it hit; exact absurd hit (List.not_mem_nil it)
  | cons w rest ih =>
    intro p pos f firstw anns pos2 f2 halt hinv hrun
    obtain ⟨hwne, b, hcls, haf⟩ := halt
    have haltr : AltToks rest := AltFrom_toAltToks rest b haf
    cases b with
    | true =>
      -- whitespace token
      have hsp : isspace w = true := isspace_of_ws w hwne hcls
      rw [textLoop, if_pos hsp] at hrun
      obtain ⟨d, hrender, hanns, hchunks, hpos, hpaths, hchain, hats⟩ :=
        ih p (pos + w.length) (some true) false anns pos2 f2 haltr
          (fun _ => Or.inl rfl) hrun
      refine ⟨dAppend ⟨w, []⟩ d, ?_, ?_, ?_, ?_, ?_, ?_, ?_⟩
      · rw [dAppend_render]
        show w ++ renderItems [] ++ d.render = (w :: rest).flatten
        rw [renderItems, hrender, List.flatten_cons]
        simp
      · rw [dAppend_anns]
        show anns = [] ++ d.anns
        rw [List.nil_append]
        exact hanns
      · exact ChunksOK_append f (some true) f2 ⟨w, []⟩ d
          (chunks_ws f w hwne hcls) hchunks
      · rw [hpos, List.flatten_cons]
        simp [Nat.add_assoc]
      · have hit : (dAppend ⟨w, []⟩ d).items = d.items := by
          rw [dAppend]
          rfl
        rw [hit]
        exact hpaths
      · have hit : (dAppend ⟨w, []⟩ d).items = d.items := by
          rw [dAppend]
          rfl
        rw [hit]
        refine spansChain_mono d.items (pos + w.length) pos pos2 pos2 hchain (by omega)
          (le_refl _)
      · have hit : (dAppend ⟨w, []⟩ d).items = d.items := by
          rw [dAppend]
          rfl
        rw [hit]
        intro it hit2
        obtain ⟨hpw, hpwc, σ, τ, hseg, hstart, hstop, hσ, hτ⟩ := hats it hit2
        refine ⟨hpw, hpwc, w ++ σ, τ, ?_, ?_, hstop, ?_, hτ⟩
        · rw [List.flatten_cons, hseg]
          simp
        · rw [hstart, List.length_append]
          omega
        · right
          rcases hσ with hσe | ⟨c, hc, hcw⟩
          · subst hσe
            rw [List.append_nil]
            exact getLast_ws w hwne hcls
          · refine ⟨c, ?_, hcw⟩
            rw [List.getLast?_append, hc]
            rfl
    | false =>
      -- word token
      have hsp : isspace w = false := isspace_of_word w hcls hwne
      have hie : w.isEmpty = false := isEmpty_false_of_ne w hwne
      rw [textLoop_cons, if_neg (by simp [hsp]), if_neg (by simp [hie])] at hrun
      have hlw : 1 ≤ w.length := by
        cases hww : w with
        | nil => exact absurd hww hwne
        | cons a bb => simp
      -- the incoming flag must be assigned
      have hinv2 : firstw = false → f = some true := by
        intro hfw
        rcases hinv hfw with h | h | ⟨w2, rest2, heq, hc2⟩
        · exact h
        · exact absurd h (by simp)
        · injection heq with hww hrr
          subst hww
          cases hww2 : w with
          | nil => exact absurd hww2 hwne
          | cons a bb =>
            have h1 := hcls a (by rw [hww2]; simp)
            have h2 := hc2 a (by rw [hww2]; simp)
            rw [h1] at h2
            exact absurd h2 (by simp)
      have hrestinv : ∀ fx : Flag, (false = false → fx = some true ∨ rest = [] ∨
          ∃ w2 rest2, rest = w2 :: rest2 ∧ sameClass true w2) := by
        intro fx _
        cases hre : rest with
        | nil => exact Or.inr (Or.inl rfl)
        | cons w2 rest2 =>
          rw [hre] at haf
          rw [AltFrom] at haf
          exact Or.inr (Or.inr ⟨w2, rest2, rfl, by simpa using haf.2.1⟩)
      -- extract the emitted annotation and the recursive run
      obtain ⟨g, hg, hrun1⟩ := Option.bind_eq_some.mp hrun
      obtain ⟨res, hrec, hres⟩ := Option.map_eq_some'.mp hrun1
      have hanns2 : anns = ⟨g, p, pos, pos + w.length - 1⟩ :: res.1 :=
        (congrArg Prod.fst hres).symm
      have hpos2 : res.2.1 = pos2 := congrArg (fun x => x.2.1) hres
      have hf2 : res.2.2 = f2 := congrArg (fun x => x.2.2) hres
      obtain ⟨bf, hbf, hgbf⟩ : ∃ bf, f = some bf ∧ g = !bf := by
        cases hfw : firstw with
        | true =>
          rw [hfw, if_pos rfl] at hg
          cases hf : f with
          | none => rw [hf] at hg; exact absurd hg (by simp)
          | some bb =>
            rw [hf] at hg
            simp only [Option.map_some', Option.some.injEq] at hg
            exact ⟨bb, rfl, hg.symm⟩
        | false =>
          rw [hfw] at hg
          simp only [Bool.false_eq_true, if_false] at hg
          have hft := hinv2 hfw
          injection hg with hg
          exact ⟨true, hft, by simp [← hg]⟩
      have hrun2 : textLoop p rest (pos + w.length) (some false) false =
          some (res.1, pos2, f2) := by
        rw [hrec, ← hpos2, ← hf2]
      rw [hgbf] at hanns2
      obtain ⟨d, hrender, hanns, hchunks, hpos, hpaths, hchain, hats⟩ :=
        ih p (pos + w.length) (some false) false res.1 pos2 f2 haltr (hrestinv _) hrun2
      set ann : RawAnn := ⟨!bf, p, pos, pos + w.length - 1⟩ with hanndef
      refine ⟨dAppend ⟨[], [⟨w, ann, []⟩]⟩ d, ?_, ?_, ?_, ?_, ?_, ?_, ?_⟩
      · rw [dAppend_render]
        show [] ++ renderItems [⟨w, ann, []⟩] ++ d.render = (w :: rest).flatten
        rw [renderItems, renderItems, hrender, List.flatten_cons]
        simp
      · rw [dAppend_anns]
        show anns = [ann] ++ d.anns
        rw [hanns2, ← hanns]
        rfl
      · refine ChunksOK_append f (some false) f2 ⟨[], [⟨w, ann, []⟩]⟩ d ?_ hchunks
        exact chunks_word f bf hbf w ann hwne hcls rfl
      · rw [hpos, List.flatten_cons]
        simp [Nat.add_assoc]
      · intro it hit
        rw [dAppend] at hit
        simp only [List.isEmpty_cons] at hit
        rw [if_neg (by simp)] at hit
        simp only at hit
        rw [addTrail] at hit
        rcases List.mem_append.mp hit with h | h
        · rw [List.mem_singleton] at h
          subst h
          rfl
        · exact hpaths it h
      · rw [dAppend]
        rw [if_neg (by simp)]
        simp only
        rw [addTrail, List.cons_append, List.nil_append]
        rw [spansChain]
        refine ⟨le_refl _, by simp [hanndef]; omega, hwne, ?_⟩
        have hstop : ann.stop + 1 = pos + w.length := by
          simp [hanndef]
          omega
        rw [hstop]
        refine spansChain_mono d.items (pos + w.length) (pos + w.length) pos2 pos2 hchain
          (le_refl _) (le_refl _)
      · intro it hit
        rw [dAppend] at hit
        rw [if_neg (by simp)] at hit
        simp only at hit
        rw [addTrail, List.cons_append, List.nil_append] at hit
        rcases List.mem_cons.mp hit with h | h
        · subst h
          refine ⟨hwne, hcls, [], rest.flatten, ?_, by simp [hanndef], ?_, Or.inl rfl, ?_⟩
          · rw [List.flatten_cons]
            simp
          · simp [hanndef]
            omega
          · cases hre : rest with
            | nil =>
              left
              rfl
            | cons w2 rest2 =>
              right
              rw [hre] at haf
              rw [AltFrom] at haf
              rw [List.flatten_cons]
              obtain ⟨hw2ne, hw2c, -⟩ := haf
              obtain ⟨c, hc, hcw⟩ := head_ws w2 hw2ne (by simpa using hw2c)
              refine ⟨c, ?_, hcw⟩
              cases hw2 : w2 with
              | nil => exact absurd hw2 hw2ne
              | cons a bb =>
                rw [hw2] at hc
                rw [List.cons_append, List.head?_cons]
                rw [List.head?_cons] at hc
                exact hc
        · obtain ⟨hpw, hpwc, σ, τ, hseg, hstart, hstop, hσ, hτ⟩ := hats it h
          have hσne : σ ≠ [] := by
            intro hσe
            subst hσe
            rw [List.nil_append] at hseg
            cases hre : rest with
            | nil =>
              rw [hre] at hseg
              simp only [List.flatten_nil] at hseg
              cases hpw2 : it.pw with
              | nil => exact hpw hpw2
              | cons a bb =>
                rw [hpw2] at hseg
                exact absurd hseg.symm (by simp)
            | cons w2 rest2 =>
              rw [hre] at haf hseg
              rw [AltFrom] at haf
              obtain ⟨hw2ne, hw2c, -⟩ := haf
              rw [List.flatten_cons] at hseg
              cases hpw2 : it.pw with
              | nil => exact hpw hpw2
              | cons a bb =>
                cases hw2 : w2 with
                | nil => exact hw2ne hw2
                | cons a2 bb2 =>
                  rw [hpw2] at hseg
                  rw [hw2] at hseg
                  rw [List.cons_append, List.cons_append] at hseg
                  injection hseg with hchar _
                  have hx1 : isWS a = false := hpwc a (by rw [hpw2]; simp)
                  have hx2 : isWS a2 = true := by
                    have := hw2c a2 (by rw [hw2]; simp)
                    simpa using this
                  rw [hchar] at hx2
                  rw [hx1] at hx2
                  exact absurd hx2 (by simp)
          refine ⟨hpw, hpwc, w ++ σ, τ, ?_, ?_, hstop, ?_, hτ⟩
          · rw [List.flatten_cons, hseg]
            simp
          · rw [hstart, List.length_append]
            omega
          · right
            rcases hσ with hσe | ⟨c, hc, hcw⟩
            · exact absurd hσe hσne
            · refine ⟨c, ?_, hcw⟩
              rw [List.getLast?_append, hc]
              rfl

/-- Claim C6: for `<p>Hello<b>world</b></p>` with `p` block and `b` inline, the
annotator produces plain text `" Hello" ++ "world" ++ " "`, raw annotations
`p:0-4` (not glued) and `+p/b:0-4` (glued), and the glue pass yields the single
entry `p:0-4+p/b:0-4`. -/
theorem c6_example_a :
    getDocumentRaw exampleA none =
      some ([⟨false, "p".toList, 0, 4⟩, ⟨true, "p/b".toList, 0, 4⟩],
        " Helloworld ".toList, some true) ∧
    getDocumentStandoff exampleA none =
      some (["p:0-4+p/b:0-4".toList], " Helloworld ".toList, some true) := by
  constructor <;> decide

/-- Claim C10: with the module-level whitespace flag still unassigned (as after
`main`'s function-local initialization), the first non-whitespace word of an
inline element makes `getWordStandoff` fail rather than return: the error
branch is reachable, both at the element level and document level. -/
theorem c10_unassigned_global_failure :
    getWordStandoff (.node true "b".toList (some "x".toList) [] none)
      "b".toList ['.'] 0 none = none ∧
    getDocumentStandoff c10tree none = none := by
  constructor <;> decide

/-- Claim C1 counterexample: for `c1tree` (fresh run), the glued output has two
entries while the reconstructed plain text `" AB"` has a single maximal
non-whitespace run `AB` — the one-to-one correspondence between glued
annotations and runs fails, because the empty block child's synthetic spaces
were discarded by the empty-standoff filter. -/
theorem c1_counterexample :
    getDocumentStandoff c1tree none =
      some (["b[1]:1-1".toList, "b[2]:0-0".toList], " AB".toList, some false) ∧
    wordsOf " AB".toList = ["AB".toList] := by
  constructor <;> decide

/-- Claim C2 counterexample: the block `div` of `c2div` has `text = None`, and
its visit emits no leading synthetic space and does not set the whitespace
state at the start: the emitted text is `"x "` (no leading space) and the
word of the inline child is glued to the previous word (the flag was still
`false` when it was read). -/
theorem c2_counterexample :
    getWordStandoff c2div "div".toList ['.'] 0 (some false) =
      some ([⟨true, "div/b".toList, 0, 0⟩], "x ".toList, some true, 0) ∧
    ("x ".toList).head? ≠ some ' ' := by
  constructor <;> decide

/-- Claim C3 counterexample: in `c3tree`, `b` immediately follows the
block-type sibling `div` inside `p`, yet the first (and only) word emitted
inside `b` carries the glue flag, because `div`'s tail text `"x"` reset the
whitespace state to `false` after the block boundary. -/
theorem c3_counterexample :
    (getDocumentRaw c3tree none).map (fun r => r.1) =
      some [⟨false, "p/div".toList, 0, 0⟩, ⟨false, "p".toList, 0, 0⟩,
        ⟨true, "p/b".toList, 0, 0⟩] := by
  decide

/-- Claim C5 counterexample: two real prior records leave the module-level
whitespace flag in different states (`false` after `c5docA`, `true` after
`c5docB`), and the identical record `c5docD` then produces different
annotation outputs — processing is not stateless across documents. -/
theorem c5_counterexample :
    (getDocumentStandoff c5docA none).map (fun r => r.2.2) = some (some false) ∧
    (getDocumentStandoff c5docB none).map (fun r => r.2.2) = some (some true) ∧
    getDocumentStandoff c5docD (some false) ≠ getDocumentStandoff c5docD (some true) := by
  refine ⟨by decide, by decide, by decide⟩

theorem glueRunsStr_cons_eq (a : List Char) (rest : List (List Char)) (b : List Char)
    (g : List (List Char)) (gs : List (List (List Char)))
    (h : glueRunsStr rest = (b :: g) :: gs) :
    glueRunsStr (a :: rest) =
      if b.head? = some '+' then (a :: b :: g) :: gs else [a] :: (b :: g) :: gs := by
  rw [glueRunsStr, h]

theorem glueRunsStr_split (a : List Char) : ∀ (rest : List (List Char)),
    glueRunsStr (a :: rest) =
      (a :: rest.takeWhile plusHead) :: glueRunsStr (rest.dropWhile plusHead) := by
  intro rest
  induction rest generalizing a with
  | nil => rfl
  | cons b rest2 ih =>
    rw [glueRunsStr_cons_eq a (b :: rest2) b (List.takeWhile plusHead rest2)
      (glueRunsStr (List.dropWhile plusHead rest2)) (ih b)]
    by_cases hb : b.head? = some '+'
    · rw [if_pos hb]
      have htw : (b :: rest2).takeWhile plusHead = b :: rest2.takeWhile plusHead := by
        rw [List.takeWhile_cons, if_pos (by simp [plusHead, hb])]
      have hdw : (b :: rest2).dropWhile plusHead = rest2.dropWhile plusHead := by
        rw [List.dropWhile_cons, if_pos (by simp [plusHead, hb])]
      rw [htw, hdw]
    · rw [if_neg hb]
      have htw : (b :: rest2).takeWhile plusHead = [] := by
        rw [List.takeWhile_cons, if_neg (by simp [plusHead, hb])]
      have hdw : (b :: rest2).dropWhile plusHead = b :: rest2 := by
        rw [List.dropWhile_cons, if_neg (by simp [plusHead, hb])]
      rw [htw, hdw, ih b]

theorem gluePassGo_spec : ∀ (l : List (List Char)) (b : List Char),
    gluePassGo l (some b) =
      (b ++ (l.takeWhile plusHead).flatten) ::
        (glueRunsStr (l.dropWhile plusHead)).map List.flatten := by
  intro l
  induction l with
  | nil =>
    intro b
    show [b] = (b ++ ([] : List (List Char)).flatten) :: (glueRunsStr []).map List.flatten
    simp [glueRunsStr]
  | cons a rest ih =>
    intro b
    rw [gluePassGo]
    by_cases ha : a.head? = some '+'
    · rw [if_pos ha, ih (b ++ a)]
      have htw : (a :: rest).takeWhile plusHead = a :: rest.takeWhile plusHead := by
        rw [List.takeWhile_cons, if_pos (by simp [plusHead, ha])]
      have hdw : (a :: rest).dropWhile plusHead = rest.dropWhile plusHead := by
        rw [List.dropWhile_cons, if_pos (by simp [plusHead, ha])]
      rw [htw, hdw, List.flatten_cons]
      simp
    · rw [if_neg ha, ih a]
      have htw : (a :: rest).takeWhile plusHead = [] := by
        rw [List.takeWhile_cons, if_neg (by simp [plusHead, ha])]
      have hdw : (a :: rest).dropWhile plusHead = a :: rest := by
        rw [List.dropWhile_cons, if_neg (by simp [plusHead, ha])]
      rw [htw, hdw, glueRunsStr_split a rest]
      simp

theorem gluePass_runs (l : List (List Char)) :
    gluePass l = (glueRunsStr l).map List.flatten := by
  cases l with
  | nil => rfl
  | cons a rest =>
    rw [gluePass]
    show gluePassGo rest (some a) = (glueRunsStr (a :: rest)).map List.flatten
    rw [gluePassGo_spec rest a, glueRunsStr_split a rest]
    simp

theorem glueRunsStr_flatten : ∀ (n : Nat) (l : List (List Char)), l.length ≤ n →
    (glueRunsStr l).flatten = l := by
  intro n
  induction n with
  | zero =>
    intro l hl
    have : l = [] := by
      cases l with
      | nil => rfl
      | cons a b => simp at hl
    subst this
    rfl
  | succ n ih =>
    intro l hl
    cases l with
    | nil => rfl
    | cons a rest =>
      rw [glueRunsStr_split a rest, List.flatten_cons]
      have hlen : (rest.dropWhile plusHead).length ≤ n := by
        have := (List.dropWhile_suffix (l := rest) plusHead).length_le
        simp at hl
        omega
      rw [ih (rest.dropWhile plusHead) hlen]
      rw [List.cons_append]
      rw [List.takeWhile_append_dropWhile]

theorem glueRunsStr_length : ∀ (n : Nat) (l : List (List Char)), l.length ≤ n →
    (glueRunsStr l).length ≤ l.length := by
  intro n
  induction n with
  | zero =>
    intro l hl
    have : l = [] := by
      cases l with
      | nil => rfl
      | cons a b => simp at hl
    subst this
    simp [glueRunsStr]
  | succ n ih =>
    intro l hl
    cases l with
    | nil => simp [glueRunsStr]
    | cons a rest =>
      rw [glueRunsStr_split a rest]
      have hd := (List.dropWhile_suffix (l := rest) plusHead).length_le
      have hlen : (rest.dropWhile plusHead).length ≤ n := by
        simp at hl
        omega
      have := ih (rest.dropWhile plusHead) hlen
      simp only [List.length_cons]
      omega

/-- Claim C4: the glue pass buffers the first annotation, concatenates each
`+`-prefixed annotation onto the buffer with no separator, otherwise flushes
the buffer and starts anew, flushing the final buffer: the output is exactly
the concatenation of the consecutive glue groups, it partitions the input in
order, and its length is at most the input length. -/
theorem c4_glue_pass (l : List (List Char)) :
    gluePass l = (glueRunsStr l).map List.flatten ∧
    (glueRunsStr l).flatten = l ∧
    (gluePass l).length ≤ l.length := by
  refine ⟨gluePass_runs l, glueRunsStr_flatten l.length l (le_refl _), ?_⟩
  rw [gluePass_runs l, List.length_map]
  exact glueRunsStr_length l.length l (le_refl _)

theorem Node.size_pos (e : Node) : 1 ≤ e.size := by
  cases e with
  | node ie g tx cs tl =>
    rw [Node.size]
    omega

theorem scrubList_nil : scrubSkippedTailsList [] = [] := rfl

theorem scrubList_cons (c : Node) (cs : List Node) :
    scrubSkippedTailsList (c :: cs) = scrubOne c :: scrubSkippedTailsList cs := by
  cases c with
  | node ie g tx ccs tl => rfl

theorem scrub_tag (c : Node) : (scrubSkippedTails c).tag = c.tag := by
  cases c with
  | node ie g tx cs tl => rfl

theorem scrub_isElem (c : Node) : (scrubSkippedTails c).isElem = c.isElem := by
  cases c with
  | node ie g tx cs tl => rfl

theorem scrubOne_tag (c : Node) : (scrubOne c).tag = c.tag := by
  cases c with
  | node ie g tx ccs tl =>
    rw [scrubOne]
    by_cases h : skipped (Node.node ie g tx ccs tl) = true
    · rw [if_pos h]
      rfl
    · rw [if_neg h]
      exact scrub_tag _

theorem scrubOne_isElem (c : Node) : (scrubOne c).isElem = c.isElem := by
  cases c with
  | node ie g tx ccs tl =>
    rw [scrubOne]
    by_cases h : skipped (Node.node ie g tx ccs tl) = true
    · rw [if_pos h]
      rfl
    · rw [if_neg h]
      exact scrub_isElem _

theorem scrubOne_skipped (c : Node) : skipped (scrubOne c) = skipped c := by
  rw [skipped, skipped, scrubOne_tag, scrubOne_isElem]

theorem scrubOne_of_kept (c : Node) (h : skipped c = false) :
    scrubOne c = scrubSkippedTails c := by
  cases c with
  | node ie g tx ccs tl =>
    rw [scrubOne, if_neg (by rw [h]; simp)]

theorem scrubList_sameTagCount : ∀ (cs : List Node) (g : List Char),
    sameTagCount (scrubSkippedTailsList cs) g = sameTagCount cs g := by
  intro cs
  induction cs with
  | nil => intro g; rfl
  | cons c cs ih =>
    intro g
    rw [scrubList_cons, sameTagCount, sameTagCount]
    rw [List.filter_cons, List.filter_cons]
    rw [scrubOne_tag, scrubOne_isElem]
    by_cases h : (c.isElem && c.tag == g) = true
    · rw [if_pos h, if_pos h]
      simp only [List.length_cons]
      have := ih g
      rw [sameTagCount, sameTagCount] at this
      omega
    · rw [Bool.not_eq_true] at h
      rw [if_neg (by simp [h]), if_neg (by simp [h])]
      have := ih g
      rw [sameTagCount, sameTagCount] at this
      exact this

theorem scrubList_take : ∀ (cs : List Node) (j : Nat),
    (scrubSkippedTailsList cs).take j = scrubSkippedTailsList (cs.take j) := by
  intro cs
  induction cs with
  | nil => intro j; simp [scrubList_nil]
  | cons c cs ih =>
    intro j
    cases j with
    | zero => rfl
    | succ j2 =>
      rw [scrubList_cons, List.take_succ_cons, List.take_succ_cons, scrubList_cons, ih j2]

theorem scrubList_childStep (cs : List Node) (j : Nat) (g : List Char) :
    childStep (scrubSkippedTailsList cs) j g = childStep cs j g := by
  rw [childStep, childStep, scrubList_sameTagCount, scrubList_take, scrubList_sameTagCount]

theorem scrub_spec : ∀ N : Nat,
    (∀ (e : Node) (op pp : List Char) (pCur : Nat) (f : Flag), Node.size e ≤ N →
      getWordStandoff (scrubSkippedTails e) op pp pCur f =
        getWordStandoff e op pp pCur f) ∧
    (∀ (all rest : List Node) (j : Nat) (op : List Char) (eCur : Nat) (f : Flag),
      Node.sizeList rest ≤ N →
      childrenLoop (scrubSkippedTailsList all) (scrubSkippedTailsList rest) j op eCur f =
        childrenLoop all rest j op eCur f) := by
  intro N
  induction N using Nat.strong_induction_on with
  | _ N ih =>
    have hvisit : ∀ (e : Node) (op pp : List Char) (pCur : Nat) (f : Flag),
        Node.size e ≤ N →
        getWordStandoff (scrubSkippedTails e) op pp pCur f =
          getWordStandoff e op pp pCur f := by
      intro e op pp pCur f hsz
      cases e with
      | node ie tag text cs tail =>
        rw [Node.size] at hsz
        have hcs : Node.sizeList cs ≤ N - 1 := by omega
        have hloop := (ih (N - 1) (by omega)).2 cs cs 0 op
        rw [scrubSkippedTails, getWordStandoff, getWordStandoff]
        have hlx : ∀ (eCur : Nat) (fx : Flag),
            childrenLoop (scrubSkippedTailsList cs) (scrubSkippedTailsList cs) 0 op eCur fx =
              childrenLoop cs cs 0 op eCur fx := fun eCur fx => hloop eCur fx hcs
        simp only [hlx]
    refine ⟨hvisit, ?_⟩
    intro all rest
    induction rest with
    | nil =>
      intro j op eCur f _
      rfl
    | cons c cs ihr =>
      intro j op eCur f hsz
      rw [Node.sizeList] at hsz
      have hc1 := Node.size_pos c
      rw [scrubList_cons, childrenLoop, childrenLoop]
      rw [scrubOne_skipped]
      by_cases hsk : skipped c = true
      · rw [if_pos hsk, if_pos hsk]
        exact ihr (j + 1) op eCur f (by omega)
      · rw [if_neg hsk, if_neg hsk]
        rw [Bool.not_eq_true] at hsk
        rw [scrubOne_tag, scrubList_childStep]
        rw [scrubOne_of_kept c hsk, hvisit c _ op eCur f (by omega)]
        have hrec : ∀ (eC : Nat) (fC : Flag),
            childrenLoop (scrubSkippedTailsList all) (scrubSkippedTailsList cs) (j + 1) op eC fC =
              childrenLoop all cs (j + 1) op eC fC :=
          fun eC fC => ihr (j + 1) op eC fC (by omega)
        simp only [hrec]

theorem scrub_docLoop : ∀ (rest all : List Node) (j : Nat) (rCur : Nat) (f : Flag),
    docLoop (scrubSkippedTailsList all) (scrubSkippedTailsList rest) j rCur f =
      docLoop all rest j rCur f := by
  intro rest
  induction rest with
  | nil => intro all j rCur f; rfl
  | cons c cs ih =>
    intro all j rCur f
    rw [scrubList_cons, docLoop, docLoop]
    rw [scrubOne_skipped]
    by_cases hsk : skipped c = true
    · rw [if_pos hsk, if_pos hsk]
      exact ih all (j + 1) rCur f
    · rw [if_neg hsk, if_neg hsk]
      rw [Bool.not_eq_true] at hsk
      rw [scrubOne_tag, scrubList_childStep]
      rw [scrubOne_of_kept c hsk,
        (scrub_spec (Node.size c)).1 c _ ['.'] rCur f (le_refl _)]
      have hrec : ∀ (rC : Nat) (fC : Flag),
          docLoop (scrubSkippedTailsList all) (scrubSkippedTailsList cs) (j + 1) rC fC =
            docLoop all cs (j + 1) rC fC := fun rC fC => ih all (j + 1) rC fC
      simp only [hrec]

/-- Claim C8: the tail text of a skipped node — a `script` or `style` element,
or any non-element node such as a comment — contributes neither characters to
the plain text nor any annotation: erasing all such tails leaves
`getDocumentStandoff` unchanged on every document and every incoming flag. -/
theorem c8_skipped_tails_invisible (d : Node) (f : Flag) :
    getDocumentStandoff (scrubDoc d) f = getDocumentStandoff d f := by
  cases d with
  | node ie g tx cs tl =>
    rw [getDocumentStandoff, getDocumentStandoff, getDocumentRaw, scrubDoc,
      scrubSkippedTails, getDocumentRaw]
    rw [scrub_docLoop cs cs 0 0 f]

/-! ### Unfolding equations for the traversal -/

theorem getWordStandoff_node (ie : Bool) (tag : List Char) (text : Option (List Char))
    (cs : List Node) (tail : Option (List Char)) (op pp : List Char) (pCur : Nat) (f : Flag) :
    getWordStandoff (.node ie tag text cs tail) op pp pCur f =
      (ownTextStep (inline_tags.contains tag) op text f).bind (fun own =>
        (childrenLoop cs cs 0 op own.2.2.1 own.2.2.2).bind (fun kids =>
          tailStep (inline_tags.contains tag) tag pp pCur own kids tail)) := rfl

theorem childrenLoop_nil (all : List Node) (j : Nat) (op : List Char) (eCur : Nat)
    (f : Flag) : childrenLoop all [] j op eCur f = some ([], [], f, eCur) := rfl

theorem childrenLoop_cons (all : List Node) (c : Node) (cs : List Node) (j : Nat)
    (op : List Char) (eCur : Nat) (f : Flag) :
    childrenLoop all (c :: cs) j op eCur f =
      if skipped c then childrenLoop all cs (j + 1) op eCur f
      else
        (getWordStandoff c (op ++ '/' :: childStep all j c.tag) op eCur f).bind (fun ca =>
          (childrenLoop all cs (j + 1) op ca.2.2.2 ca.2.2.1).map (fun ra =>
            (ca.1 ++ ra.1, ca.2.1 ++ ra.2.1, ra.2.2.1, ra.2.2.2))) := rfl

theorem docLoop_nil (all : List Node) (j rCur : Nat) (f : Flag) :
    docLoop all [] j rCur f = some ([], [], f, rCur) := rfl

theorem docLoop_cons (all : List Node) (c : Node) (cs : List Node) (j rCur : Nat)
    (f : Flag) :
    docLoop all (c :: cs) j rCur f =
      if skipped c then docLoop all cs (j + 1) rCur f
      else
        (getWordStandoff c (childStep all j c.tag) ['.'] rCur f).bind (fun ca =>
          (docLoop all cs (j + 1) ca.2.2.2 ca.2.2.1).map (fun ra =>
            if ca.1.isEmpty then (ra.1, ra.2.1, ra.2.2.1, ra.2.2.2)
            else (ca.1 ++ ra.1, ca.2.1 ++ ra.2.1, ra.2.2.1, ra.2.2.2))) := rfl

theorem ownTextStep_none (isInl : Bool) (op : List Char) (f : Flag) :
    ownTextStep isInl op none f = some ([], [], 0, f) := rfl

theorem ownTextStep_some (isInl : Bool) (op : List Char) (s : List Char) (f : Flag) :
    ownTextStep isInl op (some s) f =
      (textLoop op (tokenize s) 0 (if isInl then f else some true) true).map
        (fun r => (r.1, (if isInl then [] else [' ']) ++ s, r.2.1, r.2.2)) := rfl

theorem tailStep_none (isInl : Bool) (tag pp : List Char) (pCur : Nat)
    (own : List RawAnn × List Char × Nat × Flag)
    (kids : List RawAnn × List Char × Flag × Nat) :
    tailStep isInl tag pp pCur own kids none =
      some (own.1 ++ kids.1,
        own.2.1 ++ (kids.2.1 ++
          (if !isInl then [' '] else if tag = "br".toList then [' '] else [])),
        (if !isInl then some true else if tag = "br".toList then some true else kids.2.2.1),
        pCur) := rfl

theorem tailStep_some (isInl : Bool) (tag pp : List Char) (pCur : Nat)
    (own : List RawAnn × List Char × Nat × Flag)
    (kids : List RawAnn × List Char × Flag × Nat) (ts : List Char) :
    tailStep isInl tag pp pCur own kids (some ts) =
      (textLoop pp (tokenize ts) pCur
        (if !isInl then some true else if tag = "br".toList then some true else kids.2.2.1)
        true).map
        (fun tl => (own.1 ++ (kids.1 ++ tl.1),
          own.2.1 ++ (kids.2.1 ++
            ((if !isInl then [' '] else if tag = "br".toList then [' '] else []) ++ ts)),
          tl.2.2, tl.2.1)) := rfl

theorem docRecords_cons (all : List Node) (c : Node) (cs : List Node) (j rCur : Nat)
    (f : Flag) :
    docRecords all (c :: cs) j rCur f =
      if skipped c then docRecords all cs (j + 1) rCur f
      else
        (getWordStandoff c (childStep all j c.tag) ['.'] rCur f).bind (fun ca =>
          (docRecords all cs (j + 1) ca.2.2.2 ca.2.2.1).map
            (fun rs => (ca.1, ca.2.1) :: rs)) := rfl

theorem docLoop_records : ∀ (rest all : List Node) (j rCur : Nat) (f : Flag)
    (anns : List RawAnn) (t : List Char) (f2 : Flag) (rCur2 : Nat),
    docLoop all rest j rCur f = some (anns, t, f2, rCur2) →
    ∃ recs, docRecords all rest j rCur f = some recs ∧
      anns = (recs.map (fun rc => rc.1)).flatten ∧
      t = (recs.map (fun rc => if rc.1.isEmpty then [] else rc.2)).flatten := by
  intro rest
  induction rest with
  | nil =>
    intro all j rCur f anns t f2 rCur2 h
    rw [docLoop_nil] at h
    injection h with h
    refine ⟨[], rfl, ?_, ?_⟩
    · exact (congrArg Prod.fst h).symm
    · exact (congrArg (fun x => x.2.1) h).symm
  | cons c cs ih =>
    intro all j rCur f anns t f2 rCur2 h
    rw [docLoop_cons] at h
    rw [docRecords_cons]
    by_cases hsk : skipped c = true
    · rw [if_pos hsk] at h
      rw [if_pos hsk]
      exact ih all (j + 1) rCur f anns t f2 rCur2 h
    · rw [if_neg hsk] at h
      rw [if_neg hsk]
      obtain ⟨ca, hca, h2⟩ := Option.bind_eq_some.mp h
      obtain ⟨ra, hra, h3⟩ := Option.map_eq_some'.mp h2
      obtain ⟨recs, hrecs, hanns, ht⟩ :=
        ih all (j + 1) ca.2.2.2 ca.2.2.1 ra.1 ra.2.1 ra.2.2.1 ra.2.2.2 (by rw [hra])
      rw [hca]
      rw [Option.some_bind, hrecs, Option.map_some']
      refine ⟨(ca.1, ca.2.1) :: recs, rfl, ?_, ?_⟩
      · by_cases hemp : ca.1.isEmpty = true
        · rw [if_pos hemp] at h3
          have hae : ca.1 = [] := by
            cases hc1 : ca.1 with
            | nil => rfl
            | cons x xs => rw [hc1] at hemp; exact absurd hemp (by simp)
          have : anns = ra.1 := (congrArg Prod.fst h3).symm
          rw [this, hanns, List.map_cons, List.flatten_cons, hae]
          rfl
        · rw [if_neg hemp] at h3
          have : anns = ca.1 ++ ra.1 := (congrArg Prod.fst h3).symm
          rw [this, hanns, List.map_cons, List.flatten_cons]
      · by_cases hemp : ca.1.isEmpty = true
        · rw [if_pos hemp] at h3
          have : t = ra.2.1 := (congrArg (fun x => x.2.1) h3).symm
          rw [this, ht, List.map_cons, List.flatten_cons, if_pos hemp]
          rfl
        · rw [if_neg hemp] at h3
          have : t = ca.2.1 ++ ra.2.1 := (congrArg (fun x => x.2.1) h3).symm
          rw [this, ht, List.map_cons, List.flatten_cons, if_neg hemp]

/-- Claim C9: a top-level child of the root whose subtree yields an empty
annotation list contributes no characters to the document plain text: the
document text is the concatenation of the per-child texts with every
empty-standoff child's text (including its synthetic boundary spaces)
replaced by the empty string, and the document standoff is the concatenation
of the per-child standoffs. -/
theorem c9_empty_standoff_drops_text (d : Node) (f : Flag) (anns : List RawAnn)
    (t : List Char) (f2 : Flag) (h : getDocumentRaw d f = some (anns, t, f2)) :
    ∃ recs, docRecords d.children d.children 0 0 f = some recs ∧
      anns = (recs.map (fun rc => rc.1)).flatten ∧
      t = (recs.map (fun rc => if rc.1.isEmpty then [] else rc.2)).flatten := by
  cases d with
  | node ie g tx cs tl =>
    rw [getDocumentRaw] at h
    obtain ⟨r4, hr4, hmap⟩ := Option.map_eq_some'.mp h
    have h1 : r4.1 = anns := congrArg Prod.fst hmap
    have h2 : r4.2.1 = t := congrArg (fun x => x.2.1) hmap
    have hrun : docLoop cs cs 0 0 f = some (anns, t, r4.2.2.1, r4.2.2.2) := by
      rw [hr4, ← h1, ← h2]
    exact docLoop_records cs cs 0 0 f anns t r4.2.2.1 r4.2.2.2 hrun

/-- Witness for C9 at `c1tree`: the empty `div`'s record carries the text
`" "` yet contributes nothing to the document text `" AB"`. -/
theorem c9_witness :
    ∃ recs, docRecords c1tree.children c1tree.children 0 0 none = some recs ∧
      [RawAnn.mk false "b[1]".toList 1 1, RawAnn.mk false "b[2]".toList 0 0] =
        (recs.map (fun rc => rc.1)).flatten ∧
      " AB".toList = (recs.map (fun rc => if rc.1.isEmpty then [] else rc.2)).flatten :=
  c9_empty_standoff_drops_text c1tree none
    [RawAnn.mk false "b[1]".toList 1 1, RawAnn.mk false "b[2]".toList 0 0]
    " AB".toList (some false) (by decide)

theorem textLoop_pair : ∀ (toks : List (List Char)) (p : List Char) (pos : Nat)
    (f1 f2 : Flag) (fw : Bool) (a1 a2 : List RawAnn) (p1 p2 : Nat) (g1 g2 : Flag),
    textLoop p toks pos f1 fw = some (a1, p1, g1) →
    textLoop p toks pos f2 fw = some (a2, p2, g2) →
    p1 = p2 ∧ a1.map deglue = a2.map deglue ∧ FlagSync f1 f2 g1 g2 := by
  intro toks
  induction toks with
  | nil =>
    intro p pos f1 f2 fw a1 a2 p1 p2 g1 g2 h1 h2
    rw [textLoop_nil] at h1 h2
    injection h1 with h1
    injection h2 with h2
    obtain ⟨e1, e2, e3⟩ : a1 = [] ∧ p1 = pos ∧ g1 = f1 :=
      ⟨congrArg Prod.fst h1.symm, (congrArg (fun x => x.2.1) h1).symm,
        (congrArg (fun x => x.2.2) h1).symm⟩
    obtain ⟨e4, e5, e6⟩ : a2 = [] ∧ p2 = pos ∧ g2 = f2 :=
      ⟨congrArg Prod.fst h2.symm, (congrArg (fun x => x.2.1) h2).symm,
        (congrArg (fun x => x.2.2) h2).symm⟩
    refine ⟨by rw [e2, e5], by rw [e1, e4], Or.inr ⟨e3, e6⟩⟩
  | cons w rest ih =>
    intro p pos f1 f2 fw a1 a2 p1 p2 g1 g2 h1 h2
    rw [textLoop_cons] at h1 h2
    by_cases hsp : isspace w = true
    · rw [if_pos hsp] at h1 h2
      obtain ⟨e1, e2, e3⟩ := ih p (pos + w.length) (some true) (some true) false
        a1 a2 p1 p2 g1 g2 h1 h2
      refine ⟨e1, e2, ?_⟩
      rcases e3 with h | ⟨ha, hb⟩
      · exact Or.inl h
      · exact Or.inl (by rw [ha, hb])
    · rw [if_neg hsp] at h1 h2
      by_cases hie : w.isEmpty = true
      · rw [if_pos hie] at h1 h2
        exact ih p pos f1 f2 fw a1 a2 p1 p2 g1 g2 h1 h2
      · rw [if_neg hie] at h1 h2
        obtain ⟨gl1, hgl1, hr1⟩ := Option.bind_eq_some.mp h1
        obtain ⟨res1, hrec1, hres1⟩ := Option.map_eq_some'.mp hr1
        obtain ⟨gl2, hgl2, hr2⟩ := Option.bind_eq_some.mp h2
        obtain ⟨res2, hrec2, hres2⟩ := Option.map_eq_some'.mp hr2
        have hrun1 : textLoop p rest (pos + w.length) (some false) false =
            some (res1.1, res1.2.1, res1.2.2) := by rw [hrec1]
        have hrun2 : textLoop p rest (pos + w.length) (some false) false =
            some (res2.1, res2.2.1, res2.2.2) := by rw [hrec2]
        obtain ⟨e1, e2, e3⟩ := ih p (pos + w.length) (some false) (some false) false
          res1.1 res2.1 res1.2.1 res2.2.1 res1.2.2 res2.2.2 hrun1 hrun2
        have ha1 : a1 = ⟨gl1, p, pos, pos + w.length - 1⟩ :: res1.1 :=
          (congrArg Prod.fst hres1).symm
        have ha2 : a2 = ⟨gl2, p, pos, pos + w.length - 1⟩ :: res2.1 :=
          (congrArg Prod.fst hres2).symm
        have hp1 : p1 = res1.2.1 := (congrArg (fun x => x.2.1) hres1).symm
        have hp2 : p2 = res2.2.1 := (congrArg (fun x => x.2.1) hres2).symm
        have hg1 : g1 = res1.2.2 := (congrArg (fun x => x.2.2) hres1).symm
        have hg2 : g2 = res2.2.2 := (congrArg (fun x => x.2.2) hres2).symm
        refine ⟨by rw [hp1, hp2, e1], ?_, ?_⟩
        · rw [ha1, ha2, List.map_cons, List.map_cons, e2]
          rfl
        · rw [hg1, hg2]
          rcases e3 with h | ⟨ha, hb⟩
          · exact Or.inl h
          · exact Or.inl (by rw [ha, hb])

theorem visit_pair : ∀ N : Nat,
    (∀ (e : Node) (op pp : List Char) (pCur : Nat) (f1 f2 : Flag)
      (r1 r2 : List RawAnn × List Char × Flag × Nat), Node.size e ≤ N →
      getWordStandoff e op pp pCur f1 = some r1 →
      getWordStandoff e op pp pCur f2 = some r2 →
      r1.2.1 = r2.2.1 ∧ r1.2.2.2 = r2.2.2.2 ∧ r1.1.map deglue = r2.1.map deglue ∧
        FlagSync f1 f2 r1.2.2.1 r2.2.2.1) ∧
    (∀ (all rest : List Node) (j : Nat) (op : List Char) (eCur : Nat) (f1 f2 : Flag)
      (r1 r2 : List RawAnn × List Char × Flag × Nat), Node.sizeList rest ≤ N →
      childrenLoop all rest j op eCur f1 = some r1 →
      childrenLoop all rest j op eCur f2 = some r2 →
      r1.2.1 = r2.2.1 ∧ r1.2.2.2 = r2.2.2.2 ∧ r1.1.map deglue = r2.1.map deglue ∧
        FlagSync f1 f2 r1.2.2.1 r2.2.2.1) := by
  intro N
  induction N using Nat.strong_induction_on with
  | _ N ih =>
    have hvisit : ∀ (e : Node) (op pp : List Char) (pCur : Nat) (f1 f2 : Flag)
        (r1 r2 : List RawAnn × List Char × Flag × Nat), Node.size e ≤ N →
        getWordStandoff e op pp pCur f1 = some r1 →
        getWordStandoff e op pp pCur f2 = some r2 →
        r1.2.1 = r2.2.1 ∧ r1.2.2.2 = r2.2.2.2 ∧ r1.1.map deglue = r2.1.map deglue ∧
          FlagSync f1 f2 r1.2.2.1 r2.2.2.1 := by
      intro e op pp pCur f1 f2 r1 r2 hsz h1 h2
      cases e with
      | node ie tag text cs tail =>
        rw [Node.size] at hsz
        rw [getWordStandoff_node] at h1 h2
        obtain ⟨own1, hown1, hb1⟩ := Option.bind_eq_some.mp h1
        obtain ⟨own2, hown2, hb2⟩ := Option.bind_eq_some.mp h2
        obtain ⟨kids1, hkids1, ht1⟩ := Option.bind_eq_some.mp hb1
        obtain ⟨kids2, hkids2, ht2⟩ := Option.bind_eq_some.mp hb2
        -- own-text step relation
        have hown : own1.2.1 = own2.2.1 ∧ own1.2.2.1 = own2.2.2.1 ∧
            own1.1.map deglue = own2.1.map deglue ∧
            FlagSync f1 f2 own1.2.2.2 own2.2.2.2 := by
          cases text with
          | none =>
            rw [ownTextStep_none] at hown1 hown2
            injection hown1 with hown1
            injection hown2 with hown2
            rw [← hown1, ← hown2]
            exact ⟨rfl, rfl, rfl, Or.inr ⟨rfl, rfl⟩⟩
          | some s =>
            rw [ownTextStep_some] at hown1 hown2
            obtain ⟨tr1, htr1, hm1⟩ := Option.map_eq_some'.mp hown1
            obtain ⟨tr2, htr2, hm2⟩ := Option.map_eq_some'.mp hown2
            by_cases hinl : inline_tags.contains tag = true
            · rw [if_pos hinl] at htr1 htr2
              obtain ⟨e1, e2, e3⟩ := textLoop_pair (tokenize s) op 0 f1 f2 true
                tr1.1 tr2.1 tr1.2.1 tr2.2.1 tr1.2.2 tr2.2.2 (by rw [htr1]) (by rw [htr2])
              rw [← hm1, ← hm2]
              refine ⟨by simp, by simpa using e1, by simpa using e2, by simpa using e3⟩
            · rw [if_neg hinl] at htr1 htr2
              rw [htr1] at htr2
              injection htr2 with htr2
              rw [← hm1, ← hm2, htr2]
              exact ⟨rfl, rfl, rfl, Or.inl rfl⟩
        obtain ⟨ho1, ho2, ho3, ho4⟩ := hown
        -- children relation
        have hkids : kids1.2.1 = kids2.2.1 ∧ kids1.2.2.2 = kids2.2.2.2 ∧
            kids1.1.map deglue = kids2.1.map deglue ∧
            FlagSync own1.2.2.2 own2.2.2.2 kids1.2.2.1 kids2.2.2.1 := by
          rcases ho4 with hfe | ⟨hf1, hf2⟩
          · rw [ho2, hfe] at hkids1
            rw [hkids1] at hkids2
            injection hkids2 with hk
            rw [hk]
            exact ⟨rfl, rfl, rfl, Or.inl rfl⟩
          · have := (ih (N - 1) (by omega)).2 cs cs 0 op own1.2.2.1 own1.2.2.2
              own2.2.2.2 kids1 kids2 (by omega) hkids1 (by rw [ho2]; exact hkids2)
            exact this
        obtain ⟨hk1, hk2, hk3, hk4⟩ := hkids
        -- tail step
        have hf3 : FlagSync own1.2.2.2 own2.2.2.2
            (if !inline_tags.contains tag then some true
              else if tag = "br".toList then some true else kids1.2.2.1)
            (if !inline_tags.contains tag then some true
              else if tag = "br".toList then some true else kids2.2.2.1) := by
          by_cases hinl : (!inline_tags.contains tag) = true
          · rw [if_pos hinl, if_pos hinl]
            exact Or.inl rfl
          · rw [if_neg hinl, if_neg hinl]
            by_cases hbr : tag = "br".toList
            · rw [if_pos hbr, if_pos hbr]
              exact Or.inl rfl
            · rw [if_neg hbr, if_neg hbr]
              exact hk4
        cases tail with
        | none =>
          rw [tailStep_none] at ht1 ht2
          injection ht1 with ht1
          injection ht2 with ht2
          rw [← ht1, ← ht2]
          refine ⟨by rw [ho1, hk1], rfl, ?_, ?_⟩
          · show (own1.1 ++ kids1.1).map deglue = (own2.1 ++ kids2.1).map deglue
            rw [List.map_append, List.map_append, ho3, hk3]
          · show FlagSync f1 f2
              (if !inline_tags.contains tag then some true
                else if tag = "br".toList then some true else kids1.2.2.1)
              (if !inline_tags.contains tag then some true
                else if tag = "br".toList then some true else kids2.2.2.1)
            rcases hf3 with h | ⟨ha, hb⟩
            · exact Or.inl h
            · rw [ha, hb]
              rcases ho4 with h | ⟨hc, hd⟩
              · exact Or.inl h
              · exact Or.inr ⟨hc, hd⟩
        | some ts =>
          rw [tailStep_some] at ht1 ht2
          obtain ⟨tl1, htl1, hm1⟩ := Option.map_eq_some'.mp ht1
          obtain ⟨tl2, htl2, hm2⟩ := Option.map_eq_some'.mp ht2
          have hpair : tl1.2.1 = tl2.2.1 ∧ tl1.1.map deglue = tl2.1.map deglue ∧
              FlagSync
                (if !inline_tags.contains tag then some true
                  else if tag = "br".toList then some true else kids1.2.2.1)
                (if !inline_tags.contains tag then some true
                  else if tag = "br".toList then some true else kids2.2.2.1)
                tl1.2.2 tl2.2.2 := by
            rcases hf3 with hfe | ⟨hfa, hfb⟩
            · rw [hfe] at htl1
              rw [htl1] at htl2
              injection htl2 with hx
              rw [hx]
              exact ⟨rfl, rfl, Or.inl rfl⟩
            · exact textLoop_pair (tokenize ts) pp pCur _ _ true
                tl1.1 tl2.1 tl1.2.1 tl2.2.1 tl1.2.2 tl2.2.2
                (by rw [htl1]) (by rw [htl2])
          obtain ⟨hq1, hq2, hq3⟩ := hpair
          rw [← hm1, ← hm2]
          refine ⟨by rw [ho1, hk1], by simpa using hq1, ?_, ?_⟩
          · show (own1.1 ++ (kids1.1 ++ tl1.1)).map deglue =
              (own2.1 ++ (kids2.1 ++ tl2.1)).map deglue
            rw [List.map_append, List.map_append, List.map_append, List.map_append,
              ho3, hk3, hq2]
          · show FlagSync f1 f2 tl1.2.2 tl2.2.2
            rcases hq3 with h | ⟨ha, hb⟩
            · exact Or.inl h
            · rw [ha, hb]
              rcases hf3 with h | ⟨hc, hd⟩
              · exact Or.inl h
              · rw [hc, hd]
                rcases ho4 with h | ⟨he, hf⟩
                · exact Or.inl h
                · exact Or.inr ⟨he, hf⟩
    refine ⟨hvisit, ?_⟩
    intro all rest
    induction rest with
    | nil =>
      intro j op eCur f1 f2 r1 r2 _ h1 h2
      rw [childrenLoop_nil] at h1 h2
      injection h1 with h1
      injection h2 with h2
      rw [← h1, ← h2]
      exact ⟨rfl, rfl, rfl, Or.inr ⟨rfl, rfl⟩⟩
    | cons c cs ihr =>
      intro j op eCur f1 f2 r1 r2 hsz h1 h2
      rw [Node.sizeList] at hsz
      have hc1 := Node.size_pos c
      rw [childrenLoop_cons] at h1 h2
      by_cases hsk : skipped c = true
      · rw [if_pos hsk] at h1 h2
        exact ihr (j + 1) op eCur f1 f2 r1 r2 (by omega) h1 h2
      · rw [if_neg hsk] at h1 h2
        obtain ⟨ca1, hca1, hm1⟩ := Option.bind_eq_some.mp h1
        obtain ⟨ca2, hca2, hm2⟩ := Option.bind_eq_some.mp h2
        obtain ⟨ra1, hra1, hx1⟩ := Option.map_eq_some'.mp hm1
        obtain ⟨ra2, hra2, hx2⟩ := Option.map_eq_some'.mp hm2
        obtain ⟨hv1, hv2, hv3, hv4⟩ := hvisit c _ op eCur f1 f2 ca1 ca2 (by omega)
          hca1 hca2
        have hrec : ra1.2.1 = ra2.2.1 ∧ ra1.2.2.2 = ra2.2.2.2 ∧
            ra1.1.map deglue = ra2.1.map deglue ∧
            FlagSync ca1.2.2.1 ca2.2.2.1 ra1.2.2.1 ra2.2.2.1 := by
          rcases hv4 with hfe | ⟨hfa, hfb⟩
          · rw [hv2, hfe] at hra1
            rw [hra1] at hra2
            injection hra2 with hx
            rw [hx]
            exact ⟨rfl, rfl, rfl, Or.inl rfl⟩
          · exact ihr (j + 1) op ca1.2.2.2 ca1.2.2.1 ca2.2.2.1 ra1 ra2 (by omega)
              hra1 (by rw [hv2]; exact hra2)
        obtain ⟨hr1, hr2, hr3, hr4⟩ := hrec
        rw [← hx1, ← hx2]
        refine ⟨by rw [hv1, hr1], by simpa using hr2, ?_, ?_⟩
        · show (ca1.1 ++ ra1.1).map deglue = (ca2.1 ++ ra2.1).map deglue
          rw [List.map_append, List.map_append, hv3, hr3]
        · show FlagSync f1 f2 ra1.2.2.1 ra2.2.2.1
          rcases hr4 with h | ⟨ha, hb⟩
          · exact Or.inl h
          · rw [ha, hb]
            rcases hv4 with h | ⟨hc, hd⟩
            · exact Or.inl h
            · exact Or.inr ⟨hc, hd⟩

theorem deglue_isEmpty (a b : List RawAnn) (h : a.map deglue = b.map deglue) :
    a.isEmpty = b.isEmpty := by
  have := congrArg List.length h
  rw [List.length_map, List.length_map] at this
  cases a with
  | nil =>
    cases b with
    | nil => rfl
    | cons x xs => simp at this
  | cons x xs =>
    cases b with
    | nil => simp at this
    | cons y ys => rfl

theorem docLoop_pair : ∀ (rest all : List Node) (j rCur : Nat) (f1 f2 : Flag)
    (r1 r2 : List RawAnn × List Char × Flag × Nat),
    docLoop all rest j rCur f1 = some r1 → docLoop all rest j rCur f2 = some r2 →
    r1.2.1 = r2.2.1 ∧ r1.2.2.2 = r2.2.2.2 ∧ r1.1.map deglue = r2.1.map deglue ∧
      FlagSync f1 f2 r1.2.2.1 r2.2.2.1 := by
  intro rest
  induction rest with
  | nil =>
    intro all j rCur f1 f2 r1 r2 h1 h2
    rw [docLoop_nil] at h1 h2
    injection h1 with h1
    injection h2 with h2
    rw [← h1, ← h2]
    exact ⟨rfl, rfl, rfl, Or.inr ⟨rfl, rfl⟩⟩
  | cons c cs ih =>
    intro all j rCur f1 f2 r1 r2 h1 h2
    rw [docLoop_cons] at h1 h2
    by_cases hsk : skipped c = true
    · rw [if_pos hsk] at h1 h2
      exact ih all (j + 1) rCur f1 f2 r1 r2 h1 h2
    · rw [if_neg hsk] at h1 h2
      obtain ⟨ca1, hca1, hm1⟩ := Option.bind_eq_some.mp h1
      obtain ⟨ca2, hca2, hm2⟩ := Option.bind_eq_some.mp h2
      obtain ⟨ra1, hra1, hx1⟩ := Option.map_eq_some'.mp hm1
      obtain ⟨ra2, hra2, hx2⟩ := Option.map_eq_some'.mp hm2
      obtain ⟨hv1, hv2, hv3, hv4⟩ := (visit_pair (Node.size c)).1 c _ ['.'] rCur f1 f2
        ca1 ca2 (le_refl _) hca1 hca2
      have hrec : ra1.2.1 = ra2.2.1 ∧ ra1.2.2.2 = ra2.2.2.2 ∧
          ra1.1.map deglue = ra2.1.map deglue ∧
          FlagSync ca1.2.2.1 ca2.2.2.1 ra1.2.2.1 ra2.2.2.1 := by
        rcases hv4 with hfe | ⟨hfa, hfb⟩
        · rw [hv2, hfe] at hra1
          rw [hra1] at hra2
          injection hra2 with hx
          rw [hx]
          exact ⟨rfl, rfl, rfl, Or.inl rfl⟩
        · exact ih all (j + 1) ca1.2.2.2 ca1.2.2.1 ca2.2.2.1 ra1 ra2 hra1
            (by rw [hv2]; exact hra2)
      obtain ⟨hr1, hr2, hr3, hr4⟩ := hrec
      have hemp : ca1.1.isEmpty = ca2.1.isEmpty := deglue_isEmpty ca1.1 ca2.1 hv3
      have hsync : FlagSync f1 f2 ra1.2.2.1 ra2.2.2.1 := by
        rcases hr4 with h | ⟨ha, hb⟩
        · exact Or.inl h
        · rw [ha, hb]
          rcases hv4 with h | ⟨hc, hd⟩
          · exact Or.inl h
          · exact Or.inr ⟨hc, hd⟩
      by_cases he : ca1.1.isEmpty = true
      · rw [if_pos he] at hx1
        rw [if_pos (hemp ▸ he)] at hx2
        rw [← hx1, ← hx2]
        exact ⟨hr1, by simpa using hr2, hr3, hsync⟩
      · rw [if_neg he] at hx1
        rw [if_neg (by rw [← hemp]; exact he)] at hx2
        rw [← hx1, ← hx2]
        refine ⟨by rw [hv1, hr1], by simpa using hr2, ?_, hsync⟩
        show (ca1.1 ++ ra1.1).map deglue = (ca2.1 ++ ra2.1).map deglue
        rw [List.map_append, List.map_append, hv3, hr3]

/-- Claim C5 (amended): record processing shares exactly one piece of state
across documents, the module-level whitespace flag; the position-cursor map is
created fresh per document. Consequently the reconstructed plain text and the
paths and offsets of every annotation depend only on the document itself: for
any two incoming flag states under which processing succeeds, the plain texts
are equal and the annotation lists agree up to their glue marks. Only the glue
marks (and success versus NameError) can depend on earlier records. -/
theorem c5_amended_flag_only_affects_glue (d : Node) (f1 f2 : Flag)
    (r1 r2 : List RawAnn × List Char × Flag)
    (h1 : getDocumentRaw d f1 = some r1) (h2 : getDocumentRaw d f2 = some r2) :
    r1.2.1 = r2.2.1 ∧ r1.1.map deglue = r2.1.map deglue := by
  cases d with
  | node ie g tx cs tl =>
    rw [getDocumentRaw] at h1 h2
    obtain ⟨q1, hq1, hm1⟩ := Option.map_eq_some'.mp h1
    obtain ⟨q2, hq2, hm2⟩ := Option.map_eq_some'.mp h2
    obtain ⟨e1, e2, e3, e4⟩ := docLoop_pair cs cs 0 0 f1 f2 q1 q2 hq1 hq2
    rw [← hm1, ← hm2]
    exact ⟨e1, e3⟩

/-- Witness for the amended C5: the probe record `c5docD` run after the two
flag states produced by real prior records yields the same plain text and the
same annotations up to glue marks. -/
theorem c5_amended_witness :
    ([RawAnn.mk true "b".toList 0 0], "y".toList, (some false : Flag)).2.1 =
      ([RawAnn.mk false "b".toList 0 0], "y".toList, (some false : Flag)).2.1 ∧
    ([RawAnn.mk true "b".toList 0 0], "y".toList, (some false : Flag)).1.map deglue =
      ([RawAnn.mk false "b".toList 0 0], "y".toList, (some false : Flag)).1.map deglue :=
  c5_amended_flag_only_affects_glue c5docD (some false) (some true)
    ([RawAnn.mk true "b".toList 0 0], "y".toList, some false)
    ([RawAnn.mk false "b".toList 0 0], "y".toList, some false)
    (by decide) (by decide)

theorem addTrail_was : ∀ (l : List Piece) (s : List Char),
    (addTrail l s).map projWA = l.map projWA := by
  intro l
  induction l with
  | nil => intro s; rfl
  | cons p rest ih =>
    intro s
    cases rest with
    | nil => rfl
    | cons q rest2 =>
      rw [addTrail, List.map_cons, List.map_cons, ih s]

theorem dAppend_was (d1 d2 : Decomp) : (dAppend d1 d2).was = d1.was ++ d2.was := by
  rw [dAppend]
  by_cases h : d1.items.isEmpty = true
  · rw [if_pos h]
    have : d1.items = [] := by
      cases hi : d1.items with
      | nil => rfl
      | cons a b => rw [hi] at h; exact absurd h (by simp)
    rw [Decomp.was, Decomp.was, Decomp.was, this]
    simp
  · rw [if_neg h]
    rw [Decomp.was, Decomp.was, Decomp.was]
    simp only [List.map_append, addTrail_was]

theorem anns_eq_was (d : Decomp) : d.anns = d.was.map Prod.snd := by
  rw [Decomp.anns, Decomp.was, List.map_map]
  rfl

theorem wChain_le : ∀ (l : List (List Char × RawAnn)) (lo hi : Nat),
    wChain lo l hi → lo ≤ hi := by
  intro l
  induction l with
  | nil => intro lo hi h; exact h
  | cons wa rest ih =>
    intro lo hi h
    rw [wChain] at h
    have := ih (wa.2.stop + 1) hi h.2.2.2
    omega

theorem wChain_append : ∀ (l1 : List (List Char × RawAnn)) (lo mid hi : Nat)
    (l2 : List (List Char × RawAnn)),
    wChain lo l1 mid → wChain mid l2 hi → wChain lo (l1 ++ l2) hi := by
  intro l1
  induction l1 with
  | nil =>
    intro lo mid hi l2 h1 h2
    rw [wChain] at h1
    cases l2 with
    | nil =>
      show wChain lo [] hi
      rw [wChain] at h2 ⊢
      omega
    | cons wa rest =>
      show wChain lo (wa :: rest) hi
      rw [wChain] at h2 ⊢
      exact ⟨by omega, h2.2.1, h2.2.2.1, h2.2.2.2⟩
  | cons wa rest ih =>
    intro lo mid hi l2 h1 h2
    rw [wChain] at h1
    rw [List.cons_append, wChain]
    exact ⟨h1.1, h1.2.1, h1.2.2.1, ih _ mid hi l2 h1.2.2.2 h2⟩

theorem wChain_mono : ∀ (l : List (List Char × RawAnn)) (lo lo2 hi hi2 : Nat),
    wChain lo l hi → lo2 ≤ lo → hi ≤ hi2 → wChain lo2 l hi2 := by
  intro l
  induction l with
  | nil =>
    intro lo lo2 hi hi2 h hl hh
    rw [wChain] at h ⊢
    omega
  | cons wa rest ih =>
    intro lo lo2 hi hi2 h hl hh
    rw [wChain] at h ⊢
    exact ⟨by omega, h.2.1, h.2.2.1, ih _ _ hi hi2 h.2.2.2 (le_refl _) hh⟩

theorem wChain_start_ge : ∀ (l : List (List Char × RawAnn)) (lo hi : Nat),
    wChain lo l hi → ∀ wa ∈ l, lo ≤ wa.2.start ∧ wa.2.stop < hi := by
  intro l
  induction l with
  | nil => intro lo hi _ wa hwa; exact absurd hwa (List.not_mem_nil wa)
  | cons p rest ih =>
    intro lo hi h wa hwa
    rw [wChain] at h
    obtain ⟨hlo, hstop, hpw, hrest⟩ := h
    rcases List.mem_cons.mp hwa with h1 | h2
    · subst h1
      have hhi := wChain_le rest _ _ hrest
      have hl : 1 ≤ wa.1.length := by
        cases hw : wa.1 with
        | nil => exact absurd hw hpw
        | cons a b => simp
      exact ⟨hlo, by omega⟩
    · have := ih _ _ hrest wa h2
      have hl : 1 ≤ p.1.length := by
        cases hw : p.1 with
        | nil => exact absurd hw hpw
        | cons a b => simp
      exact ⟨by omega, this.2⟩

theorem wChain_pairwise : ∀ (l : List (List Char × RawAnn)) (lo hi : Nat),
    wChain lo l hi → l.Pairwise (fun x y => x.2.stop < y.2.start) := by
  intro l
  induction l with
  | nil => intro _ _ _; exact List.Pairwise.nil
  | cons p rest ih =>
    intro lo hi h
    rw [wChain] at h
    refine List.Pairwise.cons ?_ (ih _ _ h.2.2.2)
    intro y hy
    have := wChain_start_ge rest _ _ h.2.2.2 y hy
    omega

theorem spansChain_was : ∀ (l : List Piece) (lo hi : Nat),
    spansChain lo l hi → wChain lo (l.map projWA) hi := by
  intro l
  induction l with
  | nil => intro lo hi h; exact h
  | cons it rest ih =>
    intro lo hi h
    rw [spansChain] at h
    rw [List.map_cons, wChain]
    exact ⟨h.1, h.2.1, h.2.2.1, ih _ _ h.2.2.2⟩

theorem wannsFor_append (q : List Char) (l1 l2 : List (List Char × RawAnn)) :
    wannsFor q (l1 ++ l2) = wannsFor q l1 ++ wannsFor q l2 := by
  rw [wannsFor, wannsFor, wannsFor, List.filter_append]

theorem wannsFor_nil_of (q : List Char) (l : List (List Char × RawAnn))
    (h : ∀ wa ∈ l, wa.2.path ≠ q) : wannsFor q l = [] := by
  rw [wannsFor, List.filter_eq_nil_iff]
  intro wa hwa
  simp [h wa hwa]

theorem wannsFor_all (q : List Char) (l : List (List Char × RawAnn))
    (h : ∀ wa ∈ l, wa.2.path = q) : wannsFor q l = l := by
  rw [wannsFor, List.filter_eq_self]
  intro wa hwa
  simp [h wa hwa]

theorem wannsFor_mem (q : List Char) (l : List (List Char × RawAnn))
    (wa : List Char × RawAnn) (h : wa ∈ l) (hp : wa.2.path = q) : wa ∈ wannsFor q l := by
  rw [wannsFor, List.mem_filter]
  exact ⟨h, by simp [hp]⟩

theorem wannsFor_sub (q : List Char) (l : List (List Char × RawAnn)) :
    ∀ wa ∈ wannsFor q l, wa ∈ l := by
  intro wa hwa
  exact (List.mem_filter.mp hwa).1

theorem wannsFor_path (q : List Char) (l : List (List Char × RawAnn)) :
    ∀ wa ∈ wannsFor q l, wa.2.path = q := by
  intro wa hwa
  have := (List.mem_filter.mp hwa).2
  simpa using this

theorem nodeAt_nil (n : Node) : nodeAt n [] = some n := rfl

theorem elemAddr_cons_some (n : Node) (j : Nat) (rest : List Nat) (c : Node)
    (hc : n.children.get? j = some c) :
    elemAddr n (j :: rest) = (c.isElem && elemAddr c rest) := by
  rw [elemAddr, hc]

theorem nodeAt_append_one : ∀ (ad : List Nat) (r e c : Node) (k : Nat),
    nodeAt r ad = some e → e.children.get? k = some c →
    nodeAt r (ad ++ [k]) = some c := by
  intro ad
  induction ad with
  | nil =>
    intro r e c k hn hc
    rw [nodeAt_nil] at hn
    injection hn with hn
    subst hn
    rw [List.nil_append, nodeAt_cons r k [] c hc, nodeAt_nil]
  | cons j rest ih =>
    intro r e c k hn hc
    cases hj : r.children.get? j with
    | none => rw [nodeAt, hj] at hn; exact absurd hn (by simp)
    | some m =>
      rw [nodeAt_cons r j rest m hj] at hn
      rw [List.cons_append, nodeAt_cons r j (rest ++ [k]) m hj]
      exact ih m e c k hn hc

theorem elemAddr_append_one : ∀ (ad : List Nat) (r e c : Node) (k : Nat),
    elemAddr r ad = true → nodeAt r ad = some e → e.children.get? k = some c →
    c.isElem = true → elemAddr r (ad ++ [k]) = true := by
  intro ad
  induction ad with
  | nil =>
    intro r e c k _ hn hc hce
    rw [nodeAt_nil] at hn
    injection hn with hn
    subst hn
    rw [List.nil_append, elemAddr_cons_some r k [] c hc, hce]
    rfl
  | cons j rest ih =>
    intro r e c k hel hn hc hce
    cases hj : r.children.get? j with
    | none => rw [elemAddr, hj] at hel; exact absurd hel (by simp)
    | some m =>
      rw [nodeAt_cons r j rest m hj] at hn
      rw [elemAddr_cons_some r j rest m hj, Bool.and_eq_true] at hel
      rw [List.cons_append, elemAddr_cons_some r j (rest ++ [k]) m hj, hel.1,
        ih m e c k hel.2 hn hc hce]
      rfl

theorem pathSteps_append_one : ∀ (ad : List Nat) (r e c : Node) (k : Nat)
    (steps : List (List Char)),
    pathSteps r ad = some steps → nodeAt r ad = some e → e.children.get? k = some c →
    pathSteps r (ad ++ [k]) = some (steps ++ [childStep e.children k c.tag]) := by
  intro ad
  induction ad with
  | nil =>
    intro r e c k steps hs hn hc
    have hs2 : steps = [] := by
      have : pathSteps r [] = some [] := rfl
      rw [this] at hs
      injection hs with hs
      exact hs.symm
    rw [nodeAt_nil] at hn
    injection hn with hn
    subst hn
    subst hs2
    rw [List.nil_append, pathSteps_cons r k [] c hc]
    rfl
  | cons j rest ih =>
    intro r e c k steps hs hn hc
    cases hj : r.children.get? j with
    | none => rw [pathSteps, hj] at hs; exact absurd hs (by simp)
    | some m =>
      rw [pathSteps_cons r j rest m hj] at hs
      rw [nodeAt_cons r j rest m hj] at hn
      cases hsm : pathSteps m rest with
      | none => rw [hsm] at hs; exact absurd hs (by simp)
      | some l =>
        rw [hsm] at hs
        simp only [Option.map_some', Option.some.injEq] at hs
        rw [List.cons_append, pathSteps_cons r j (rest ++ [k]) m hj,
          ih m e c k l hsm hn hc]
        rw [Option.map_some', ← hs]
        rfl

theorem joinSteps_append_one : ∀ (steps : List (List Char)) (s : List Char),
    steps ≠ [] → joinSteps (steps ++ [s]) = joinSteps steps ++ '/' :: s := by
  intro steps
  induction steps with
  | nil => intro s h; exact absurd rfl h
  | cons a rest ih =>
    intro s _
    cases rest with
    | nil =>
      rw [List.cons_append, List.nil_append, joinSteps, joinSteps, joinSteps]
    | cons b rest2 =>
      have h1 : joinSteps (a :: b :: (rest2 ++ [s])) =
          a ++ '/' :: joinSteps (b :: (rest2 ++ [s])) := rfl
      have h2 : joinSteps (a :: b :: rest2) = a ++ '/' :: joinSteps (b :: rest2) := rfl
      show joinSteps (a :: b :: (rest2 ++ [s])) = joinSteps (a :: b :: rest2) ++ '/' :: s
      rw [h1, show b :: (rest2 ++ [s]) = (b :: rest2) ++ [s] from rfl, ih s (by simp), h2]
      simp

theorem pathOf_cons_eq (r : Node) (j : Nat) (rest : List Nat) :
    pathOf r (j :: rest) = (pathSteps r (j :: rest)).map joinSteps := rfl

theorem pathOf_append_one (r e c : Node) (ad : List Nat) (op : List Char) (k : Nat)
    (hne : ad ≠ []) (hop : pathOf r ad = some op) (hn : nodeAt r ad = some e)
    (hc : e.children.get? k = some c) :
    pathOf r (ad ++ [k]) = some (op ++ '/' :: childStep e.children k c.tag) := by
  cases ad with
  | nil => exact absurd rfl hne
  | cons j rest =>
    rw [pathOf_cons_eq] at hop
    cases hs : pathSteps r (j :: rest) with
    | none => rw [hs] at hop; exact absurd hop (by simp)
    | some steps =>
      rw [hs] at hop
      simp only [Option.map_some', Option.some.injEq] at hop
      have hsne : steps ≠ [] := by
        have hs2 := hs
        cases hj : r.children.get? j with
        | none => rw [pathSteps, hj] at hs2; exact absurd hs2 (by simp)
        | some m =>
          rw [pathSteps_cons r j rest m hj] at hs2
          cases hsm : pathSteps m rest with
          | none => rw [hsm] at hs2; exact absurd hs2 (by simp)
          | some l =>
            rw [hsm] at hs2
            simp only [Option.map_some', Option.some.injEq] at hs2
            rw [← hs2]
            simp
      have happ := pathSteps_append_one (j :: rest) r e c k steps hs hn hc
      have hform : (j :: rest) ++ [k] = j :: (rest ++ [k]) := rfl
      rw [hform] at happ
      rw [hform, pathOf_cons_eq, happ, Option.map_some',
        joinSteps_append_one steps _ hsne, hop]

theorem pathOf_root_child (r c : Node) (k : Nat) (hc : r.children.get? k = some c) :
    pathOf r [k] = some (childStep r.children k c.tag) := by
  rw [pathOf_cons_eq, pathSteps_cons r k [] c hc]
  rfl

theorem elemAddr_prefix : ∀ (a b : List Nat) (r : Node),
    elemAddr r (a ++ b) = true → elemAddr r a = true := by
  intro a
  induction a with
  | nil => intro b r _; rfl
  | cons j rest ih =>
    intro b r h
    cases hj : r.children.get? j with
    | none => rw [List.cons_append, elemAddr, hj] at h; exact absurd h (by simp)
    | some c =>
      rw [List.cons_append, elemAddr_cons_some r j (rest ++ b) c hj,
        Bool.and_eq_true] at h
      rw [elemAddr_cons_some r j rest c hj, h.1, ih b c h.2]
      rfl

theorem elemAddr_of_prefix (a b : List Nat) (r : Node) (hpre : a <+: b)
    (h : elemAddr r b = true) : elemAddr r a = true := by
  obtain ⟨t, ht⟩ := hpre
  subst ht
  exact elemAddr_prefix a t r h

theorem prefix_eq_of_length (l1 l2 da : List Nat) (h1 : l1 <+: da) (h2 : l2 <+: da)
    (hl : l1.length = l2.length) : l1 = l2 := by
  obtain ⟨t1, ht1⟩ := h1
  obtain ⟨t2, ht2⟩ := h2
  rw [← ht2] at ht1
  exact List.append_inj_left ht1 hl

theorem prefix_ne_nil (ad da : List Nat) (h : ad <+: da) (hne : ad ≠ []) : da ≠ [] := by
  intro hda
  subst hda
  exact hne (List.prefix_nil.mp h)

theorem parent_path_ne (r : Node) (ad : List Nat) (op pp : List Char)
    (hr : tagsOk r = true) (hel : elemAddr r ad = true) (hne : ad ≠ [])
    (hop : pathOf r ad = some op) (hpp : pathOf r ad.dropLast = some pp) : pp ≠ op := by
  intro heq
  subst heq
  have help : elemAddr r ad.dropLast = true :=
    elemAddr_of_prefix ad.dropLast ad r
      ⟨[ad.getLast hne], List.dropLast_append_getLast hne⟩ hel
  have := pathOf_inj r ad.dropLast ad pp hr help hel hpp hop
  have hlen := congrArg List.length this
  rw [List.length_dropLast] at hlen
  have hpos : 1 ≤ ad.length := by
    cases had : ad with
    | nil => exact absurd had hne
    | cons x xs => simp
  omega

theorem subtree_path_ne_parent (r : Node) (ad da : List Nat) (pp q : List Char)
    (hr : tagsOk r = true) (hel : elemAddr r ad = true) (hne : ad ≠ [])
    (hpp : pathOf r ad.dropLast = some pp) (hpre : ad <+: da)
    (helda : elemAddr r da = true) (hq : pathOf r da = some q) : q ≠ pp := by
  intro heq
  subst heq
  have help : elemAddr r ad.dropLast = true :=
    elemAddr_of_prefix ad.dropLast ad r
      ⟨[ad.getLast hne], List.dropLast_append_getLast hne⟩ hel
  have hda : da = ad.dropLast := pathOf_inj r da ad.dropLast q hr helda help hq hpp
  have hlen := hpre.length_le
  have hlen2 := congrArg List.length hda
  rw [List.length_dropLast] at hlen2
  have hpos : 1 ≤ ad.length := by
    cases had : ad with
    | nil => exact absurd had hne
    | cons x xs => simp
  omega

theorem tailsOf_nil : tailsOf [] = [] := rfl

theorem tailsOf_cons_skip (c : Node) (cs : List Node) (h : skipped c = true) :
    tailsOf (c :: cs) = tailsOf cs := by
  rw [tailsOf, tailsOf, List.filter_cons_of_neg (by simp [h])]

theorem tailsOf_cons_keep (c : Node) (cs : List Node) (h : skipped c = false) :
    tailsOf (c :: cs) = tailD c ++ tailsOf cs := by
  rw [tailsOf, tailsOf, List.filter_cons_of_pos (by simp [h]), List.map_cons,
    List.flatten_cons]

theorem chargedOf_eq (e : Node) : chargedOf e = textD e ++ tailsOf e.children := rfl

theorem chargedRoot_eq (r : Node) : chargedRoot r = tailsOf r.children := rfl

theorem drop_cons_get (all : List Node) (j : Nat) (c : Node) (cs : List Node)
    (h : all.drop j = c :: cs) : all.get? j = some c ∧ all.drop (j + 1) = cs := by
  constructor
  · have h0 : (all.drop j)[0]? = some c := by rw [h]; simp
    rw [List.getElem?_drop] at h0
    rw [List.get?_eq_getElem?]
    simpa using h0
  · have : all.drop (j + 1) = (all.drop j).drop 1 := by
      rw [List.drop_drop]
    rw [this, h]
    rfl

theorem itemsOK_mem : ∀ (l : List Piece) (f fOut : Flag), itemsOK f l fOut →
    ∀ p ∈ l, p.pw ≠ [] ∧ sameClass false p.pw ∧ wsStr p.trail := by
  intro l
  induction l with
  | nil => intro f fOut _ p hp; exact absurd hp (List.not_mem_nil p)
  | cons q rest ih =>
    intro f fOut h p hp
    rw [itemsOK] at h
    rcases List.mem_cons.mp hp with h1 | h2
    · subst h1
      exact ⟨h.1, h.2.1, h.2.2.1⟩
    · exact ih _ _ h.2.2.2.2.2 p h2

theorem itemsOK_last : ∀ (l : List Piece) (f fOut : Flag), itemsOK f l fOut →
    (l = [] ∧ fOut = f) ∨ ∃ p, l.getLast? = some p ∧
      fOut = (if p.trail = [] then some false else some true) := by
  intro l
  induction l with
  | nil => intro f fOut h; exact Or.inl ⟨rfl, h⟩
  | cons q rest ih =>
    intro f fOut h
    rw [itemsOK] at h
    right
    rcases ih _ _ h.2.2.2.2.2 with ⟨hnil, hf⟩ | ⟨p, hlast, hfo⟩
    · subst hnil
      exact ⟨q, rfl, hf⟩
    · cases hre : rest with
      | nil => rw [hre] at hlast; exact absurd hlast (by simp)
      | cons r1 r2 =>
        refine ⟨p, ?_, hfo⟩
        rw [hre] at hlast
        rw [List.getLast?_cons_cons, hlast]

theorem mem_of_getLast {α : Type} (l : List α) (a : α) (h : l.getLast? = some a) :
    a ∈ l := by
  cases hl : l with
  | nil => rw [hl] at h; exact absurd h (by simp)
  | cons x xs =>
    rw [hl] at h
    rw [List.getLast?_eq_getLast (x :: xs) (by simp)] at h
    injection h with h
    rw [← h]
    exact List.getLast_mem (by simp)

theorem getLast_append_right {α : Type} (l1 l2 : List α) (h : l2 ≠ []) :
    (l1 ++ l2).getLast? = l2.getLast? := by
  rw [List.getLast?_append, List.getLast?_eq_getLast l2 h]
  rfl

theorem renderItems_getLast : ∀ (l : List Piece) (p : Piece), l.getLast? = some p →
    (∀ q ∈ l, q.pw ≠ []) →
    (p.trail = [] → (renderItems l).getLast? = p.pw.getLast?) ∧
    (p.trail ≠ [] → (renderItems l).getLast? = p.trail.getLast?) := by
  intro l
  induction l with
  | nil => intro p hp _; exact absurd hp (by simp)
  | cons q rest ih =>
    intro p hp hpw
    cases rest with
    | nil =>
      have hqp : q = p := by simpa using hp
      subst hqp
      rw [renderItems, renderItems]
      constructor
      · intro ht
        rw [ht]
        simp
      · intro ht
        rw [List.append_nil, getLast_append_right q.pw q.trail ht]
    | cons q2 rest2 =>
      rw [List.getLast?_cons_cons] at hp
      obtain ⟨ih1, ih2⟩ := ih p hp (fun x hx => hpw x (by simp [hx]))
      have hrne : renderItems (q2 :: rest2) ≠ [] := by
        rw [renderItems]
        have hq2 := hpw q2 (by simp)
        cases hq2p : q2.pw with
        | nil => exact absurd hq2p hq2
        | cons a b => simp
      have hstep : (renderItems (q :: q2 :: rest2)).getLast? =
          (renderItems (q2 :: rest2)).getLast? := by
        rw [renderItems, getLast_append_right _ _ ?h1, getLast_append_right _ _ hrne]
        case h1 =>
          intro hx
          exact hrne (List.append_eq_nil.mp hx).2
      rw [hstep]
      exact ⟨ih1, ih2⟩

theorem render_last_nonws (d : Decomp) (f fOut : Flag) (h : ChunksOK f d fOut)
    (hne : d.render ≠ []) :
    (fOut = some false ↔ ∃ c, d.render.getLast? = some c ∧ isWS c = false) := by
  obtain ⟨hlead, hitems⟩ := h
  rcases itemsOK_last d.items _ _ hitems with ⟨hi, hf⟩ | ⟨p, hlast, hfo⟩
  · rw [Decomp.render, hi, renderItems, List.append_nil] at hne ⊢
    by_cases hl : d.lead = []
    · exact absurd hl hne
    · rw [if_neg hl] at hf
      subst hf
      constructor
      · intro hx
        exact absurd hx (by simp)
      · rintro ⟨c, hc, hcw⟩
        have hcm : c ∈ d.lead := mem_of_getLast d.lead c hc
        rw [hlead c hcm] at hcw
        exact absurd hcw (by simp)
  · have hmem : p ∈ d.items := mem_of_getLast d.items p hlast
    obtain ⟨hpwne, hpwcls, hptws⟩ := itemsOK_mem d.items _ _ hitems p hmem
    have hpws : ∀ q ∈ d.items, q.pw ≠ [] :=
      fun q hq => (itemsOK_mem d.items _ _ hitems q hq).1
    obtain ⟨hE, hT⟩ := renderItems_getLast d.items p hlast hpws
    have hrne2 : renderItems d.items ≠ [] := by
      intro hx
      by_cases ht : p.trail = []
      · have hc := hE ht
        rw [hx] at hc
        rw [List.getLast?_eq_getLast p.pw hpwne] at hc
        exact absurd hc.symm (by simp)
      · have hc := hT ht
        rw [hx] at hc
        rw [List.getLast?_eq_getLast p.trail ht] at hc
        exact absurd hc.symm (by simp)
    have hrl : d.render.getLast? = (renderItems d.items).getLast? := by
      rw [Decomp.render]
      exact getLast_append_right d.lead _ hrne2
    by_cases ht : p.trail = []
    · rw [if_pos ht] at hfo
      subst hfo
      constructor
      · intro _
        refine ⟨p.pw.getLast hpwne, ?_, ?_⟩
        · rw [hrl, hE ht, List.getLast?_eq_getLast p.pw hpwne]
        · exact hpwcls _ (List.getLast_mem hpwne)
      · intro _
        rfl
    · rw [if_neg ht] at hfo
      subst hfo
      constructor
      · intro hx
        exact absurd hx (by simp)
      · rintro ⟨c, hc, hcw⟩
        rw [hrl, hT ht, List.getLast?_eq_getLast p.trail ht] at hc
        injection hc with hc
        rw [← hc] at hcw
        have := hptws _ (List.getLast_mem ht)
        rw [this] at hcw
        exact absurd hcw (by simp)

theorem chunks_first_unglued (d : Decomp) (fOut : Flag) (h : ChunksOK (some true) d fOut)
    (it : Piece) (rest : List Piece) (hd : d.items = it :: rest) : it.an.glue = false := by
  obtain ⟨hlead, hitems⟩ := h
  rw [hd, ite_self, itemsOK] at hitems
  have hiff := hitems.2.2.2.2.1
  cases hg : it.an.glue
  · rfl
  · rw [hg] at hiff
    exact absurd (hiff.mp rfl) (by simp)

theorem annAt_zero_wordspan (s : List Char) (it : Piece) (h : annAt 0 s it) :
    IsWordSpan s it.an.start it.an.stop := by
  obtain ⟨hne, hcls, σ, τ, hseg, hstart, hstop, hσ, hτ⟩ := h
  exact ⟨σ, it.pw, τ, hseg, hne, hcls, by omega, hstop, hσ, hτ⟩

theorem resolves_of_annAt (r : Node) (p : List Char) (CP seg RST : List Char) (base : Nat)
    (it : Piece) (hres : resolveCharged r p = some (CP ++ (seg ++ RST)))
    (hbase : base = CP.length) (hat : annAt base seg it) (hp : it.an.path = p) :
    ResolvesWA r (projWA it) := by
  obtain ⟨hne, hcls, σ, τ, hseg, hstart, hstop, hs2, ht2⟩ := hat
  refine ⟨CP ++ (seg ++ RST), CP ++ σ, τ ++ RST, ?_, ?_, ?_, hstop⟩
  · show resolveCharged r it.an.path = _
    rw [hp]
    exact hres
  · show CP ++ (seg ++ RST) = (CP ++ σ) ++ (it.pw ++ (τ ++ RST))
    rw [hseg]
    simp [List.append_assoc]
  · show it.an.start = (CP ++ σ).length
    rw [hstart, hbase, List.length_append]

theorem subtree_of_annAt_own (r e : Node) (ad : List Nat) (s : List Char) (it : Piece)
    (hne : ad ≠ []) (hel : elemAddr r ad = true) (hn : nodeAt r ad = some e)
    (hp : pathOf r ad = some it.an.path) (htext : textD e = s) (hat : annAt 0 s it) :
    SubtreeAnn r ad (projWA it) := by
  refine ⟨ad, List.prefix_refl ad, hne, hel, hp, ?_⟩
  intro nd hnd _
  rw [hn] at hnd
  injection hnd with hnd
  subst hnd
  rw [htext]
  exact annAt_zero_wordspan s it hat

theorem subtree_vacuous (r e0 : Node) (ad : List Nat) (wa : List Char × RawAnn)
    (hne : ad ≠ []) (hel : elemAddr r ad = true) (hn : nodeAt r ad = some e0)
    (hp : pathOf r ad = some wa.2.path) (hge : (textD e0).length ≤ wa.2.start) :
    SubtreeAnn r ad wa := by
  refine ⟨ad, List.prefix_refl ad, hne, hel, hp, ?_⟩
  intro nd hnd hlt
  rw [hn] at hnd
  injection hnd with hnd
  subst hnd
  exact absurd hlt (by omega)

theorem SubtreeAnn_weaken (r : Node) (b1 b2 : List Nat) (wa : List Char × RawAnn)
    (hpre : b1 <+: b2) (h : SubtreeAnn r b2 wa) : SubtreeAnn r b1 wa := by
  obtain ⟨da, hp, hne, hel, hpa, hws⟩ := h
  exact ⟨da, hpre.trans hp, hne, hel, hpa, hws⟩

theorem PathChain_weaken (r : Node) (b1 b2 : List Nat) (q : List Char)
    (l : List (List Char × RawAnn)) (hpre : b1 <+: b2) (h : PathChain r b2 q l) :
    PathChain r b1 q l := by
  rcases h with hnil | ⟨da, hp, hne, hel, hpa, nd, hnd, hc⟩
  · exact Or.inl hnil
  · exact Or.inr ⟨da, hpre.trans hp, hne, hel, hpa, nd, hnd, hc⟩

theorem PathChain_combine (r : Node) (hr : tagsOk r = true) (ad : List Nat) (j k : Nat)
    (q : List Char) (l1 l2 : List (List Char × RawAnn))
    (h1 : PathChain r (ad ++ [j]) q l1) (h2 : PathChain r (ad ++ [k]) q l2)
    (hjk : j < k) : l1 = [] ∨ l2 = [] := by
  rcases h1 with hnil | ⟨da1, hp1, hne1, hel1, hq1, nd1, hnd1, hc1⟩
  · exact Or.inl hnil
  rcases h2 with hnil | ⟨da2, hp2, hne2, hel2, hq2, nd2, hnd2, hc2⟩
  · exact Or.inr hnil
  exfalso
  have hda : da1 = da2 := pathOf_inj r da1 da2 q hr hel1 hel2 hq1 hq2
  subst hda
  have heq : ad ++ [j] = ad ++ [k] :=
    prefix_eq_of_length _ _ da1 hp1 hp2 (by simp)
  have hjk2 := List.append_cancel_left heq
  injection hjk2 with hj _
  omega

theorem resolvesWA_extract (r : Node) (wa : List Char × RawAnn) (h : ResolvesWA r wa) :
    ∃ ct, resolveCharged r wa.2.path = some ct ∧ extract ct wa.2.start wa.2.stop = wa.1 := by
  obtain ⟨ct, σ, τ, hres, hct, hstart, hstop⟩ := h
  refine ⟨ct, hres, ?_⟩
  rw [hct, extract, hstart]
  rw [show wa.2.stop + 1 - σ.length = wa.1.length from by omega]
  rw [List.drop_left, List.take_left]

theorem serializeAnn_head_iff (an : RawAnn) (hne : an.path ≠ [])
    (hhd : an.path.head? ≠ some '+') :
    ((serializeAnn an).head? = some '+') ↔ an.glue = true := by
  rw [serializeAnn]
  cases hg : an.glue
  · rw [if_neg (by simp)]
    cases hp : an.path with
    | nil => exact absurd hp hne
    | cons c tl =>
      rw [hp] at hhd
      simp only [List.nil_append, List.cons_append, List.head?_cons]
      simp only [List.head?_cons, ne_eq, Option.some.injEq] at hhd
      constructor
      · intro hx
        injection hx with hx
        exact absurd hx hhd
      · intro hx
        exact absurd hx (by simp)
  · rw [if_pos rfl]
    simp

theorem skipped_false_elem (c : Node) (h : skipped c = false) : c.isElem = true := by
  cases hie : c.isElem
  · rw [skipped, hie] at h
    simp at h
  · rfl

theorem visit_spec : ∀ N : Nat,
    (∀ (e : Node) (op pp : List Char) (pCur : Nat) (f : Flag)
      (anns : List RawAnn) (t : List Char) (f2 : Flag) (pCur2 : Nat),
      Node.size e ≤ N →
      getWordStandoff e op pp pCur f = some (anns, t, f2, pCur2) →
      ∃ d : Decomp, t = d.render ∧ anns = d.anns ∧ ChunksOK f d f2 ∧
        pCur2 = pCur + (tailD e).length ∧
        ∀ (r : Node) (ad : List Nat), VisitHyps r ad e op pp pCur →
          VisitPathConcl r ad e pp pCur d) ∧
    (∀ (all rest : List Node) (j : Nat) (op : List Char) (eCur : Nat) (f : Flag)
      (anns : List RawAnn) (t : List Char) (f2 : Flag) (eCur2 : Nat),
      Node.sizeList rest ≤ N →
      childrenLoop all rest j op eCur f = some (anns, t, f2, eCur2) →
      ∃ d : Decomp, t = d.render ∧ anns = d.anns ∧ ChunksOK f d f2 ∧
        eCur2 = eCur + (tailsOf rest).length ∧
        ∀ (r : Node) (ad : List Nat) (e0 : Node), LoopHyps r ad e0 all rest j op eCur →
          LoopPathConcl r ad rest j op eCur d) := by
  intro N
  induction N using Nat.strong_induction_on with
  | _ N ih =>
    have hvisit : ∀ (e : Node) (op pp : List Char) (pCur : Nat) (f : Flag)
        (anns : List RawAnn) (t : List Char) (f2 : Flag) (pCur2 : Nat),
        Node.size e ≤ N →
        getWordStandoff e op pp pCur f = some (anns, t, f2, pCur2) →
        ∃ d : Decomp, t = d.render ∧ anns = d.anns ∧ ChunksOK f d f2 ∧
          pCur2 = pCur + (tailD e).length ∧
          ∀ (r : Node) (ad : List Nat), VisitHyps r ad e op pp pCur →
            VisitPathConcl r ad e pp pCur d := by
      intro e op pp pCur f anns t f2 pCur2 hsz hrun
      cases e with
      | node ie tag text cs tail =>
        rw [Node.size] at hsz
        rw [getWordStandoff_node] at hrun
        obtain ⟨own, hown, hb1⟩ := Option.bind_eq_some.mp hrun
        obtain ⟨kids, hkids, htail⟩ := Option.bind_eq_some.mp hb1
        -- the own-text step
        obtain ⟨dOwn, hOr, hOa, hOc, hOpos, hOitems, hOchain⟩ :
            ∃ dOwn : Decomp, own.2.1 = dOwn.render ∧ own.1 = dOwn.anns ∧
              ChunksOK f dOwn own.2.2.2 ∧
              own.2.2.1 = (textD (Node.node ie tag text cs tail)).length ∧
              (∀ it ∈ dOwn.items, it.an.path = op ∧
                annAt 0 (textD (Node.node ie tag text cs tail)) it) ∧
              wChain 0 dOwn.was (textD (Node.node ie tag text cs tail)).length := by
          cases text with
          | none =>
            rw [ownTextStep_none] at hown
            injection hown with hown
            subst hown
            refine ⟨⟨[], []⟩, rfl, rfl, chunks_empty f, rfl, ?_, ?_⟩
            · intro it hit
              exact absurd hit (List.not_mem_nil it)
            · show wChain 0 [] 0
              rw [wChain]
          | some s =>
            rw [ownTextStep_some] at hown
            obtain ⟨tr, htr, hm⟩ := Option.map_eq_some'.mp hown
            subst hm
            have htr2 : textLoop op (tokenize s) 0
                (if inline_tags.contains tag then f else some true) true =
                some (tr.1, tr.2.1, tr.2.2) := by rw [htr]
            obtain ⟨dT, hTr, hTa, hTc, hTp, hTpaths, hTchain, hTann⟩ :=
              textLoop_spec (tokenize s) op 0
                (if inline_tags.contains tag then f else some true) true
                tr.1 tr.2.1 tr.2.2 (tokenize_alt s) (fun h => absurd h (by simp)) htr2
            rw [tokenize_flatten] at hTr hTp hTann
            by_cases hinl : inline_tags.contains tag = true
            · rw [if_pos hinl] at hTc
              refine ⟨dT, ?_, hTa, hTc, ?_, ?_, ?_⟩
              · show (if inline_tags.contains tag then [] else [' ']) ++ s = dT.render
                rw [if_pos hinl, List.nil_append, hTr]
              · show tr.2.1 = s.length
                omega
              · intro it hit
                exact ⟨hTpaths it hit, hTann it hit⟩
              · show wChain 0 dT.was s.length
                have := spansChain_was dT.items 0 tr.2.1 hTchain
                rw [hTp] at this
                exact wChain_mono _ _ _ _ _ this (le_refl 0) (by omega)
            · rw [if_neg hinl] at hTc
              have hws1 : wsStr [' '] := by
                intro c hc
                rw [List.mem_singleton] at hc
                subst hc
                decide
              have hSpc : ChunksOK f ⟨[' '], []⟩ (some true) :=
                chunks_ws f [' '] (by simp) hws1
              have hitems : (dAppend ⟨[' '], []⟩ dT).items = dT.items := by
                rcases dAppend_items ⟨[' '], []⟩ dT with h | ⟨_, h⟩
                · rw [h]
                  show addTrail [] dT.lead ++ dT.items = dT.items
                  rw [addTrail, List.nil_append]
                · exact h
              have hwaseq : (dAppend ⟨[' '], []⟩ dT).was = dT.was := by
                rw [dAppend_was]
                show [] ++ dT.was = dT.was
                rw [List.nil_append]
              refine ⟨dAppend ⟨[' '], []⟩ dT, ?_, ?_, ?_, ?_, ?_, ?_⟩
              · show (if inline_tags.contains tag then [] else [' ']) ++ s =
                  (dAppend ⟨[' '], []⟩ dT).render
                rw [if_neg hinl, dAppend_render, hTr]
                show [' '] ++ s = ([' '] ++ renderItems []) ++ s
                rw [renderItems, List.append_nil]
              · rw [dAppend_anns, ← hTa]
                show tr.1 = [] ++ tr.1
                rw [List.nil_append]
              · exact ChunksOK_append f (some true) tr.2.2 ⟨[' '], []⟩ dT hSpc hTc
              · show tr.2.1 = s.length
                omega
              · intro it hit
                rw [hitems] at hit
                exact ⟨hTpaths it hit, hTann it hit⟩
              · rw [hwaseq]
                show wChain 0 dT.was s.length
                have := spansChain_was dT.items 0 tr.2.1 hTchain
                rw [hTp] at this
                exact wChain_mono _ _ _ _ _ this (le_refl 0) (by omega)
        -- the children loop
        obtain ⟨dKids, hk1, hk2, hk3, hk4, hk5⟩ :=
          (ih (N - 1) (by omega)).2 cs cs 0 op own.2.2.1 own.2.2.2
            kids.1 kids.2.1 kids.2.2.1 kids.2.2.2 (by omega) (by rw [hkids])
        -- the trailing-space chunk
        have hws1 : wsStr [' '] := by
          intro c hc
          rw [List.mem_singleton] at hc
          subst hc
          decide
        have hSpc : ChunksOK kids.2.2.1
            ⟨(if !inline_tags.contains tag then [' ']
              else if tag = "br".toList then [' '] else []), []⟩
            (if !inline_tags.contains tag then some true
              else if tag = "br".toList then some true else kids.2.2.1) := by
          by_cases h1 : (!inline_tags.contains tag) = true
          · rw [if_pos h1, if_pos h1]
            exact chunks_ws _ [' '] (by simp) hws1
          · rw [if_neg h1, if_neg h1]
            by_cases h2 : tag = "br".toList
            · rw [if_pos h2, if_pos h2]
              exact chunks_ws _ [' '] (by simp) hws1
            · rw [if_neg h2, if_neg h2]
              exact chunks_empty _
        cases tail with
        | none =>
          rw [tailStep_none] at htail
          injection htail with htail
          have he1 : own.1 ++ kids.1 = anns := congrArg Prod.fst htail
          have he2 : own.2.1 ++ (kids.2.1 ++
              (if !inline_tags.contains tag then [' ']
                else if tag = "br".toList then [' '] else [])) = t :=
            congrArg (fun x => x.2.1) htail
          have he3 : (if !inline_tags.contains tag then some true
              else if tag = "br".toList then some true else kids.2.2.1) = f2 :=
            congrArg (fun x => x.2.2.1) htail
          have he4 : pCur = pCur2 := congrArg (fun x => x.2.2.2) htail
          refine ⟨dAppend dOwn (dAppend dKids
            ⟨(if !inline_tags.contains tag then [' ']
              else if tag = "br".toList then [' '] else []), []⟩), ?_, ?_, ?_, ?_, ?_⟩
          · rw [← he2, dAppend_render, dAppend_render, ← hOr, ← hk1]
            show own.2.1 ++ (kids.2.1 ++ _) = own.2.1 ++ (kids.2.1 ++ (_ ++ renderItems []))
            rw [renderItems, List.append_nil]
          · rw [← he1, dAppend_anns, dAppend_anns, ← hOa, ← hk2]
            show own.1 ++ kids.1 = own.1 ++ (kids.1 ++ [])
            rw [List.append_nil]
          · rw [← he3]
            exact ChunksOK_append f own.2.2.2 _ dOwn _ hOc
              (ChunksOK_append own.2.2.2 kids.2.2.1 _ dKids _ hk3 hSpc)
          · rw [← he4]
            show pCur = pCur + (0 : Nat)
            omega
          · intro r ad hyps
            obtain ⟨hr, hel, hadne, hnode, hop, hpp, CP, RST, hres, hpcur⟩ := hyps
            have hppop : pp ≠ op := parent_path_ne r ad op pp hr hel hadne hop hpp
            have hresolve : resolveCharged r op =
                some (chargedOf (Node.node ie tag text cs none)) :=
              resolveCharged_pathOf r ad _ op hr hel hadne hnode hop
            have hLH : LoopHyps r ad (Node.node ie tag text cs none) cs cs 0 op
                own.2.2.1 := by
              refine ⟨hr, hel, hadne, hnode, hop, rfl, (List.drop_zero cs).symm,
                textD (Node.node ie tag text cs none), ?_, hOpos, le_of_eq hOpos.symm⟩
              rw [chargedOf_eq]
              rfl
            obtain ⟨Φk1, Φk2, Φk3, Φk4⟩ := hk5 r ad (Node.node ie tag text cs none) hLH
            have hOwnWaPath : ∀ wa ∈ dOwn.was, wa.2.path = op := by
              intro wa hwa
              obtain ⟨it, hit, heq⟩ := List.mem_map.mp hwa
              rw [← heq]
              exact (hOitems it hit).1
            have hOwnWaRes : ∀ wa ∈ dOwn.was, ResolvesWA r wa := by
              intro wa hwa
              obtain ⟨it, hit, heq⟩ := List.mem_map.mp hwa
              rw [← heq]
              exact resolves_of_annAt r op []
                (textD (Node.node ie tag text cs none)) (tailsOf cs) 0 it
                hresolve rfl (hOitems it hit).2 (hOitems it hit).1
            have hOwnWaSub : ∀ wa ∈ dOwn.was, SubtreeAnn r ad wa := by
              intro wa hwa
              obtain ⟨it, hit, heq⟩ := List.mem_map.mp hwa
              rw [← heq]
              refine subtree_of_annAt_own r (Node.node ie tag text cs none) ad
                (textD (Node.node ie tag text cs none)) it hadne hel hnode ?_ rfl
                (hOitems it hit).2
              rw [(hOitems it hit).1]
              exact hop
            have hKidsNePP : ∀ wa ∈ dKids.was, wa.2.path ≠ pp := by
              intro wa hwa
              obtain ⟨da, hpre, hdane, helda, hqa, _⟩ := Φk2 wa hwa
              exact subtree_path_ne_parent r ad da pp wa.2.path hr hel hadne hpp hpre
                helda hqa
            have hwas : (dAppend dOwn (dAppend dKids
                ⟨(if !inline_tags.contains tag then [' ']
                  else if tag = "br".toList then [' '] else []), []⟩)).was =
                dOwn.was ++ (dKids.was ++ []) := by
              rw [dAppend_was, dAppend_was]
              rfl
            refine ⟨?_, ?_, ?_, ?_⟩
            · intro wa hwa
              rw [hwas, List.append_nil] at hwa
              rcases List.mem_append.mp hwa with h | h
              · exact hOwnWaRes wa h
              · exact Φk1 wa h
            · intro wa hwa
              rw [hwas, List.append_nil] at hwa
              rcases List.mem_append.mp hwa with h | h
              · exact Or.inr (hOwnWaSub wa h)
              · exact Or.inr (Φk2 wa h)
            · rw [hwas, List.append_nil, wannsFor_append]
              rw [wannsFor_nil_of pp dOwn.was
                (fun wa hwa => by rw [hOwnWaPath wa hwa]; exact Ne.symm hppop)]
              rw [wannsFor_nil_of pp dKids.was hKidsNePP]
              show wChain pCur [] (pCur + (0 : Nat))
              rw [wChain]
              omega
            · intro q hq
              by_cases hqo : q = op
              · subst hqo
                refine Or.inr ⟨ad, List.prefix_refl ad, hadne, hel, hop,
                  Node.node ie tag text cs none, hnode, ?_⟩
                rw [hwas, List.append_nil, wannsFor_append,
                  wannsFor_all q dOwn.was hOwnWaPath]
                have hlen : (chargedOf (Node.node ie tag text cs none)).length =
                    (textD (Node.node ie tag text cs none)).length +
                      (tailsOf cs).length := by
                  rw [chargedOf_eq, List.length_append]
                  rfl
                rw [hlen]
                refine wChain_append dOwn.was 0
                  (textD (Node.node ie tag text cs none)).length _
                  (wannsFor q dKids.was) hOchain ?_
                rw [← hOpos]
                exact Φk3
              · rw [hwas, List.append_nil, wannsFor_append]
                rw [wannsFor_nil_of q dOwn.was
                  (fun wa hwa => by rw [hOwnWaPath wa hwa]; exact fun h => hqo h.symm)]
                rw [List.nil_append]
                rcases Φk4 q hqo with hnil | ⟨k, hk, hchain⟩
                · exact Or.inl hnil
                · exact PathChain_weaken r ad (ad ++ [k]) q _
                    (List.prefix_append ad [k]) hchain
        | some ts =>
          rw [tailStep_some] at htail
          obtain ⟨tl, htl, hm⟩ := Option.map_eq_some'.mp htail
          have he1 : own.1 ++ (kids.1 ++ tl.1) = anns := congrArg Prod.fst hm
          have he2 : own.2.1 ++ (kids.2.1 ++
              ((if !inline_tags.contains tag then [' ']
                else if tag = "br".toList then [' '] else []) ++ ts)) = t :=
            congrArg (fun x => x.2.1) hm
          have he3 : tl.2.2 = f2 := congrArg (fun x => x.2.2.1) hm
          have he4 : tl.2.1 = pCur2 := congrArg (fun x => x.2.2.2) hm
          have htl2 : textLoop pp (tokenize ts) pCur
              (if !inline_tags.contains tag then some true
                else if tag = "br".toList then some true else kids.2.2.1) true =
              some (tl.1, tl.2.1, tl.2.2) := by rw [htl]
          obtain ⟨dTail, hTr, hTa, hTc, hTp, hTpaths, hTchain, hTann⟩ :=
            textLoop_spec (tokenize ts) pp pCur
              (if !inline_tags.contains tag then some true
                else if tag = "br".toList then some true else kids.2.2.1) true
              tl.1 tl.2.1 tl.2.2 (tokenize_alt ts) (fun h => absurd h (by simp)) htl2
          rw [tokenize_flatten] at hTr hTp hTann
          refine ⟨dAppend dOwn (dAppend dKids (dAppend
            ⟨(if !inline_tags.contains tag then [' ']
              else if tag = "br".toList then [' '] else []), []⟩ dTail)), ?_, ?_, ?_, ?_, ?_⟩
          · rw [← he2, dAppend_render, dAppend_render, dAppend_render, ← hOr, ← hk1, ← hTr]
            show own.2.1 ++ (kids.2.1 ++ (_ ++ dTail.render)) =
              own.2.1 ++ (kids.2.1 ++ ((_ ++ renderItems []) ++ dTail.render))
            rw [renderItems, List.append_nil]
          · rw [← he1, dAppend_anns, dAppend_anns, dAppend_anns, ← hOa, ← hk2, ← hTa]
            show own.1 ++ (kids.1 ++ tl.1) = own.1 ++ (kids.1 ++ ([] ++ tl.1))
            rw [List.nil_append]
          · rw [← he3]
            exact ChunksOK_append f own.2.2.2 _ dOwn _ hOc
              (ChunksOK_append own.2.2.2 kids.2.2.1 _ dKids _ hk3
                (ChunksOK_append kids.2.2.1 _ _ _ dTail hSpc hTc))
          · rw [← he4, hTp]
            rfl
          · intro r ad hyps
            obtain ⟨hr, hel, hadne, hnode, hop, hpp, CP, RST, hres, hpcur⟩ := hyps
            have hppop : pp ≠ op := parent_path_ne r ad op pp hr hel hadne hop hpp
            have hresolve : resolveCharged r op =
                some (chargedOf (Node.node ie tag text cs (some ts))) :=
              resolveCharged_pathOf r ad _ op hr hel hadne hnode hop
            have hLH : LoopHyps r ad (Node.node ie tag text cs (some ts)) cs cs 0 op
                own.2.2.1 := by
              refine ⟨hr, hel, hadne, hnode, hop, rfl, (List.drop_zero cs).symm,
                textD (Node.node ie tag text cs (some ts)), ?_, hOpos, le_of_eq hOpos.symm⟩
              rw [chargedOf_eq]
              rfl
            obtain ⟨Φk1, Φk2, Φk3, Φk4⟩ := hk5 r ad (Node.node ie tag text cs (some ts)) hLH
            have hOwnWaPath : ∀ wa ∈ dOwn.was, wa.2.path = op := by
              intro wa hwa
              obtain ⟨it, hit, heq⟩ := List.mem_map.mp hwa
              rw [← heq]
              exact (hOitems it hit).1
            have hOwnWaRes : ∀ wa ∈ dOwn.was, ResolvesWA r wa := by
              intro wa hwa
              obtain ⟨it, hit, heq⟩ := List.mem_map.mp hwa
              rw [← heq]
              exact resolves_of_annAt r op []
                (textD (Node.node ie tag text cs (some ts))) (tailsOf cs) 0 it
                hresolve rfl (hOitems it hit).2 (hOitems it hit).1
            have hOwnWaSub : ∀ wa ∈ dOwn.was, SubtreeAnn r ad wa := by
              intro wa hwa
              obtain ⟨it, hit, heq⟩ := List.mem_map.mp hwa
              rw [← heq]
              refine subtree_of_annAt_own r (Node.node ie tag text cs (some ts)) ad
                (textD (Node.node ie tag text cs (some ts))) it hadne hel hnode ?_ rfl
                (hOitems it hit).2
              rw [(hOitems it hit).1]
              exact hop
            have hKidsNePP : ∀ wa ∈ dKids.was, wa.2.path ≠ pp := by
              intro wa hwa
              obtain ⟨da, hpre, hdane, helda, hqa, _⟩ := Φk2 wa hwa
              exact subtree_path_ne_parent r ad da pp wa.2.path hr hel hadne hpp hpre
                helda hqa
            have hTailWaPath : ∀ wa ∈ dTail.was, wa.2.path = pp := by
              intro wa hwa
              obtain ⟨it, hit, heq⟩ := List.mem_map.mp hwa
              rw [← heq]
              exact hTpaths it hit
            have hTailWaRes : ∀ wa ∈ dTail.was, ResolvesWA r wa := by
              intro wa hwa
              obtain ⟨it, hit, heq⟩ := List.mem_map.mp hwa
              rw [← heq]
              exact resolves_of_annAt r pp CP ts RST pCur it hres hpcur
                (hTann it hit) (hTpaths it hit)
            have hwas : (dAppend dOwn (dAppend dKids (dAppend
                ⟨(if !inline_tags.contains tag then [' ']
                  else if tag = "br".toList then [' '] else []), []⟩ dTail))).was =
                dOwn.was ++ (dKids.was ++ dTail.was) := by
              rw [dAppend_was, dAppend_was, dAppend_was]
              rfl
            refine ⟨?_, ?_, ?_, ?_⟩
            · intro wa hwa
              rw [hwas] at hwa
              rcases List.mem_append.mp hwa with h | h
              · exact hOwnWaRes wa h
              rcases List.mem_append.mp h with h | h
              · exact Φk1 wa h
              · exact hTailWaRes wa h
            · intro wa hwa
              rw [hwas] at hwa
              rcases List.mem_append.mp hwa with h | h
              · exact Or.inr (hOwnWaSub wa h)
              rcases List.mem_append.mp h with h | h
              · exact Or.inr (Φk2 wa h)
              · exact Or.inl (hTailWaPath wa h)
            · rw [hwas, wannsFor_append, wannsFor_append]
              rw [wannsFor_nil_of pp dOwn.was
                (fun wa hwa => by rw [hOwnWaPath wa hwa]; exact Ne.symm hppop)]
              rw [wannsFor_nil_of pp dKids.was hKidsNePP]
              rw [wannsFor_all pp dTail.was hTailWaPath, List.nil_append, List.nil_append]
              have := spansChain_was dTail.items pCur tl.2.1 hTchain
              rw [hTp] at this
              exact wChain_mono _ _ _ _ _ this (le_refl pCur) (le_refl _)
            · intro q hq
              by_cases hqo : q = op
              · subst hqo
                refine Or.inr ⟨ad, List.prefix_refl ad, hadne, hel, hop,
                  Node.node ie tag text cs (some ts), hnode, ?_⟩
                rw [hwas, wannsFor_append, wannsFor_append,
                  wannsFor_all q dOwn.was hOwnWaPath]
                rw [wannsFor_nil_of q dTail.was
                  (fun wa hwa => by rw [hTailWaPath wa hwa]; exact hppop)]
                rw [List.append_nil]
                have hlen : (chargedOf (Node.node ie tag text cs (some ts))).length =
                    (textD (Node.node ie tag text cs (some ts))).length +
                      (tailsOf cs).length := by
                  rw [chargedOf_eq, List.length_append]
                  rfl
                rw [hlen]
                refine wChain_append dOwn.was 0
                  (textD (Node.node ie tag text cs (some ts))).length _
                  (wannsFor q dKids.was) hOchain ?_
                rw [← hOpos]
                exact Φk3
              · rw [hwas, wannsFor_append, wannsFor_append]
                rw [wannsFor_nil_of q dOwn.was
                  (fun wa hwa => by rw [hOwnWaPath wa hwa]; exact fun h => hqo h.symm)]
                rw [wannsFor_nil_of q dTail.was
                  (fun wa hwa => by rw [hTailWaPath wa hwa]; exact fun h => hq h.symm)]
                rw [List.nil_append, List.append_nil]
                rcases Φk4 q hqo with hnil | ⟨k, hk, hchain⟩
                · exact Or.inl hnil
                · exact PathChain_weaken r ad (ad ++ [k]) q _
                    (List.prefix_append ad [k]) hchain
    have hloop : ∀ (all rest : List Node) (j : Nat) (op : List Char) (eCur : Nat)
        (f : Flag) (anns : List RawAnn) (t : List Char) (f2 : Flag) (eCur2 : Nat),
        Node.sizeList rest ≤ N →
        childrenLoop all rest j op eCur f = some (anns, t, f2, eCur2) →
        ∃ d : Decomp, t = d.render ∧ anns = d.anns ∧ ChunksOK f d f2 ∧
          eCur2 = eCur + (tailsOf rest).length ∧
          ∀ (r : Node) (ad : List Nat) (e0 : Node), LoopHyps r ad e0 all rest j op eCur →
            LoopPathConcl r ad rest j op eCur d := by
      intro all rest
      induction rest with
      | nil =>
        intro j op eCur f anns t f2 eCur2 _ hrun
        rw [childrenLoop_nil] at hrun
        injection hrun with hrun
        have he1 : ([] : List RawAnn) = anns := congrArg Prod.fst hrun
        have he2 : ([] : List Char) = t := congrArg (fun x => x.2.1) hrun
        have he3 : f = f2 := congrArg (fun x => x.2.2.1) hrun
        have he4 : eCur = eCur2 := congrArg (fun x => x.2.2.2) hrun
        refine ⟨⟨[], []⟩, he2.symm, he1.symm, ?_, ?_, ?_⟩
        · rw [← he3]
          exact chunks_empty f
        · rw [← he4]
          show eCur = eCur + (0 : Nat)
          omega
        · intro r ad e0 _
          refine ⟨?_, ?_, ?_, ?_⟩
          · intro wa hwa
            exact absurd hwa (List.not_mem_nil wa)
          · intro wa hwa
            exact absurd hwa (List.not_mem_nil wa)
          · show wChain eCur [] (eCur + (0 : Nat))
            rw [wChain]
            omega
          · intro q _
            exact Or.inl rfl
      | cons c cs ihl =>
        intro j op eCur f anns t f2 eCur2 hsz hrun
        rw [childrenLoop_cons] at hrun
        rw [Node.sizeList] at hsz
        by_cases hsk : skipped c = true
        · rw [if_pos hsk] at hrun
          obtain ⟨d, hd1, hd2, hd3, hd4, hd5⟩ :=
            ihl (j + 1) op eCur f anns t f2 eCur2 (by
              have := Node.size_pos c
              omega) hrun
          refine ⟨d, hd1, hd2, hd3, ?_, ?_⟩
          · rw [tailsOf_cons_skip c cs hsk]
            exact hd4
          · intro r ad e0 hyps
            obtain ⟨hr, hel, hadne, hnode, hop, hall, hrest, CP, hcp, hecur, htext⟩ := hyps
            obtain ⟨hget, hdrop⟩ := drop_cons_get all j c cs hrest.symm
            have hyps2 : LoopHyps r ad e0 all cs (j + 1) op eCur :=
              ⟨hr, hel, hadne, hnode, hop, hall, hdrop.symm, CP, by
                rw [hcp, tailsOf_cons_skip c cs hsk], hecur, htext⟩
            obtain ⟨Φ1, Φ2, Φ3, Φ4⟩ := hd5 r ad e0 hyps2
            refine ⟨Φ1, Φ2, ?_, ?_⟩
            · rw [tailsOf_cons_skip c cs hsk]
              exact Φ3
            · intro q hq
              rcases Φ4 q hq with hnil | ⟨k, hk, hchain⟩
              · exact Or.inl hnil
              · exact Or.inr ⟨k, by omega, hchain⟩
        · rw [if_neg hsk] at hrun
          have hskf : skipped c = false := by
            cases hx : skipped c
            · rfl
            · exact absurd hx hsk
          obtain ⟨ca, hca, hb⟩ := Option.bind_eq_some.mp hrun
          obtain ⟨ra, hra, hmap⟩ := Option.map_eq_some'.mp hb
          have he1 : ca.1 ++ ra.1 = anns := congrArg Prod.fst hmap
          have he2 : ca.2.1 ++ ra.2.1 = t := congrArg (fun x => x.2.1) hmap
          have he3 : ra.2.2.1 = f2 := congrArg (fun x => x.2.2.1) hmap
          have he4 : ra.2.2.2 = eCur2 := congrArg (fun x => x.2.2.2) hmap
          obtain ⟨dc, hc1, hc2, hc3, hc4, hc5⟩ :=
            hvisit c (op ++ '/' :: childStep all j c.tag) op eCur f
              ca.1 ca.2.1 ca.2.2.1 ca.2.2.2 (by omega) (by rw [hca])
          obtain ⟨dr, hr1, hr2, hr3, hr4, hr5⟩ :=
            ihl (j + 1) op ca.2.2.2 ca.2.2.1 ra.1 ra.2.1 ra.2.2.1 ra.2.2.2
              (by omega) (by rw [hra])
          refine ⟨dAppend dc dr, ?_, ?_, ?_, ?_, ?_⟩
          · rw [← he2, dAppend_render, ← hc1, ← hr1]
          · rw [← he1, dAppend_anns, ← hc2, ← hr2]
          · rw [← he3]
            exact ChunksOK_append f ca.2.2.1 ra.2.2.1 dc dr hc3 hr3
          · rw [← he4, hr4, hc4, tailsOf_cons_keep c cs hskf, List.length_append]
            omega
          · intro r ad e0 hyps
            obtain ⟨hr, hel, hadne, hnode, hop, hall, hrest, CP, hcp, hecur, htext⟩ := hyps
            obtain ⟨hget, hdrop⟩ := drop_cons_get all j c cs hrest.symm
            have hgetc : e0.children.get? j = some c := by
              rw [← hall]
              exact hget
            have hcel : c.isElem = true := skipped_false_elem c hskf
            have hnodec : nodeAt r (ad ++ [j]) = some c :=
              nodeAt_append_one ad r e0 c j hnode hgetc
            have helc : elemAddr r (ad ++ [j]) = true :=
              elemAddr_append_one ad r e0 c j hel hnode hgetc hcel
            have hopc : pathOf r (ad ++ [j]) =
                some (op ++ '/' :: childStep all j c.tag) := by
              rw [hall]
              exact pathOf_append_one r e0 c ad op j hadne hop hnode hgetc
            have hresolve : resolveCharged r op = some (chargedOf e0) :=
              resolveCharged_pathOf r ad e0 op hr hel hadne hnode hop
            have hchild : VisitHyps r (ad ++ [j]) c
                (op ++ '/' :: childStep all j c.tag) op eCur := by
              refine ⟨hr, helc, by simp, hnodec, hopc, ?_, CP, tailsOf cs, ?_, hecur⟩
              · rw [List.dropLast_concat]
                exact hop
              · rw [hresolve, hcp, tailsOf_cons_keep c cs hskf]
            obtain ⟨Φc1, Φc2, Φc3, Φc4⟩ := hc5 r (ad ++ [j]) hchild
            have hrec : LoopHyps r ad e0 all cs (j + 1) op ca.2.2.2 := by
              refine ⟨hr, hel, hadne, hnode, hop, hall, hdrop.symm, CP ++ tailD c, ?_, ?_, ?_⟩
              · rw [hcp, tailsOf_cons_keep c cs hskf]
                exact (List.append_assoc CP (tailD c) (tailsOf cs)).symm
              · rw [hc4, hecur, List.length_append]
              · rw [hc4]
                omega
            obtain ⟨Φr1, Φr2, Φr3, Φr4⟩ := hr5 r ad e0 hrec
            have hwas : (dAppend dc dr).was = dc.was ++ dr.was := dAppend_was dc dr
            refine ⟨?_, ?_, ?_, ?_⟩
            · intro wa hwa
              rw [hwas] at hwa
              rcases List.mem_append.mp hwa with h | h
              · exact Φc1 wa h
              · exact Φr1 wa h
            · intro wa hwa
              rw [hwas] at hwa
              rcases List.mem_append.mp hwa with h | h
              · rcases Φc2 wa h with hpath | hsub
                · refine subtree_vacuous r e0 ad wa hadne hel hnode ?_ ?_
                  · rw [hpath]
                    exact hop
                  · have hmemf : wa ∈ wannsFor op dc.was := wannsFor_mem op dc.was wa h hpath
                    have := wChain_start_ge (wannsFor op dc.was) eCur
                      (eCur + (tailD c).length) Φc3 wa hmemf
                    omega
                · exact SubtreeAnn_weaken r ad (ad ++ [j]) wa
                    (List.prefix_append ad [j]) hsub
              · exact Φr2 wa h
            · rw [hwas, wannsFor_append, tailsOf_cons_keep c cs hskf, List.length_append]
              have hrchain := Φr3
              rw [hc4] at hrchain
              have := wChain_append (wannsFor op dc.was) eCur (eCur + (tailD c).length)
                (eCur + (tailD c).length + (tailsOf cs).length)
                (wannsFor op dr.was) Φc3 hrchain
              exact wChain_mono _ _ _ _ _ this (le_refl eCur) (by omega)
            · intro q hq
              rw [hwas, wannsFor_append]
              rcases Φr4 q hq with hnil | ⟨k, hk, hchainr⟩
              · rw [hnil, List.append_nil]
                exact Or.inr ⟨j, le_refl j, Φc4 q hq⟩
              · rcases PathChain_combine r hr ad j k q (wannsFor q dc.was)
                  (wannsFor q dr.was) (Φc4 q hq) hchainr (by omega) with hn1 | hn2
                · rw [hn1, List.nil_append]
                  exact Or.inr ⟨k, by omega, hchainr⟩
                · rw [hn2, List.append_nil]
                  exact Or.inr ⟨j, le_refl j, Φc4 q hq⟩
    exact ⟨hvisit, hloop⟩

theorem isEmpty_nil_of (l : List RawAnn) (h : l.isEmpty = true) : l = [] := by
  cases hl : l with
  | nil => rfl
  | cons a b =>
    rw [hl] at h
    exact absurd h (by simp)

theorem docLoop_spec : ∀ (rest all : List Node) (j rCur : Nat) (f : Flag)
    (anns : List RawAnn) (t : List Char) (f2 : Flag) (rCur2 : Nat),
    docLoop all rest j rCur f = some (anns, t, f2, rCur2) →
    ∃ d : Decomp, anns = d.anns ∧ rCur2 = rCur + (tailsOf rest).length ∧
      (∀ wa ∈ d.was, wa.1 ≠ [] ∧ sameClass false wa.1) ∧
      (∀ recs, docRecords all rest j rCur f = some recs →
        (∀ rc ∈ recs, rc.1.isEmpty = false) → t = d.render ∧ ChunksOK f d f2) ∧
      (∀ r : Node, DocHyps r all rest j rCur → DocPathConcl r rest j rCur d) := by
  intro rest
  induction rest with
  | nil =>
    intro all j rCur f anns t f2 rCur2 hrun
    rw [docLoop_nil] at hrun
    injection hrun with hrun
    have he1 : ([] : List RawAnn) = anns := congrArg Prod.fst hrun
    have he2 : ([] : List Char) = t := congrArg (fun x => x.2.1) hrun
    have he3 : f = f2 := congrArg (fun x => x.2.2.1) hrun
    have he4 : rCur = rCur2 := congrArg (fun x => x.2.2.2) hrun
    refine ⟨⟨[], []⟩, he1.symm, ?_, ?_, ?_, ?_⟩
    · rw [← he4]
      show rCur = rCur + (0 : Nat)
      omega
    · intro wa hwa
      exact absurd hwa (List.not_mem_nil wa)
    · intro recs _ _
      refine ⟨he2.symm, ?_⟩
      rw [← he3]
      exact chunks_empty f
    · intro r _
      refine ⟨?_, ?_, ?_, ?_⟩
      · intro wa hwa
        exact absurd hwa (List.not_mem_nil wa)
      · intro wa hwa
        exact absurd hwa (List.not_mem_nil wa)
      · show wChain rCur [] (rCur + (0 : Nat))
        rw [wChain]
        omega
      · intro q _
        exact Or.inl rfl
  | cons c cs ihl =>
    intro all j rCur f anns t f2 rCur2 hrun
    rw [docLoop_cons] at hrun
    by_cases hsk : skipped c = true
    · rw [if_pos hsk] at hrun
      obtain ⟨d, hd1, hd2, hd3, hd4, hd5⟩ := ihl all (j + 1) rCur f anns t f2 rCur2 hrun
      refine ⟨d, hd1, ?_, hd3, ?_, ?_⟩
      · rw [tailsOf_cons_skip c cs hsk]
        exact hd2
      · intro recs hrecs hne
        rw [docRecords_cons, if_pos hsk] at hrecs
        exact hd4 recs hrecs hne
      · intro r hyps
        obtain ⟨hr, hall, hrest, CP, hcp, hrcur⟩ := hyps
        obtain ⟨hget, hdrop⟩ := drop_cons_get all j c cs hrest.symm
        have hyps2 : DocHyps r all cs (j + 1) rCur :=
          ⟨hr, hall, hdrop.symm, CP, by rw [hcp, tailsOf_cons_skip c cs hsk], hrcur⟩
        obtain ⟨Φ1, Φ2, Φ3, Φ4⟩ := hd5 r hyps2
        refine ⟨Φ1, Φ2, ?_, ?_⟩
        · rw [tailsOf_cons_skip c cs hsk]
          exact Φ3
        · intro q hq
          rcases Φ4 q hq with hnil | ⟨k, hk, hchain⟩
          · exact Or.inl hnil
          · exact Or.inr ⟨k, by omega, hchain⟩
    · rw [if_neg hsk] at hrun
      have hskf : skipped c = false := by
        cases hx : skipped c
        · rfl
        · exact absurd hx hsk
      obtain ⟨ca, hca, hb⟩ := Option.bind_eq_some.mp hrun
      obtain ⟨ra, hra, hmap⟩ := Option.map_eq_some'.mp hb
      obtain ⟨dc, hc1, hc2, hc3, hc4, hc5⟩ :=
        (visit_spec (Node.size c)).1 c (childStep all j c.tag) ['.'] rCur f
          ca.1 ca.2.1 ca.2.2.1 ca.2.2.2 (le_refl _) (by rw [hca])
      obtain ⟨dr, hr1, hr2, hr3, hr4, hr5⟩ :=
        ihl all (j + 1) ca.2.2.2 ca.2.2.1 ra.1 ra.2.1 ra.2.2.1 ra.2.2.2 (by rw [hra])
      have he3 : ra.2.2.1 = f2 := by
        by_cases hemp : ca.1.isEmpty = true
        · rw [if_pos hemp] at hmap
          exact congrArg (fun x => x.2.2.1) hmap
        · rw [if_neg hemp] at hmap
          exact congrArg (fun x => x.2.2.1) hmap
      have he4 : ra.2.2.2 = rCur2 := by
        by_cases hemp : ca.1.isEmpty = true
        · rw [if_pos hemp] at hmap
          exact congrArg (fun x => x.2.2.2) hmap
        · rw [if_neg hemp] at hmap
          exact congrArg (fun x => x.2.2.2) hmap
      have hanns : anns = dc.anns ++ dr.anns := by
        by_cases hemp : ca.1.isEmpty = true
        · rw [if_pos hemp] at hmap
          have h1 : ra.1 = anns := congrArg Prod.fst hmap
          have hca1 : ca.1 = [] := isEmpty_nil_of ca.1 hemp
          rw [← h1, ← hc2, ← hr1, hca1, List.nil_append]
        · rw [if_neg hemp] at hmap
          have h1 : ca.1 ++ ra.1 = anns := congrArg Prod.fst hmap
          rw [← h1, hc2, hr1]
      refine ⟨dAppend dc dr, ?_, ?_, ?_, ?_, ?_⟩
      · rw [hanns, dAppend_anns]
      · rw [← he4, hr2, hc4, tailsOf_cons_keep c cs hskf, List.length_append]
        omega
      · intro wa hwa
        rw [dAppend_was] at hwa
        rcases List.mem_append.mp hwa with h | h
        · obtain ⟨it, hit, heq⟩ := List.mem_map.mp h
          obtain ⟨hp1, hp2, _⟩ := itemsOK_mem dc.items _ _ hc3.2 it hit
          rw [← heq]
          exact ⟨hp1, hp2⟩
        · exact hr3 wa h
      · intro recs hrecs hne
        rw [docRecords_cons, if_neg hsk, hca, Option.some_bind] at hrecs
        obtain ⟨recs2, hrecs2, heqr⟩ := Option.map_eq_some'.mp hrecs
        have hhead : (ca.1, ca.2.1) ∈ recs := by
          rw [← heqr]
          exact List.mem_cons_self _ _
        have hempf : ca.1.isEmpty = false := hne (ca.1, ca.2.1) hhead
        have hnot : ¬(ca.1.isEmpty = true) := by
          rw [hempf]
          simp
        rw [if_neg hnot] at hmap
        have ht : ca.2.1 ++ ra.2.1 = t := congrArg (fun x => x.2.1) hmap
        have htail2 : ∀ rc ∈ recs2, rc.1.isEmpty = false := by
          intro rc hrc
          refine hne rc ?_
          rw [← heqr]
          exact List.mem_cons_of_mem _ hrc
        obtain ⟨htr, hchr⟩ := hr4 recs2 hrecs2 htail2
        constructor
        · rw [← ht, hc1, htr, dAppend_render]
        · rw [← he3]
          exact ChunksOK_append f ca.2.2.1 ra.2.2.1 dc dr hc3 hchr
      · intro r hyps
        obtain ⟨hr, hall, hrest, CP, hcp, hrcur⟩ := hyps
        obtain ⟨hget, hdrop⟩ := drop_cons_get all j c cs hrest.symm
        have hgetc : r.children.get? j = some c := by
          rw [← hall]
          exact hget
        have hcel : c.isElem = true := skipped_false_elem c hskf
        have hnodec : nodeAt r [j] = some c := by
          have := nodeAt_append_one [] r r c j (nodeAt_nil r) hgetc
          rw [List.nil_append] at this
          exact this
        have helc : elemAddr r [j] = true := by
          have := elemAddr_append_one [] r r c j rfl (nodeAt_nil r) hgetc hcel
          rw [List.nil_append] at this
          exact this
        have hopc : pathOf r [j] = some (childStep all j c.tag) := by
          rw [hall]
          exact pathOf_root_child r c j hgetc
        have hchild : VisitHyps r [j] c (childStep all j c.tag) ['.'] rCur := by
          refine ⟨hr, helc, by simp, hnodec, hopc, rfl, CP, tailsOf cs, ?_, hrcur⟩
          rw [resolveCharged, if_pos rfl, hcp, tailsOf_cons_keep c cs hskf]
        obtain ⟨Φc1, Φc2, Φc3, Φc4⟩ := hc5 r [j] hchild
        have hyps2 : DocHyps r all cs (j + 1) ca.2.2.2 := by
          refine ⟨hr, hall, hdrop.symm, CP ++ tailD c, ?_, ?_⟩
          · rw [hcp, tailsOf_cons_keep c cs hskf]
            exact (List.append_assoc CP (tailD c) (tailsOf cs)).symm
          · rw [hc4, hrcur, List.length_append]
        obtain ⟨Φr1, Φr2, Φr3, Φr4⟩ := hr5 r hyps2
        have hwas : (dAppend dc dr).was = dc.was ++ dr.was := dAppend_was dc dr
        refine ⟨?_, ?_, ?_, ?_⟩
        · intro wa hwa
          rw [hwas] at hwa
          rcases List.mem_append.mp hwa with h | h
          · exact Φc1 wa h
          · exact Φr1 wa h
        · intro wa hwa
          rw [hwas] at hwa
          rcases List.mem_append.mp hwa with h | h
          · rcases Φc2 wa h with hpath | hsub
            · exact Or.inl hpath
            · exact Or.inr (SubtreeAnn_weaken r [] [j] wa List.nil_prefix hsub)
          · exact Φr2 wa h
        · rw [hwas, wannsFor_append, tailsOf_cons_keep c cs hskf, List.length_append]
          have hrchain := Φr3
          rw [hc4] at hrchain
          have := wChain_append (wannsFor ['.'] dc.was) rCur (rCur + (tailD c).length)
            (rCur + (tailD c).length + (tailsOf cs).length)
            (wannsFor ['.'] dr.was) Φc3 hrchain
          exact wChain_mono _ _ _ _ _ this (le_refl rCur) (by omega)
        · intro q hq
          rw [hwas, wannsFor_append]
          rcases Φr4 q hq with hnil | ⟨k, hk, hchainr⟩
          · rw [hnil, List.append_nil]
            exact Or.inr ⟨j, le_refl j, Φc4 q hq⟩
          · have hcombine : PathChain r ([] ++ [j]) q (wannsFor q dc.was) ∧
                PathChain r ([] ++ [k]) q (wannsFor q dr.was) := by
              rw [List.nil_append, List.nil_append]
              exact ⟨Φc4 q hq, hchainr⟩
            rcases PathChain_combine r hr [] j k q (wannsFor q dc.was)
              (wannsFor q dr.was) hcombine.1 hcombine.2 (by omega) with hn1 | hn2
            · rw [hn1, List.nil_append]
              exact Or.inr ⟨k, by omega, hchainr⟩
            · rw [hn2, List.append_nil]
              exact Or.inr ⟨j, le_refl j, Φc4 q hq⟩

theorem filter_map_comm {α β : Type} (f : α → β) (p : β → Bool) :
    ∀ l : List α, (l.map f).filter p = (l.filter (fun a => p (f a))).map f := by
  intro l
  induction l with
  | nil => rfl
  | cons a rest ih =>
    rw [List.map_cons, List.filter_cons, List.filter_cons]
    by_cases hp : p (f a) = true
    · rw [if_pos hp, if_pos hp, List.map_cons, ih]
    · rw [if_neg hp, if_neg hp, ih]

/-- Claim C7: every annotation of a successful run satisfies `start ≤ stop`
(and trivially `0 ≤ start`); annotations charging the same text run (the same
path) are pairwise disjoint and in increasing order; and any annotation whose
span starts inside the own leading text of the node its path addresses marks a
maximal word span of that text — own-text offsets are never produced by a
descendant's processing. -/
theorem c7_invariants (r : Node) (f : Flag) (anns : List RawAnn) (t : List Char)
    (f2 : Flag) (hr : tagsOk r = true)
    (h : getDocumentRaw r f = some (anns, t, f2)) :
    (∀ an ∈ anns, an.start ≤ an.stop) ∧
    (∀ q : List Char,
      (anns.filter (fun an => an.path == q)).Pairwise (fun x y => x.stop < y.start)) ∧
    (∀ an ∈ anns, ∀ (da : List Nat) (n : Node), da ≠ [] → elemAddr r da = true →
      pathOf r da = some an.path → nodeAt r da = some n →
      an.start < (textD n).length → IsWordSpan (textD n) an.start an.stop) := by
  cases r with
  | node ie g tx cs tl =>
    rw [getDocumentRaw] at h
    obtain ⟨q4, hq4, hqm⟩ := Option.map_eq_some'.mp h
    have h1 : q4.1 = anns := congrArg Prod.fst hqm
    have hrun : docLoop cs cs 0 0 f = some (anns, q4.2.1, q4.2.2.1, q4.2.2.2) := by
      rw [hq4, ← h1]
    obtain ⟨d, hda, hcur, hwf, hrecs, hguard⟩ :=
      docLoop_spec cs cs 0 0 f anns q4.2.1 q4.2.2.1 q4.2.2.2 hrun
    have hhyps : DocHyps (Node.node ie g tx cs tl) cs cs 0 0 := by
      refine ⟨hr, rfl, (List.drop_zero cs).symm, [], ?_, rfl⟩
      rw [chargedRoot_eq, List.nil_append]
      rfl
    obtain ⟨Φ1, Φ2, Φ3, Φ4⟩ := hguard _ hhyps
    have hmem : ∀ an ∈ anns, ∃ wa ∈ d.was, wa.2 = an := by
      intro an han
      rw [hda, anns_eq_was] at han
      obtain ⟨wa, hwa, heq⟩ := List.mem_map.mp han
      exact ⟨wa, hwa, heq⟩
    refine ⟨?_, ?_, ?_⟩
    · intro an han
      obtain ⟨wa, hwa, heq⟩ := hmem an han
      obtain ⟨ct, σ, τ, _, _, _, hstop⟩ := Φ1 wa hwa
      have hne := (hwf wa hwa).1
      have hlen : 1 ≤ wa.1.length := by
        cases hw : wa.1 with
        | nil => exact absurd hw hne
        | cons a b => simp
      rw [← heq]
      omega
    · intro q
      have hfilter : anns.filter (fun an => an.path == q) =
          (wannsFor q d.was).map Prod.snd := by
        rw [hda, anns_eq_was, filter_map_comm]
        rfl
      rw [hfilter]
      by_cases hq : q = ['.']
      · subst hq
        exact List.pairwise_map.mpr (wChain_pairwise _ _ _ Φ3)
      · rcases Φ4 q hq with hnil | ⟨k, hk, hchain⟩
        · rw [hnil]
          exact List.Pairwise.nil
        · rcases hchain with hnil | ⟨da, _, _, _, _, nd, _, hc⟩
          · rw [hnil]
            exact List.Pairwise.nil
          · exact List.pairwise_map.mpr (wChain_pairwise _ _ _ hc)
    · intro an han da n hdane helda hpa hnda hlt
      obtain ⟨wa, hwa, heq⟩ := hmem an han
      subst heq
      rcases Φ2 wa hwa with hdot | hsub
      · exfalso
        cases hda2 : da with
        | nil => exact hdane hda2
        | cons k rest =>
          rw [hda2] at helda hpa
          rw [hdot] at hpa
          exact pathOf_ne_dot _ k rest ['.'] hr helda hpa rfl
      · obtain ⟨da2, hpre, hdane2, helda2, hqa2, hws⟩ := hsub
        have hdd : da = da2 :=
          pathOf_inj _ da da2 wa.2.path hr helda helda2 hpa hqa2
        subst hdd
        exact hws n hnda hlt

/-- Witness for C7 at `exampleA`: the two raw annotations of
`<p>Hello<b>world</b></p>` satisfy all three invariant clauses. -/
theorem c7_witness :
    (∀ an ∈ [RawAnn.mk false "p".toList 0 4, RawAnn.mk true "p/b".toList 0 4],
      an.start ≤ an.stop) ∧
    (∀ q : List Char,
      (([RawAnn.mk false "p".toList 0 4, RawAnn.mk true "p/b".toList 0 4]).filter
        (fun an => an.path == q)).Pairwise (fun x y => x.stop < y.start)) ∧
    (∀ an ∈ [RawAnn.mk false "p".toList 0 4, RawAnn.mk true "p/b".toList 0 4],
      ∀ (da : List Nat) (n : Node), da ≠ [] → elemAddr exampleA da = true →
      pathOf exampleA da = some an.path → nodeAt exampleA da = some n →
      an.start < (textD n).length → IsWordSpan (textD n) an.start an.stop) :=
  c7_invariants exampleA none
    [RawAnn.mk false "p".toList 0 4, RawAnn.mk true "p/b".toList 0 4]
    " Helloworld ".toList (some true) (by decide) (by decide)

theorem block_out_flag (b : Node) (op pp : List Char) (pCur : Nat) (f : Flag)
    (res : List RawAnn × List Char × Flag × Nat)
    (hbin : ¬ inline_tags.contains b.tag = true) (ht : b.tail = none)
    (h : getWordStandoff b op pp pCur f = some res) : res.2.2.1 = some true := by
  cases b with
  | node ie tag text cs tail =>
    have ht2 : tail = none := ht
    subst ht2
    rw [getWordStandoff_node] at h
    obtain ⟨own, hown, hb1⟩ := Option.bind_eq_some.mp h
    obtain ⟨kids, hkids, htail⟩ := Option.bind_eq_some.mp hb1
    rw [tailStep_none] at htail
    injection htail with htail
    have hcomp : (if (!inline_tags.contains tag) = true then some true
        else if tag = "br".toList then some true else kids.2.2.1) = res.2.2.1 :=
      congrArg (fun x => x.2.2.1) htail
    rw [← hcomp]
    have hbt : inline_tags.contains tag = false := by
      cases hx : inline_tags.contains tag
      · rfl
      · exact absurd hx hbin
    rw [hbt]
    rfl

theorem entered_true_first_unglued (c : Node) (op pp : List Char) (pCur : Nat)
    (res : List RawAnn × List Char × Flag × Nat)
    (h : getWordStandoff c op pp pCur (some true) = some res)
    (an : RawAnn) (rest : List RawAnn) (hres : res.1 = an :: rest) : an.glue = false := by
  obtain ⟨d, ht, ha, hc, _, _⟩ := (visit_spec (Node.size c)).1 c op pp pCur (some true)
    res.1 res.2.1 res.2.2.1 res.2.2.2 (le_refl _) (by rw [h])
  rw [hres] at ha
  cases hi : d.items with
  | nil =>
    rw [Decomp.anns, hi] at ha
    exact absurd ha (by simp)
  | cons it irest =>
    rw [Decomp.anns, hi, List.map_cons] at ha
    injection ha with ha1 _
    rw [ha1]
    exact chunks_first_unglued d res.2.2.1 hc it irest hi

theorem render_head_nonws (d : Decomp) (g fOut : Flag) (h : ChunksOK g d fOut)
    (ch : Char) (hh : d.render.head? = some ch) (hws : isWS ch = false) :
    d.lead = [] ∧ ∃ it irest, d.items = it :: irest ∧
      (it.an.glue = true ↔ g = some false) := by
  obtain ⟨hl, hitems⟩ := h
  cases hld : d.lead with
  | cons c0 lt =>
    exfalso
    rw [Decomp.render, hld, List.cons_append, List.head?_cons] at hh
    injection hh with hh
    rw [← hh] at hws
    have := hl c0 (by rw [hld]; simp)
    rw [this] at hws
    exact absurd hws (by simp)
  | nil =>
    refine ⟨rfl, ?_⟩
    cases hi : d.items with
    | nil =>
      exfalso
      rw [Decomp.render, hld, hi, renderItems, List.nil_append] at hh
      exact absurd hh (by simp)
    | cons it irest =>
      refine ⟨it, irest, rfl, ?_⟩
      rw [hld, if_pos rfl, hi, itemsOK] at hitems
      exact hitems.2.2.2.2.1

/-- Claim C3 (amended): adjacency effects between processed siblings. (1) After
a block-type sibling with NO tail text, the whitespace state is `true` and the
first word of the next sibling's visit is never glued. (2) For any two adjacent
processed siblings where the first has no tail text, if the first emitted some
text and the second's text starts with a non-whitespace character, then the
second's first word is glued exactly when the first's emitted text does not end
in whitespace. (The original claim's unconditional block statement is refuted
by `c3_counterexample`: tail text after the block sibling can re-enable glue.) -/
theorem c3_amended :
    (∀ (all : List Node) (b c : Node) (cs2 : List Node) (j : Nat) (op : List Char)
       (eCur : Nat) (f : Flag) (res : List RawAnn × List Char × Flag × Nat),
      ¬ inline_tags.contains b.tag = true → b.tail = none →
      skipped b = false → skipped c = false →
      childrenLoop all (b :: c :: cs2) j op eCur f = some res →
      ∃ rb rc,
        getWordStandoff b (op ++ '/' :: childStep all j b.tag) op eCur f = some rb ∧
        rb.2.2.1 = some true ∧
        getWordStandoff c (op ++ '/' :: childStep all (j + 1) c.tag) op rb.2.2.2
          rb.2.2.1 = some rc ∧
        ∀ (an : RawAnn) (rest : List RawAnn), rc.1 = an :: rest → an.glue = false) ∧
    (∀ (all : List Node) (c1 c2 : Node) (cs2 : List Node) (j : Nat) (op : List Char)
       (eCur : Nat) (f : Flag) (res : List RawAnn × List Char × Flag × Nat),
      c1.tail = none → skipped c1 = false → skipped c2 = false →
      childrenLoop all (c1 :: c2 :: cs2) j op eCur f = some res →
      ∃ r1 r2,
        getWordStandoff c1 (op ++ '/' :: childStep all j c1.tag) op eCur f = some r1 ∧
        getWordStandoff c2 (op ++ '/' :: childStep all (j + 1) c2.tag) op r1.2.2.2
          r1.2.2.1 = some r2 ∧
        (r1.2.1 ≠ [] → ∀ ch, r2.2.1.head? = some ch → isWS ch = false →
          ∃ (an : RawAnn) (rest : List RawAnn) (cl : Char), r2.1 = an :: rest ∧
            r1.2.1.getLast? = some cl ∧ (an.glue = true ↔ isWS cl = false))) := by
  constructor
  · intro all b c cs2 j op eCur f res hbin htail hskb hskc hrun
    rw [childrenLoop_cons, if_neg (by rw [hskb]; simp)] at hrun
    obtain ⟨ca, hca, hb2⟩ := Option.bind_eq_some.mp hrun
    obtain ⟨ra, hra, _⟩ := Option.map_eq_some'.mp hb2
    rw [childrenLoop_cons, if_neg (by rw [hskc]; simp)] at hra
    obtain ⟨cb, hcb, _⟩ := Option.bind_eq_some.mp hra
    have hflag : ca.2.2.1 = some true := block_out_flag b _ op eCur f ca hbin htail hca
    refine ⟨ca, cb, hca, hflag, hcb, ?_⟩
    intro an rest hres
    have hcb2 : getWordStandoff c (op ++ '/' :: childStep all (j + 1) c.tag) op
        ca.2.2.2 (some true) = some cb := by
      rw [← hflag]
      exact hcb
    exact entered_true_first_unglued c _ op ca.2.2.2 cb hcb2 an rest hres
  · intro all c1 c2 cs2 j op eCur f res htail hsk1 hsk2 hrun
    rw [childrenLoop_cons, if_neg (by rw [hsk1]; simp)] at hrun
    obtain ⟨ca, hca, hb2⟩ := Option.bind_eq_some.mp hrun
    obtain ⟨ra, hra, _⟩ := Option.map_eq_some'.mp hb2
    rw [childrenLoop_cons, if_neg (by rw [hsk2]; simp)] at hra
    obtain ⟨cb, hcb, _⟩ := Option.bind_eq_some.mp hra
    refine ⟨ca, cb, hca, hcb, ?_⟩
    intro hne ch hhead hwsf
    obtain ⟨d1, ht1, ha1, hch1, _, _⟩ :=
      (visit_spec (Node.size c1)).1 c1 (op ++ '/' :: childStep all j c1.tag) op eCur f
        ca.1 ca.2.1 ca.2.2.1 ca.2.2.2 (le_refl _) (by rw [hca])
    obtain ⟨d2, ht2, ha2, hch2, _, _⟩ :=
      (visit_spec (Node.size c2)).1 c2 (op ++ '/' :: childStep all (j + 1) c2.tag) op
        ca.2.2.2 ca.2.2.1 cb.1 cb.2.1 cb.2.2.1 cb.2.2.2 (le_refl _) (by rw [hcb])
    have hh2 : d2.render.head? = some ch := by
      rw [← ht2]
      exact hhead
    obtain ⟨hlead2, it, irest, hitems2, hglueiff⟩ :=
      render_head_nonws d2 ca.2.2.1 cb.2.2.1 hch2 ch hh2 hwsf
    have hgl : ca.2.1.getLast? = some (ca.2.1.getLast hne) :=
      List.getLast?_eq_getLast _ hne
    have hrne1 : d1.render ≠ [] := by
      rw [← ht1]
      exact hne
    have hiff := render_last_nonws d1 f ca.2.2.1 hch1 hrne1
    refine ⟨it.an, irest.map (fun p => p.an), ca.2.1.getLast hne, ?_, hgl, ?_⟩
    · rw [ha2, Decomp.anns, hitems2, List.map_cons]
    · constructor
      · intro hg
        obtain ⟨c0, hc0, hw0⟩ := hiff.mp (hglueiff.mp hg)
        rw [← ht1] at hc0
        rw [hgl] at hc0
        injection hc0 with hc0
        rw [hc0]
        exact hw0
      · intro hw
        refine hglueiff.mpr (hiff.mpr ⟨ca.2.1.getLast hne, ?_, hw⟩)
        rw [← ht1]
        exact hgl

/-- Witness for the amended C3 at the sibling pair `<div>a</div><b>y</b>`:
the block `div` leaves the whitespace state `true` and the first word of
`b` is not glued. -/
theorem c3_witness :
    ∃ rb rc,
      getWordStandoff c3divA
        ("p".toList ++ '/' :: childStep [c3divA, c3bY] 0 c3divA.tag)
        "p".toList 0 none = some rb ∧
      rb.2.2.1 = some true ∧
      getWordStandoff c3bY
        ("p".toList ++ '/' :: childStep [c3divA, c3bY] (0 + 1) c3bY.tag)
        "p".toList rb.2.2.2 rb.2.2.1 = some rc ∧
      ∀ (an : RawAnn) (rest : List RawAnn), rc.1 = an :: rest → an.glue = false :=
  c3_amended.1 [c3divA, c3bY] c3divA c3bY [] 0 "p".toList 0 none
    ([⟨false, "p/div".toList, 0, 0⟩, ⟨false, "p/b".toList, 0, 0⟩], " a y".toList,
      some false, 0)
    (by decide) (by decide) (by decide) (by decide) (by decide)

/-- Claim C2 (amended): a block-type node emits the leading synthetic space and
sets the whitespace state at the start of its visit only when its own text is
not `None` (lines 66-70 guard both under `element.text != None`); every
block-type node, even one with no text, children, or tail, still emits the
trailing synthetic space of lines 99-101 and leaves the whitespace state
`true`. In particular a fully empty block node contributes exactly one space —
the trailing one — and no annotations. -/
theorem c2_amended :
    (∀ (e : Node) (op pp : List Char) (pCur : Nat) (f : Flag) (s : List Char)
       (res : List RawAnn × List Char × Flag × Nat),
      ¬ inline_tags.contains e.tag = true → e.text = some s →
      getWordStandoff e op pp pCur f = some res →
      ∃ rest2, res.2.1 = ' ' :: (s ++ rest2)) ∧
    (∀ (e : Node) (op pp : List Char) (pCur : Nat) (f : Flag),
      ¬ inline_tags.contains e.tag = true → e.text = none → e.children = [] →
      e.tail = none →
      getWordStandoff e op pp pCur f = some ([], [' '], some true, pCur)) := by
  constructor
  · intro e op pp pCur f s res hbin htext hrun
    cases e with
    | node ie tag text cs tail =>
      have htext2 : text = some s := htext
      subst htext2
      have hbt : inline_tags.contains tag = false := by
        cases hx : inline_tags.contains tag
        · rfl
        · exact absurd hx hbin
      rw [getWordStandoff_node] at hrun
      obtain ⟨own, hown, hb1⟩ := Option.bind_eq_some.mp hrun
      obtain ⟨kids, hkids, htail⟩ := Option.bind_eq_some.mp hb1
      rw [ownTextStep_some] at hown
      obtain ⟨tr, htr, hm⟩ := Option.map_eq_some'.mp hown
      subst hm
      cases tail with
      | none =>
        rw [tailStep_none] at htail
        injection htail with htail
        have ht : (if inline_tags.contains tag then [] else [' ']) ++ s ++
            (kids.2.1 ++ (if (!inline_tags.contains tag) = true then [' ']
              else if tag = "br".toList then [' '] else [])) = res.2.1 :=
          congrArg (fun x => x.2.1) htail
        refine ⟨kids.2.1 ++ (if (!inline_tags.contains tag) = true then [' ']
          else if tag = "br".toList then [' '] else []), ?_⟩
        rw [← ht, hbt, if_neg (by simp)]
        simp
      | some ts =>
        rw [tailStep_some] at htail
        obtain ⟨tl, htl, hm2⟩ := Option.map_eq_some'.mp htail
        have ht : (if inline_tags.contains tag then [] else [' ']) ++ s ++
            (kids.2.1 ++ ((if (!inline_tags.contains tag) = true then [' ']
              else if tag = "br".toList then [' '] else []) ++ ts)) = res.2.1 :=
          congrArg (fun x => x.2.1) hm2
        refine ⟨kids.2.1 ++ ((if (!inline_tags.contains tag) = true then [' ']
          else if tag = "br".toList then [' '] else []) ++ ts), ?_⟩
        rw [← ht, hbt, if_neg (by simp)]
        simp
  · intro e op pp pCur f hbin htext hch htl
    cases e with
    | node ie tag text cs tail =>
      have htext2 : text = none := htext
      have hch2 : cs = [] := hch
      have htl2 : tail = none := htl
      subst htext2
      subst hch2
      subst htl2
      have hbt : inline_tags.contains tag = false := by
        cases hx : inline_tags.contains tag
        · rfl
        · exact absurd hx hbin
      rw [getWordStandoff_node, ownTextStep_none, Option.some_bind, childrenLoop_nil,
        Option.some_bind, tailStep_none]
      have hcond : (!inline_tags.contains tag) = true := by
        rw [hbt]
        rfl
      rw [if_pos hcond, if_pos hcond]
      rfl

/-- Witness for the amended C2: a fully empty block `div`, visited at cursor 7
with the whitespace flag still unassigned, returns no annotations, exactly the
trailing space, the flag set `true`, and an unchanged cursor. -/
theorem c2_witness :
    getWordStandoff (Node.node true "div".toList none [] none) "div".toList ['.'] 7 none =
      some ([], [' '], some true, 7) :=
  c2_amended.2 (Node.node true "div".toList none [] none) "div".toList ['.'] 7 none
    (by decide) rfl rfl rfl

theorem itemGroupsCons_nil (p : Piece) : itemGroupsCons p [] = [[p]] := rfl

theorem itemGroupsCons_cons (p : Piece) (g : List Piece) (gs : List (List Piece)) :
    itemGroupsCons p (g :: gs) = (p :: g) :: gs := rfl

theorem itemGroups_nil : itemGroups [] = [] := rfl

theorem itemGroups_cons_eq (p : Piece) (rest : List Piece) :
    itemGroups (p :: rest) =
      if p.trail = [] then itemGroupsCons p (itemGroups rest)
      else [p] :: itemGroups rest := rfl

theorem itemGroups_shape : ∀ (rest : List Piece) (p : Piece),
    ∃ g gs, itemGroups (p :: rest) = (p :: g) :: gs := by
  intro rest
  induction rest with
  | nil =>
    intro p
    by_cases ht : p.trail = []
    · exact ⟨[], [], by rw [itemGroups_cons_eq, if_pos ht, itemGroups_nil, itemGroupsCons_nil]⟩
    · exact ⟨[], [], by rw [itemGroups_cons_eq, if_neg ht, itemGroups_nil]⟩
  | cons q rest2 ih =>
    intro p
    by_cases ht : p.trail = []
    · obtain ⟨g, gs, hg⟩ := ih q
      exact ⟨q :: g, gs, by rw [itemGroups_cons_eq, if_pos ht, hg, itemGroupsCons_cons]⟩
    · exact ⟨[], itemGroups (q :: rest2), by rw [itemGroups_cons_eq, if_neg ht]⟩

theorem itemGroups_flatten : ∀ l : List Piece, (itemGroups l).flatten = l := by
  intro l
  induction l with
  | nil => rfl
  | cons p rest ih =>
    rw [itemGroups_cons_eq]
    by_cases ht : p.trail = []
    · rw [if_pos ht]
      cases hg : itemGroups rest with
      | nil =>
        rw [itemGroupsCons_nil]
        rw [hg] at ih
        have hrest : rest = [] := by
          rw [← ih]
          rfl
        rw [hrest]
        rfl
      | cons g gs =>
        rw [itemGroupsCons_cons]
        rw [hg, List.flatten_cons] at ih
        rw [List.flatten_cons, List.cons_append, ih]
    · rw [if_neg ht, List.flatten_cons, ih]
      rfl

theorem groupWords_nil (u : List Char) :
    groupWords u [] = if u = [] then [] else [u] := rfl

theorem groupWords_cons (u : List Char) (g : List Piece) (gs : List (List Piece)) :
    groupWords u (g :: gs) = (u ++ (g.map (fun p => p.pw)).flatten) ::
      gs.map (fun g2 => (g2.map (fun p => p.pw)).flatten) := rfl

theorem groupWords_zero (gs : List (List Piece)) :
    groupWords [] gs = gs.map (fun g => (g.map (fun p => p.pw)).flatten) := by
  cases gs with
  | nil => rfl
  | cons g gs2 =>
    rw [groupWords_cons, List.map_cons, List.nil_append]

theorem wordsAux_items : ∀ (l : List Piece) (f fOut : Flag) (u : List Char),
    itemsOK f l fOut →
    wordsAux (renderItems l) u.reverse = groupWords u (itemGroups l) := by
  intro l
  induction l with
  | nil =>
    intro f fOut u _
    rw [itemGroups_nil, groupWords_nil]
    show wordsAux [] u.reverse = _
    cases u with
    | nil => rfl
    | cons a u2 =>
      rw [wordsAux]
      rw [isEmpty_false_of_ne _ (by simp)]
      rw [if_neg (by simp), List.reverse_reverse]
      rfl
  | cons p rest ih =>
    intro f fOut u h
    rw [itemsOK] at h
    obtain ⟨hpw, hcls, htr, hfn, hglue, hrest⟩ := h
    rw [renderItems, wordsAux_word_append p.pw hcls, ← List.reverse_append]
    rw [itemGroups_cons_eq]
    by_cases ht : p.trail = []
    · rw [if_pos ht, ht, List.nil_append]
      rw [ih _ _ (u ++ p.pw) hrest]
      cases hg : itemGroups rest with
      | nil =>
        rw [groupWords_nil,
          if_neg (fun hx => hpw (List.append_eq_nil.mp hx).2),
          itemGroupsCons_nil, groupWords_cons]
        simp
      | cons g gs2 =>
        rw [groupWords_cons, itemGroupsCons_cons, groupWords_cons]
        simp [List.append_assoc]
    · rw [if_neg ht]
      have haccne : (u ++ p.pw).reverse ≠ [] := by
        intro hx
        exact hpw (List.append_eq_nil.mp (List.reverse_eq_nil_iff.mp hx)).2
      have hhead : p.trail ++ renderItems rest = [] ∨
          ∃ c r2, p.trail ++ renderItems rest = c :: r2 ∧ isWS c = true := by
        cases htrl : p.trail with
        | nil => exact absurd htrl ht
        | cons c tr2 =>
          refine Or.inr ⟨c, tr2 ++ renderItems rest, by rw [List.cons_append], ?_⟩
          exact htr c (by rw [htrl]; simp)
      rw [wordsAux_flush _ _ haccne hhead, List.reverse_reverse]
      rw [wordsAux_ws_append p.trail htr]
      have hih : wordsAux (renderItems rest) [] =
          groupWords [] (itemGroups rest) := ih _ _ [] hrest
      rw [groupWords_zero] at hih
      show (u ++ p.pw) :: wordsAux (renderItems rest) [] = _
      rw [hih, groupWords_cons]
      simp

theorem wordsOf_items (l : List Piece) (f fOut : Flag) (h : itemsOK f l fOut) :
    wordsOf (renderItems l) =
      (itemGroups l).map (fun g => (g.map (fun p => p.pw)).flatten) := by
  have hw : wordsAux (renderItems l) [] = groupWords [] (itemGroups l) :=
    wordsAux_items l f fOut [] h
  rw [groupWords_zero] at hw
  exact hw

theorem glueRuns_cons_eq (a : RawAnn) (rest : List RawAnn) (b : RawAnn)
    (g : List RawAnn) (gs : List (List RawAnn)) (h : glueRuns rest = (b :: g) :: gs) :
    glueRuns (a :: rest) =
      if b.glue then (a :: b :: g) :: gs else [a] :: (b :: g) :: gs := by
  rw [glueRuns, h]

theorem glueRuns_shape : ∀ (rest : List RawAnn) (a : RawAnn),
    ∃ g gs, glueRuns (a :: rest) = (a :: g) :: gs := by
  intro rest
  induction rest with
  | nil => intro a; exact ⟨[], [], rfl⟩
  | cons b rest2 ih =>
    intro a
    obtain ⟨g, gs, hg⟩ := ih b
    by_cases hb : b.glue = true
    · exact ⟨b :: g, gs, by rw [glueRuns_cons_eq a (b :: rest2) b g gs hg, if_pos hb]⟩
    · exact ⟨[], (b :: g) :: gs,
        by rw [glueRuns_cons_eq a (b :: rest2) b g gs hg, if_neg hb]⟩

theorem glueRuns_items : ∀ (l : List Piece) (f fOut : Flag), itemsOK f l fOut →
    glueRuns (l.map (fun p => p.an)) =
      (itemGroups l).map (fun g => g.map (fun p => p.an)) := by
  intro l
  induction l with
  | nil => intro f fOut _; rfl
  | cons p rest ih =>
    intro f fOut h
    rw [itemsOK] at h
    obtain ⟨hpw, hcls, htr, hfn, hglue, hrest⟩ := h
    cases rest with
    | nil =>
      rw [itemGroups_cons_eq]
      by_cases ht : p.trail = []
      · rw [if_pos ht, itemGroups_nil, itemGroupsCons_nil]
        rfl
      · rw [if_neg ht, itemGroups_nil]
        rfl
    | cons q rest2 =>
      obtain ⟨g, gs, hqg⟩ := itemGroups_shape rest2 q
      have ihr := ih _ _ hrest
      rw [hqg] at ihr
      have hstr : glueRuns ((q :: rest2).map (fun p => p.an)) =
          (q.an :: g.map (fun p => p.an)) :: gs.map (fun g2 => g2.map (fun p => p.an)) := by
        rw [ihr, List.map_cons, List.map_cons]
      rw [List.map_cons]
      rw [glueRuns_cons_eq (p.an) _ (q.an) (g.map (fun p => p.an))
        (gs.map (fun g2 => g2.map (fun p => p.an))) hstr]
      rw [itemsOK] at hrest
      have hqglue := hrest.2.2.2.2.1
      rw [itemGroups_cons_eq]
      by_cases ht : p.trail = []
      · rw [if_pos ht] at hqglue
        have hq : q.an.glue = true := hqglue.mpr rfl
        rw [if_pos hq, if_pos ht, hqg, itemGroupsCons_cons]
        simp
      · rw [if_neg ht] at hqglue
        have hq : q.an.glue = false := by
          cases hx : q.an.glue
          · rfl
          · rw [hx] at hqglue
            exact absurd (hqglue.mp rfl) (by simp)
        rw [if_neg (by rw [hq]; simp), if_neg ht, hqg]
        simp

theorem glueRunsStr_map : ∀ (l : List RawAnn),
    (∀ an ∈ l, ((serializeAnn an).head? = some '+') ↔ an.glue = true) →
    glueRunsStr (l.map serializeAnn) =
      (glueRuns l).map (fun g => g.map serializeAnn) := by
  intro l
  induction l with
  | nil => intro _; rfl
  | cons a rest ih =>
    intro hh
    have ihr := ih (fun an han => hh an (List.mem_cons_of_mem a han))
    cases rest with
    | nil => rfl
    | cons b rest2 =>
      obtain ⟨g, gs, hbg⟩ := glueRuns_shape rest2 b
      have hstr : glueRunsStr ((b :: rest2).map serializeAnn) =
          (serializeAnn b :: g.map serializeAnn) ::
            gs.map (fun g2 => g2.map serializeAnn) := by
        rw [ihr, hbg, List.map_cons, List.map_cons]
      rw [List.map_cons]
      rw [glueRunsStr_cons_eq (serializeAnn a) _ (serializeAnn b) (g.map serializeAnn)
        (gs.map (fun g2 => g2.map serializeAnn)) hstr]
      rw [glueRuns_cons_eq a (b :: rest2) b g gs hbg]
      have hiff := hh b (by simp)
      by_cases hb2 : b.glue = true
      · rw [if_pos hb2, if_pos (hiff.mpr hb2)]
        simp
      · rw [if_neg hb2, if_neg (fun hx => hb2 (hiff.mp hx))]
        simp

theorem flatten_map_map {α β : Type} (h : α → β) :
    ∀ L : List (List α), (L.map (fun g => g.map h)).flatten = L.flatten.map h := by
  intro L
  induction L with
  | nil => rfl
  | cons g gs ih =>
    rw [List.map_cons, List.flatten_cons, List.flatten_cons, List.map_append, ih]

/-- Claim C1 (amended): for a well-tagged document whose run succeeds and whose
processed top-level children all produce at least one annotation (without this
proviso the empty-standoff filter breaks the correspondence — see
`c1_counterexample`), the glued annotations are in left-to-right document order
and in one-to-one correspondence with the maximal whitespace-delimited
non-whitespace runs of the reconstructed plain text: the raw annotations
partition into consecutive glue groups, one per run in order; the glue pass
emits exactly the concatenated serializations of each group; and resolving each
annotation's `path:start-stop` span against the charged text of the addressed
node yields exactly the characters whose concatenation across the group equals
the corresponding run. -/
theorem c1_amended (r : Node) (f : Flag) (anns : List RawAnn) (t : List Char) (f2 : Flag)
    (recs : List (List RawAnn × List Char))
    (hr : tagsOk r = true)
    (h : getDocumentRaw r f = some (anns, t, f2))
    (hrecs : docRecords r.children r.children 0 0 f = some recs)
    (hnd : ∀ rc ∈ recs, rc.1.isEmpty = false) :
    ∃ groups : List (List (List Char × RawAnn)),
      anns = (groups.map (fun g => g.map Prod.snd)).flatten ∧
      glueRuns anns = groups.map (fun g => g.map Prod.snd) ∧
      wordsOf t = groups.map (fun g => (g.map Prod.fst).flatten) ∧
      gluePass (anns.map serializeAnn) =
        groups.map (fun g => ((g.map Prod.snd).map serializeAnn).flatten) ∧
      ∀ g ∈ groups, ∀ wa ∈ g, ∃ ct, resolveCharged r wa.2.path = some ct ∧
        extract ct wa.2.start wa.2.stop = wa.1 := by
  cases r with
  | node ie g0 tx cs tl =>
    rw [getDocumentRaw] at h
    obtain ⟨q4, hq4, hqm⟩ := Option.map_eq_some'.mp h
    have h1 : q4.1 = anns := congrArg Prod.fst hqm
    have h2 : q4.2.1 = t := congrArg (fun x => x.2.1) hqm
    have h3 : q4.2.2.1 = f2 := congrArg (fun x => x.2.2) hqm
    have hrun : docLoop cs cs 0 0 f = some (anns, t, f2, q4.2.2.2) := by
      rw [hq4, ← h1, ← h2, ← h3]
    obtain ⟨d, hda, hcur, hwf, hrecsI, hguard⟩ :=
      docLoop_spec cs cs 0 0 f anns t f2 q4.2.2.2 hrun
    obtain ⟨ht, hck⟩ := hrecsI recs hrecs hnd
    have hhyps : DocHyps (Node.node ie g0 tx cs tl) cs cs 0 0 := by
      refine ⟨hr, rfl, (List.drop_zero cs).symm, [], ?_, rfl⟩
      rw [chargedRoot_eq, List.nil_append]
      rfl
    obtain ⟨Φ1, Φ2, Φ3, Φ4⟩ := hguard _ hhyps
    have hheads : ∀ an ∈ anns, ((serializeAnn an).head? = some '+') ↔ an.glue = true := by
      intro an han
      rw [hda, anns_eq_was] at han
      obtain ⟨wa, hwa, heq⟩ := List.mem_map.mp han
      subst heq
      rcases Φ2 wa hwa with hdot | hsub
      · refine serializeAnn_head_iff wa.2 ?_ ?_
        · rw [hdot]
          simp
        · rw [hdot]
          decide
      · obtain ⟨da, _, hdane, helda, hqa, _⟩ := hsub
        obtain ⟨hne2, hhd2⟩ := pathOf_ok _ da wa.2.path hr helda hqa
        exact serializeAnn_head_iff wa.2 hne2 hhd2
    have hgm : ((itemGroups d.items).map (fun g => g.map projWA)).map
        (fun g => g.map Prod.snd) =
        (itemGroups d.items).map (fun g => g.map (fun p => p.an)) := by
      rw [List.map_map]
      apply List.map_congr_left
      intro g _
      show (g.map projWA).map Prod.snd = g.map (fun p => p.an)
      rw [List.map_map]
      rfl
    have hgr : glueRuns anns =
        (itemGroups d.items).map (fun g => g.map (fun p => p.an)) := by
      rw [hda]
      exact glueRuns_items d.items _ _ hck.2
    refine ⟨(itemGroups d.items).map (fun g => g.map projWA), ?_, ?_, ?_, ?_, ?_⟩
    · rw [hgm, flatten_map_map, itemGroups_flatten, hda]
      rfl
    · rw [hgr, hgm]
    · rw [ht, Decomp.render]
      show wordsAux (d.lead ++ renderItems d.items) [] = _
      rw [wordsAux_ws_append d.lead hck.1]
      have hw := wordsOf_items d.items _ _ hck.2
      rw [show wordsAux (renderItems d.items) [] = wordsOf (renderItems d.items) from rfl,
        hw, List.map_map]
      apply List.map_congr_left
      intro g _
      show (g.map (fun p => p.pw)).flatten = ((g.map projWA).map Prod.fst).flatten
      rw [List.map_map]
      rfl
    · rw [(c4_glue_pass (anns.map serializeAnn)).1, glueRunsStr_map anns hheads, hgr]
      simp only [List.map_map]
      apply List.map_congr_left
      intro g _
      show (List.map serializeAnn (List.map (fun p => p.an) g)).flatten =
        (List.map (serializeAnn ∘ Prod.snd) (List.map projWA g)).flatten
      rw [List.map_map, List.map_map]
      refine congrArg List.flatten (List.map_congr_left ?_)
      intro p _
      rfl
    · intro g hg wa hwa
      have hwain : wa ∈ d.was := by
        have hfl : ((itemGroups d.items).map (fun g2 => g2.map projWA)).flatten = d.was := by
          rw [flatten_map_map, itemGroups_flatten]
          rfl
        rw [← hfl]
        exact List.mem_flatten.mpr ⟨g, hg, hwa⟩
      exact resolvesWA_extract _ wa (Φ1 wa hwain)

/-- Witness for the amended C1 at `exampleA` (fresh run): one glue group pairing
the two annotations with the single run `Helloworld` of `" Helloworld "`. -/
theorem c1_witness :
    ∃ groups : List (List (List Char × RawAnn)),
      [RawAnn.mk false "p".toList 0 4, RawAnn.mk true "p/b".toList 0 4] =
        (groups.map (fun g => g.map Prod.snd)).flatten ∧
      glueRuns [RawAnn.mk false "p".toList 0 4, RawAnn.mk true "p/b".toList 0 4] =
        groups.map (fun g => g.map Prod.snd) ∧
      wordsOf " Helloworld ".toList =
        groups.map (fun g => (g.map Prod.fst).flatten) ∧
      gluePass ([RawAnn.mk false "p".toList 0 4,
          RawAnn.mk true "p/b".toList 0 4].map serializeAnn) =
        groups.map (fun g => ((g.map Prod.snd).map serializeAnn).flatten) ∧
      ∀ g ∈ groups, ∀ wa ∈ g, ∃ ct, resolveCharged exampleA wa.2.path = some ct ∧
        extract ct wa.2.start wa.2.stop = wa.1 :=
  c1_amended exampleA none
    [RawAnn.mk false "p".toList 0 4, RawAnn.mk true "p/b".toList 0 4]
    " Helloworld ".toList (some true)
    [([RawAnn.mk false "p".toList 0 4, RawAnn.mk true "p/b".toList 0 4],
      " Helloworld ".toList)]
    (by decide) (by decide) (by decide) (by decide)

end Standoff
